import Mathlib

/-! # Revised simplex engine (`src/c/rsm.c`): shallow embedding

The C program is embedded as pure Lean functions over explicit state.

* `double` is modelled by `ℚ` (exact arithmetic); `fabs` is `|·|`.
* `int` is modelled by `Int` where negative values occur in the source
  (`status`, `entering_index`, `leaving_index`, `phase`, `iterations`,
  `basic_cycles`) and by `Nat` for dimensions and array indices; no counter
  comes near the range of a 32-bit `int`, so there is no wrap-around.
* A C array is a total function from `Nat`; an assignment `a[i] = v` is
  `Function.update a i v`.  The flat matrix `Binverse` keeps the source's
  indexing `i*nrows + j`.
* `for (i = 0; i != n; ++i) body` is `forLoop n body`.
* The local `s` of `find_leaving_variable` is read uninitialised when the
  entering variable's status is none of the three nonbasic tags; the value
  read is the parameter `s_uninit`, and theorems hold for every such value.
* The `for (;;)` loop of `rsm_solve` is `rsm_loop` with a fuel argument;
  `rsm_solve` gives it 10001 passes, and `rsm_solve_terminates` shows that
  this is always enough.
-/

namespace RSM

/-! ## Constants -/

/-- The largest finite `double`, `(2 - 2^-52) * 2^1023`, used by the source as practical infinity. -/
def DBL_MAX : ℚ := ((2 ^ 1024 - 2 ^ 971 : Nat) : ℚ)

/-- The constant `INT_MAX` of a 32-bit `int`. -/
def INT_MAX : Int := 2147483647

/-- Source: `const double TOLERANCE = 1e-7;` -/
def TOLERANCE : ℚ := 1 / 10000000

/-- Status tag: nonbasic at the lower bound. -/
def NONBASIC_LOWER : Int := 1

/-- Status tag: nonbasic at the upper bound. -/
def NONBASIC_UPPER : Int := -1

/-- Status tag: nonbasic and free. -/
def NONBASIC_FREE : Int := 2

/-- Status tag: basic. -/
def BASIC : Int := 0

/-! ## Data model (`rsm.h`) -/

/-- The C struct `model`. -/
structure Model where
  nrows : Nat
  nvars : Nat
  nonzeroes : Nat
  indexes : Nat → Nat
  row_starts : Nat → Nat
  elements : Nat → ℚ
  b : Nat → ℚ
  c : Nat → ℚ
  xl : Nat → ℚ
  xu : Nat → ℚ

/-- The C struct `instance`.  The pointer `costs` aliases either `initial_costs` or the
model's `c`; neither is written during a solve, so the field holds the array pointed to. -/
structure Instance where
  phase : Int
  iterations : Int
  entering_index : Int
  leaving_index : Int
  status : Nat → Int
  basics : Nat → Nat
  basic_cycles : Nat → Int
  objective : ℚ
  TOLERANCE : ℚ
  max_change : ℚ
  initial_costs : Nat → ℚ
  costs : Nat → ℚ
  x : Nat → ℚ
  xl : Nat → ℚ
  xu : Nat → ℚ
  basic_costs : Nat → ℚ
  pi : Nat → ℚ
  reduced_costs : Nat → ℚ
  gradient : Nat → ℚ
  Binverse : Nat → ℚ

/-- The loop `for (i = 0; i != n; ++i) s = body i s`, running `i = 0, 1, ..., n-1` in order. -/
def forLoop {σ : Type} : Nat → (Nat → σ → σ) → σ → σ
  | 0, _, s => s
  | n + 1, body, s => body n (forLoop n body s)

/-! ## Computation parts -/

/-- Source `compute_pi`: `pi = basic_costs' * Binverse`, skipping basic costs within tolerance. -/
def compute_pi (M : Model) (I : Instance) : Instance :=
  let nrows := M.nrows
  let pi0 := forLoop nrows (fun i pi => Function.update pi i 0) I.pi
  let pi1 := forLoop nrows (fun i pi =>
    let c := I.basic_costs i
    if |c| > I.TOLERANCE then
      forLoop nrows (fun j pi => Function.update pi j (pi j + c * I.Binverse (i * nrows + j))) pi
    else pi) pi0
  { I with pi := pi1 }

/-- Source `compute_reduced_cost`: `reduced cost = cost - pi' * A`, computed row by row.
The inner loop `for (j = row_starts[i]; j != row_starts[i+1]; ++j)` runs
`row_starts[i+1] - row_starts[i]` times (the offsets are monotone in a well-formed model). -/
def compute_reduced_cost (M : Model) (I : Instance) : Instance :=
  let rc0 := forLoop M.nvars
    (fun i rc => Function.update rc i (if I.status i ≠ 0 then I.costs i else 0)) I.reduced_costs
  let rc1 := forLoop M.nrows (fun i rc =>
    let p := I.pi i
    if |p| > I.TOLERANCE then
      forLoop (M.row_starts (i + 1) - M.row_starts i) (fun t rc =>
        let j := M.row_starts i + t
        let k := M.indexes j
        if I.status k ≠ 0 then Function.update rc k (rc k - p * M.elements j) else rc) rc
    else rc) rc0
  { I with reduced_costs := rc1 }

/-- The locals `cycles`, `entering_index`, `minrc` of `find_entering_variable`. -/
structure EnteringScan where
  cycles : Int
  entering_index : Int
  minrc : ℚ

/-- The score `rc` that `find_entering_variable` computes for variable `i`. -/
def entering_score (I : Instance) (i : Nat) : ℚ :=
  let s := I.status i
  if s = NONBASIC_FREE then - |I.reduced_costs i| else (s : ℚ) * I.reduced_costs i

/-- One iteration of the loop of `find_entering_variable`. -/
def entering_body (I : Instance) (i : Nat) (st : EnteringScan) : EnteringScan :=
  let rc := entering_score I i
  let c := I.basic_cycles i
  if (c < st.cycles ∧ rc < - I.TOLERANCE) ∨ (c = st.cycles ∧ rc < st.minrc) then
    { minrc := rc, cycles := I.basic_cycles i, entering_index := (i : Int) }
  else st

/-- The loop of `find_entering_variable` over the first `n` variables. -/
def entering_scan (I : Instance) (n : Nat) : EnteringScan :=
  forLoop n (entering_body I) { cycles := INT_MAX, entering_index := -2, minrc := 0 }

/-- Source `find_entering_variable`: the chosen index, or `-2` when there is none. -/
def find_entering_variable (M : Model) (I : Instance) : Int :=
  (entering_scan I M.nvars).entering_index

/-- The inner scan of `compute_gradient` for one row: starting at offset `j`, with `n` entries
left before `row_starts[i+1]`, look for column `entering_index`; stop at the first larger
column.  Returns `some v` when `found` is set (with `v = elements[j]`). -/
def scan_row (M : Model) (entering_index : Int) : Nat → Nat → Option ℚ
  | _, 0 => none
  | j, n + 1 =>
    let column : Int := (M.indexes j : Int)
    if column = entering_index then some (M.elements j)
    else if column > entering_index then none
    else scan_row M entering_index (j + 1) n

/-- Source `compute_gradient`: `gradient = Binverse * entering column of A`. -/
def compute_gradient (M : Model) (I : Instance) : Instance :=
  let nrows := M.nrows
  let g0 := forLoop nrows (fun i g => Function.update g i 0) I.gradient
  let g1 := forLoop nrows (fun i g =>
    match scan_row M I.entering_index (M.row_starts i) (M.row_starts (i + 1) - M.row_starts i) with
    | some v => forLoop nrows (fun j g => Function.update g j (g j + v * I.Binverse (j * nrows + i))) g
    | none => g) g0
  { I with gradient := g1 }

/-- The locals `max_change`, `leaving_index`, `to_lower` of `find_leaving_variable`. -/
structure LeavingScan where
  max_change : ℚ
  leaving_index : Int
  to_lower : Bool

/-- The direction `s` of `find_leaving_variable`.  The `switch` has no case for a status other
than the three nonbasic tags; there the local `s` is read uninitialised, which is modelled by
the indeterminate value `s_uninit`. -/
def entering_direction (I : Instance) (s_uninit : ℚ) : ℚ :=
  let e := I.entering_index.toNat
  if I.status e = NONBASIC_LOWER then 1
  else if I.status e = NONBASIC_UPPER then -1
  else if I.status e = NONBASIC_FREE then (if I.reduced_costs e > 0 then -1 else 1)
  else s_uninit

/-- One iteration of the ratio-test loop of `find_leaving_variable`. -/
def leaving_body (M : Model) (I : Instance) (s : ℚ) (i : Nat) (st : LeavingScan) : LeavingScan :=
  let g := I.gradient i * -s
  if |g| > I.TOLERANCE then
    let j := I.basics i
    let fb : Bool × ℚ :=
      if g > 0 then (if I.xu j < DBL_MAX then (true, I.xu j) else (false, 0))
      else (if I.xl j > -DBL_MAX then (true, I.xl j) else (false, 0))
    if fb.1 then
      let z := (fb.2 - I.x j) / g
      if z < st.max_change ∨ (j ≥ M.nvars ∧ z ≤ st.max_change) then
        { max_change := z, leaving_index := (i : Int), to_lower := decide (g < 0) }
      else st
    else st
  else st

/-- Source `find_leaving_variable`: returns `(leaving_index, *max_change_out, *to_lower_out)`. -/
def find_leaving_variable (M : Model) (I : Instance) (s_uninit : ℚ) : Int × ℚ × Bool :=
  let e := I.entering_index.toNat
  let s := entering_direction I s_uninit
  let r := forLoop M.nrows (leaving_body M I s)
    { max_change := I.xu e - I.xl e, leaving_index := -2, to_lower := false }
  (r.leaving_index, r.max_change * s, r.to_lower)

/-- Source `update_variables`: `x[basics[i]] -= max_change * gradient[i]` for every row. -/
def update_variables (M : Model) (I : Instance) : Instance :=
  let c := I.max_change
  { I with x := forLoop M.nrows (fun i x =>
      let j := I.basics i
      Function.update x j (x j - c * I.gradient i)) I.x }

/-- Source `update_Binverse`: the in-place elementary row operation pivoting on row `li`. -/
def update_Binverse (M : Model) (I : Instance) : Instance :=
  let nrows := M.nrows
  let li := I.leaving_index.toNat
  let ilg := 1 / I.gradient li
  let Bi1 := forLoop nrows (fun i Bi =>
    if i ≠ li then
      let gr := I.gradient i * ilg
      forLoop nrows (fun j Bi =>
        Function.update Bi (i * nrows + j) (Bi (i * nrows + j) - gr * Bi (li * nrows + j))) Bi
    else Bi) I.Binverse
  let Bi2 := forLoop nrows (fun j Bi =>
    Function.update Bi (li * nrows + j) (Bi (li * nrows + j) * ilg)) Bi1
  { I with Binverse := Bi2 }

/-! ## Solve -/

/-- How one pass through the body of the `for (;;)` loop of `rsm_solve` ends. -/
inductive Flow where
  | next (I : Instance)
  | brk (I : Instance)
  | ret (r : String) (I : Instance)

/-- The instance a loop pass leaves behind, whichever way the pass ends. -/
def Flow.state : Flow → Instance
  | Flow.next I => I
  | Flow.brk I => I
  | Flow.ret _ I => I

/-- The phase-1 test `for (i ...) if (basics[i] > nvars && fabs(x[basics[i]]) > TOLERANCE) return`. -/
def phase1_infeasible (M : Model) (I : Instance) : Bool :=
  (List.range M.nrows).any
    (fun i => decide (I.basics i > M.nvars ∧ |I.x (I.basics i)| > I.TOLERANCE))

/-- The phase 1 to phase 2 switch: `costs = M->c`, resynchronise `basic_costs`, `phase = 2`. -/
def enter_phase2 (M : Model) (I : Instance) : Instance :=
  let I1 := { I with costs := M.c }
  let I2 := { I1 with basic_costs := forLoop M.nrows (fun i bc =>
    if I1.basics i ≤ M.nvars then Function.update bc i (M.c (I1.basics i)) else bc) I1.basic_costs }
  { I2 with phase := 2 }

/-- The statements of the pivot branch after the unboundedness test: cycle-counter reset,
`update_variables`, the entering update, and the exchange or the bound flip. -/
def apply_pivot (M : Model) (I : Instance) (to_lower : Bool) : Instance :=
  let e := I.entering_index.toNat
  let I1 := if |I.max_change| > I.TOLERANCE then
      { I with basic_cycles := forLoop M.nvars (fun i bc => Function.update bc i 0) I.basic_cycles }
    else I
  let I2 := update_variables M I1
  let I3 := { I2 with x := Function.update I2.x e (I2.x e + I2.max_change) }
  if I3.leaving_index ≥ 0 then
    let I4 := update_Binverse M I3
    let li := I4.leaving_index.toNat
    let rli := I4.basics li
    let I5 := { I4 with x := Function.update I4.x rli (if to_lower then I4.xl rli else I4.xu rli) }
    let I6 := { I5 with
      status := Function.update I5.status rli (if to_lower then NONBASIC_LOWER else NONBASIC_UPPER) }
    let I7 := { I6 with basics := Function.update I6.basics li e }
    let I8 := { I7 with basic_costs := Function.update I7.basic_costs li (I7.costs e) }
    { I8 with status := Function.update I8.status e BASIC }
  else
    { I3 with status := Function.update I3.status e (- I3.status e) }

/-- The first statements of the pivot branch: `basic_cycles[entering_index] += 1`,
`compute_gradient`, and `leaving_index = find_leaving_variable(M, I, &max_change, &to_lower)`.
Returns the instance together with the local `to_lower`. -/
def start_pivot (M : Model) (s_uninit : ℚ) (I : Instance) : Instance × Bool :=
  let e := I.entering_index.toNat
  let I1 := { I with basic_cycles := Function.update I.basic_cycles e (I.basic_cycles e + 1) }
  let I2 := compute_gradient M I1
  let r := find_leaving_variable M I2 s_uninit
  ({ I2 with leaving_index := r.1, max_change := r.2.1 }, r.2.2)

/-- The pivot branch (`entering_index >= 0`) of the loop body. -/
def pivot_branch (M : Model) (s_uninit : ℚ) (I : Instance) : Flow :=
  let p := start_pivot M s_uninit I
  if p.1.phase = 2 ∧ p.1.max_change ≥ DBL_MAX / 2 then Flow.ret "unbounded" p.1
  else Flow.next (apply_pivot M p.1 p.2)

/-- The first statements of the loop body after the iteration test: `compute_pi`,
`compute_reduced_cost` and `entering_index = find_entering_variable(M, I)`. -/
def price (M : Model) (I : Instance) : Instance :=
  let I1 := compute_pi M I
  let I2 := compute_reduced_cost M I1
  { I2 with entering_index := find_entering_variable M I2 }

/-- The statement `++I->iterations`. -/
def tick (I : Instance) : Instance := { I with iterations := I.iterations + 1 }

/-- One pass through the body of the `for (;;)` loop of `rsm_solve`. -/
def rsm_body (M : Model) (s_uninit : ℚ) (I : Instance) : Flow :=
  let I0 := tick I
  if I0.iterations > 10000 then Flow.ret "Iteration limit" I0
  else
    let I3 := price M I0
    if I3.entering_index < 0 then
      if I3.phase = 1 then
        if phase1_infeasible M I3 then Flow.ret "Infeasible" I3
        else Flow.next (enter_phase2 M I3)
      else Flow.brk I3
    else pivot_branch M s_uninit I3

/-- The code after the loop: `objective = sum of x[i] * c[i]` over the structural variables. -/
def final_objective (M : Model) (I : Instance) : Instance :=
  { I with objective := forLoop M.nvars (fun i objective => objective + I.x i * M.c i) 0 }

/-- The `for (;;)` loop of `rsm_solve`, run for at most `fuel` passes; `none` when the fuel
runs out before the loop is left. -/
def rsm_loop (M : Model) (s_uninit : ℚ) : Nat → Instance → Option (String × Instance)
  | 0, _ => none
  | fuel + 1, I =>
    match rsm_body M s_uninit I with
    | Flow.next I1 => rsm_loop M s_uninit fuel I1
    | Flow.brk I1 => some ("optimal", final_objective M I1)
    | Flow.ret r I1 => some (r, I1)

/-- The first statements of `rsm_solve`: `iterations = 0; phase = 1`. -/
def restart (I : Instance) : Instance := { I with iterations := 0, phase := 1 }

/-- Source `rsm_solve`: the returned string and the instance as the call leaves it.  The loop
is given 10001 passes, which always suffice (`rsm_solve_terminates`). -/
def rsm_solve (M : Model) (s_uninit : ℚ) (I : Instance) : Option (String × Instance) :=
  rsm_loop M s_uninit 10001 (restart I)

/-! ## Building concrete states -/

/-- An array given by its initial segment, zero elsewhere (as `calloc` leaves it). -/
def arr {α : Type} [Zero α] (l : List α) : Nat → α := fun i => l.getD i 0

/-! ## Invariants of the data model -/

/-- Invariant 2 of the data model: a nonbasic variable tagged with a bound sits on that bound. -/
def AtBounds (M : Model) (I : Instance) : Prop :=
  ∀ j, j < M.nrows + M.nvars →
    (I.status j = NONBASIC_LOWER → I.x j = I.xl j) ∧
    (I.status j = NONBASIC_UPPER → I.x j = I.xu j)

/-- The array `basics` is injective on the rows. -/
def BasicsInjective (M : Model) (I : Instance) : Prop :=
  ∀ r, r < M.nrows → ∀ r', r' < M.nrows → I.basics r = I.basics r' → r = r'

/-- A variable has status `BASIC` exactly when it occurs in `basics`. -/
def StatusMatchesBasics (M : Model) (I : Instance) : Prop :=
  ∀ j, j < M.nrows + M.nvars → (I.status j = BASIC ↔ ∃ r, r < M.nrows ∧ I.basics r = j)

/-- The contribution of row `i` to the reduced cost of column `k`: `pi[i]` times the stored
entries of row `i` in column `k`, when `|pi[i]|` exceeds the tolerance and `k` is nonbasic. -/
def row_price (M : Model) (I : Instance) (i k : Nat) : ℚ :=
  if |I.pi i| > I.TOLERANCE then
    ∑ t in Finset.range (M.row_starts (i + 1) - M.row_starts i),
      (if M.indexes (M.row_starts i + t) = k ∧ I.status k ≠ 0 then
        I.pi i * M.elements (M.row_starts i + t) else 0)
  else 0


/-- The value found by the row scan of `compute_gradient` for row `i`, or `0`. -/
def column_entry (M : Model) (e : Int) (i : Nat) : ℚ :=
  match scan_row M e (M.row_starts i) (M.row_starts (i + 1) - M.row_starts i) with
  | some v => v
  | none => 0


/-- The four strings `rsm_solve` can return. -/
def IsOutcome (r : String) : Prop :=
  r = "optimal" ∨ r = "Infeasible" ∨ r = "unbounded" ∨ r = "Iteration limit"


/-- In phase 2 the active costs are the model's `c`, and the cost of every basic variable with
index at most `nvars` has been resynchronised with `c`. -/
def Phase2Synced (M : Model) (I : Instance) : Prop :=
  I.costs = M.c ∧ ∀ i, i < M.nrows → I.basics i ≤ M.nvars → I.basic_costs i = M.c (I.basics i)

/-- Loop-head invariant of `rsm_solve` on the phase: it is 1 or 2, and in phase 2 the costs
are synchronised with the model. -/
def PhaseInv (M : Model) (I : Instance) : Prop :=
  (I.phase = 1 ∨ I.phase = 2) ∧ (I.phase = 2 → Phase2Synced M I)


/-- Every stored column index of the model is a structural variable. -/
def ColumnsInRange (M : Model) : Prop :=
  ∀ i, i < M.nrows → ∀ t, t < M.row_starts (i + 1) - M.row_starts i →
    M.indexes (M.row_starts i + t) < M.nvars

/-- Every member of `basics` is one of the `nrows + nvars` variables. -/
def BasicsInRange (M : Model) (I : Instance) : Prop :=
  ∀ r, r < M.nrows → I.basics r < M.nrows + M.nvars

/-- The instances `I` and `J` agree outside the nominal extent of every array, and on the
fields that a pass never writes. -/
def SameOutside (M : Model) (I J : Instance) : Prop :=
  (∀ i, M.nrows + M.nvars ≤ i → J.x i = I.x i ∧ J.status i = I.status i) ∧
  (∀ i, M.nrows ≤ i →
    J.basics i = I.basics i ∧ J.basic_costs i = I.basic_costs i ∧ J.pi i = I.pi i ∧
      J.gradient i = I.gradient i) ∧
  (∀ i, M.nvars ≤ i →
    J.basic_cycles i = I.basic_cycles i ∧ J.reduced_costs i = I.reduced_costs i) ∧
  (∀ i, M.nrows * M.nrows ≤ i → J.Binverse i = I.Binverse i) ∧
  J.xl = I.xl ∧ J.xu = I.xu ∧ J.initial_costs = I.initial_costs ∧ J.TOLERANCE = I.TOLERANCE ∧
  (J.costs = I.costs ∨ J.costs = M.c)

/-- Whether a pass continues the loop. -/
def Flow.isNext : Flow → Bool
  | Flow.next _ => true
  | _ => false

/-- The instance `I` with the cycle counters of the variables selected by `S` raised by `d`
and `iterations` raised by `t`. -/
def shiftCounters (S : Nat → Bool) (d t : Int) (I : Instance) : Instance :=
  { I with
    basic_cycles := fun i => if S i then I.basic_cycles i + d else I.basic_cycles i,
    iterations := I.iterations + t }

/-- A finite record of an instance: every array as the list of its entries. -/
structure Snapshot where
  phase : Int
  iterations : Int
  entering_index : Int
  leaving_index : Int
  status : List Int
  basics : List Nat
  basic_cycles : List Int
  objective : ℚ
  TOLERANCE : ℚ
  max_change : ℚ
  initial_costs : List ℚ
  costs : List ℚ
  x : List ℚ
  xl : List ℚ
  xu : List ℚ
  basic_costs : List ℚ
  pi : List ℚ
  reduced_costs : List ℚ
  gradient : List ℚ
  Binverse : List ℚ
deriving DecidableEq

/-- The instance whose arrays hold the recorded entries, and zero beyond them. -/
def Snapshot.toInstance (s : Snapshot) : Instance :=
  { phase := s.phase, iterations := s.iterations, entering_index := s.entering_index,
    leaving_index := s.leaving_index, status := arr s.status, basics := arr s.basics,
    basic_cycles := arr s.basic_cycles, objective := s.objective, TOLERANCE := s.TOLERANCE,
    max_change := s.max_change, initial_costs := arr s.initial_costs, costs := arr s.costs,
    x := arr s.x, xl := arr s.xl, xu := arr s.xu, basic_costs := arr s.basic_costs,
    pi := arr s.pi, reduced_costs := arr s.reduced_costs, gradient := arr s.gradient,
    Binverse := arr s.Binverse }

/-- The record of an instance over the nominal extent of each array. -/
def snapshot (M : Model) (I : Instance) : Snapshot :=
  { phase := I.phase, iterations := I.iterations, entering_index := I.entering_index,
    leaving_index := I.leaving_index,
    status := (List.range (M.nrows + M.nvars)).map I.status,
    basics := (List.range M.nrows).map I.basics,
    basic_cycles := (List.range M.nvars).map I.basic_cycles,
    objective := I.objective, TOLERANCE := I.TOLERANCE, max_change := I.max_change,
    initial_costs := (List.range M.nvars).map I.initial_costs,
    costs := (List.range M.nvars).map I.costs,
    x := (List.range (M.nrows + M.nvars)).map I.x,
    xl := (List.range (M.nrows + M.nvars)).map I.xl,
    xu := (List.range (M.nrows + M.nvars)).map I.xu,
    basic_costs := (List.range M.nrows).map I.basic_costs,
    pi := (List.range M.nrows).map I.pi,
    reduced_costs := (List.range M.nvars).map I.reduced_costs,
    gradient := (List.range M.nrows).map I.gradient,
    Binverse := (List.range (M.nrows * M.nrows)).map I.Binverse }

/-- The recorded lists do not exceed the nominal extent of the arrays. -/
def Fits (M : Model) (s : Snapshot) : Prop :=
  s.status.length ≤ M.nrows + M.nvars ∧ s.x.length ≤ M.nrows + M.nvars ∧
  s.xl.length ≤ M.nrows + M.nvars ∧ s.xu.length ≤ M.nrows + M.nvars ∧
  s.basics.length ≤ M.nrows ∧ s.basic_costs.length ≤ M.nrows ∧ s.pi.length ≤ M.nrows ∧
  s.gradient.length ≤ M.nrows ∧
  s.basic_cycles.length ≤ M.nvars ∧ s.reduced_costs.length ≤ M.nvars ∧
  s.costs.length ≤ M.nvars ∧ s.initial_costs.length ≤ M.nvars ∧
  s.Binverse.length ≤ M.nrows * M.nrows

/-- Every array of the instance is zero beyond its nominal extent. -/
def ZeroOutside (M : Model) (I : Instance) : Prop :=
  (∀ i, M.nrows + M.nvars ≤ i → I.x i = 0 ∧ I.status i = 0 ∧ I.xl i = 0 ∧ I.xu i = 0) ∧
  (∀ i, M.nrows ≤ i →
    I.basics i = 0 ∧ I.basic_costs i = 0 ∧ I.pi i = 0 ∧ I.gradient i = 0) ∧
  (∀ i, M.nvars ≤ i →
    I.basic_cycles i = 0 ∧ I.reduced_costs i = 0 ∧ I.costs i = 0 ∧ I.initial_costs i = 0) ∧
  (∀ i, M.nrows * M.nrows ≤ i → I.Binverse i = 0)

/-- The side conditions under which a pass commutes with a shift of the cycle counters: the
tolerance is nonnegative, every nonbasic structural variable is selected by `S`, and the pass
is a degenerate pivot that continues the loop. -/
def DegeneratePivot (M : Model) (s_uninit : ℚ) (S : Nat → Bool) (I : Instance) : Prop :=
  0 ≤ I.TOLERANCE ∧
  (∀ i, i < M.nvars → I.status i ≠ BASIC → S i = true) ∧
  0 ≤ (price M (tick I)).entering_index ∧
  (rsm_body M s_uninit I).isNext = true ∧
  ¬ |(start_pivot M s_uninit (price M (tick I))).1.max_change| > I.TOLERANCE

/-- Beale's cycling LP: minimise `-3/4 x4 + 20 x5 - 1/2 x6 + 6 x7` subject to
`x1 + 1/4 x4 - 8 x5 - x6 + 9 x7 = 0`, `x2 + 1/2 x4 - 12 x5 - 1/2 x6 + 3 x7 = 0`,
`x3 + x6 = 1`, `x ≥ 0`; columns `x1 .. x7` are indices `0 .. 6`. -/
def bealeM : Model :=
  { nrows := 3, nvars := 7, nonzeroes := 12,
    indexes := arr [0, 3, 4, 5, 6, 1, 3, 4, 5, 6, 2, 5], row_starts := arr [0, 5, 10, 12],
    elements := arr [1, 1/4, -8, -1, 9, 1, 1/2, -12, -1/2, 3, 1, 1],
    b := arr [0, 0, 1], c := arr [0, 0, 0, -3/4, 20, -1/2, 6],
    xl := arr [0, 0, 0, 0, 0, 0, 0],
    xu := arr [DBL_MAX, DBL_MAX, DBL_MAX, DBL_MAX, DBL_MAX, DBL_MAX, DBL_MAX] }

/-- The starting instance for Beale's LP: the seven structural variables nonbasic at their
lower bound `0`, the three artificial row variables (indices 7, 8, 9, bounds `[0, DBL_MAX]`)
basic at `(0, 0, 1)` with phase-1 cost `1`, `Binverse` the identity. -/
def bealeI : Instance :=
  { phase := 0, iterations := 0, entering_index := 0, leaving_index := 0,
    status := arr [1, 1, 1, 1, 1, 1, 1, 0, 0, 0], basics := arr [7, 8, 9],
    basic_cycles := arr [0, 0, 0, 0, 0, 0, 0],
    objective := 0, TOLERANCE := TOLERANCE, max_change := 0,
    initial_costs := arr [0, 0, 0, 0, 0, 0, 0], costs := arr [0, 0, 0, 0, 0, 0, 0],
    x := arr [0, 0, 0, 0, 0, 0, 0, 0, 0, 1], xl := arr [0, 0, 0, 0, 0, 0, 0, 0, 0, 0],
    xu := arr [DBL_MAX, DBL_MAX, DBL_MAX, DBL_MAX, DBL_MAX, DBL_MAX, DBL_MAX,
      DBL_MAX, DBL_MAX, DBL_MAX],
    basic_costs := arr [1, 1, 1], pi := arr [0, 0, 0],
    reduced_costs := arr [0, 0, 0, 0, 0, 0, 0], gradient := arr [0, 0, 0],
    Binverse := arr [1, 0, 0, 0, 1, 0, 0, 0, 1] }

/-- The six structural variables of Beale's LP that take turns entering the basis. -/
def bealeS : Nat → Bool := fun i => decide (i < 7 ∧ i ≠ 2)


/-- The records of the instance after `n = 0, ..., 12` passes on Beale's LP. -/
def bealeTrace : Nat → Snapshot
  | 0 =>
    { phase := 1, iterations := 0, entering_index := 0, leaving_index := 0,
      status := [1, 1, 1, 1, 1, 1, 1, 0, 0, 0], basics := [7, 8, 9],
      basic_cycles := [0, 0, 0, 0, 0, 0, 0], objective := 0, TOLERANCE := TOLERANCE,
      max_change := 0, initial_costs := [0, 0, 0, 0, 0, 0, 0], costs := [0, 0, 0, 0, 0, 0, 0],
      x := [0, 0, 0, 0, 0, 0, 0, 0, 0, 1], xl := [0, 0, 0, 0, 0, 0, 0, 0, 0, 0],
      xu := [DBL_MAX, DBL_MAX, DBL_MAX, DBL_MAX, DBL_MAX, DBL_MAX, DBL_MAX, DBL_MAX, DBL_MAX, DBL_MAX],
      basic_costs := [1, 1, 1], pi := [0, 0, 0], reduced_costs := [0, 0, 0, 0, 0, 0, 0],
      gradient := [0, 0, 0], Binverse := [1, 0, 0, 0, 1, 0, 0, 0, 1] }
  | 1 =>
    { phase := 1, iterations := 1, entering_index := 6, leaving_index := 1,
      status := [1, 1, 1, 1, 1, 1, 0, 0, 1, 0], basics := [7, 6, 9],
      basic_cycles := [0, 0, 0, 0, 0, 0, 1], objective := 0, TOLERANCE := TOLERANCE,
      max_change := 0, initial_costs := [0, 0, 0, 0, 0, 0, 0], costs := [0, 0, 0, 0, 0, 0, 0],
      x := [0, 0, 0, 0, 0, 0, 0, 0, 0, 1], xl := [0, 0, 0, 0, 0, 0, 0, 0, 0, 0],
      xu := [DBL_MAX, DBL_MAX, DBL_MAX, DBL_MAX, DBL_MAX, DBL_MAX, DBL_MAX, DBL_MAX, DBL_MAX, DBL_MAX],
      basic_costs := [1, 0, 1], pi := [1, 1, 1],
      reduced_costs := [-1, -1, -1, -3/4, 20, 1/2, -12], gradient := [9, 3, 0],
      Binverse := [1, -3, 0, 0, 1/3, 0, 0, 0, 1] }
  | 2 =>
    { phase := 1, iterations := 2, entering_index := 4, leaving_index := 0,
      status := [1, 1, 1, 1, 0, 1, 0, 1, 1, 0], basics := [4, 6, 9],
      basic_cycles := [0, 0, 0, 0, 1, 0, 1], objective := 0, TOLERANCE := TOLERANCE,
      max_change := 0, initial_costs := [0, 0, 0, 0, 0, 0, 0], costs := [0, 0, 0, 0, 0, 0, 0],
      x := [0, 0, 0, 0, 0, 0, 0, 0, 0, 1], xl := [0, 0, 0, 0, 0, 0, 0, 0, 0, 0],
      xu := [DBL_MAX, DBL_MAX, DBL_MAX, DBL_MAX, DBL_MAX, DBL_MAX, DBL_MAX, DBL_MAX, DBL_MAX, DBL_MAX],
      basic_costs := [0, 0, 1], pi := [1, -3, 1],
      reduced_costs := [-1, 3, -1, 5/4, -28, -3/2, 0], gradient := [28, -4, 0],
      Binverse := [1/28, -3/28, 0, 1/7, -2/21, 0, 0, 0, 1] }
  | 3 =>
    { phase := 1, iterations := 3, entering_index := 2, leaving_index := 2,
      status := [1, 1, 0, 1, 0, 1, 0, 1, 1, 1], basics := [4, 6, 2],
      basic_cycles := [0, 0, 0, 0, 0, 0, 0], objective := 0, TOLERANCE := TOLERANCE,
      max_change := 1, initial_costs := [0, 0, 0, 0, 0, 0, 0], costs := [0, 0, 0, 0, 0, 0, 0],
      x := [0, 0, 1, 0, 0, 0, 0, 0, 0, 0], xl := [0, 0, 0, 0, 0, 0, 0, 0, 0, 0],
      xu := [DBL_MAX, DBL_MAX, DBL_MAX, DBL_MAX, DBL_MAX, DBL_MAX, DBL_MAX, DBL_MAX, DBL_MAX, DBL_MAX],
      basic_costs := [0, 0, 0], pi := [0, 0, 1], reduced_costs := [0, 0, -1, 0, 0, -1, 0],
      gradient := [0, 0, 1], Binverse := [1/28, -3/28, 0, 1/7, -2/21, 0, 0, 0, 1] }
  | 4 =>
    { phase := 2, iterations := 4, entering_index := -2, leaving_index := 2,
      status := [1, 1, 0, 1, 0, 1, 0, 1, 1, 1], basics := [4, 6, 2],
      basic_cycles := [0, 0, 0, 0, 0, 0, 0], objective := 0, TOLERANCE := TOLERANCE,
      max_change := 1, initial_costs := [0, 0, 0, 0, 0, 0, 0],
      costs := [0, 0, 0, -3/4, 20, -1/2, 6], x := [0, 0, 1, 0, 0, 0, 0, 0, 0, 0],
      xl := [0, 0, 0, 0, 0, 0, 0, 0, 0, 0],
      xu := [DBL_MAX, DBL_MAX, DBL_MAX, DBL_MAX, DBL_MAX, DBL_MAX, DBL_MAX, DBL_MAX, DBL_MAX, DBL_MAX],
      basic_costs := [20, 6, 0], pi := [0, 0, 0], reduced_costs := [0, 0, 0, 0, 0, 0, 0],
      gradient := [0, 0, 1], Binverse := [1/28, -3/28, 0, 1/7, -2/21, 0, 0, 0, 1] }
  | 5 =>
    { phase := 2, iterations := 5, entering_index := 0, leaving_index := 0,
      status := [0, 1, 0, 1, 1, 1, 0, 1, 1, 1], basics := [0, 6, 2],
      basic_cycles := [1, 0, 0, 0, 0, 0, 0], objective := 0, TOLERANCE := TOLERANCE,
      max_change := 0, initial_costs := [0, 0, 0, 0, 0, 0, 0],
      costs := [0, 0, 0, -3/4, 20, -1/2, 6], x := [0, 0, 1, 0, 0, 0, 0, 0, 0, 0],
      xl := [0, 0, 0, 0, 0, 0, 0, 0, 0, 0],
      xu := [DBL_MAX, DBL_MAX, DBL_MAX, DBL_MAX, DBL_MAX, DBL_MAX, DBL_MAX, DBL_MAX, DBL_MAX, DBL_MAX],
      basic_costs := [0, 6, 0], pi := [11/7, -19/7, 0],
      reduced_costs := [-11/7, 19/7, 0, 3/14, 0, -2/7, 0], gradient := [1/28, 1/7, 0],
      Binverse := [1, -3, 0, 0, 1/3, 0, 0, 0, 1] }
  | 6 =>
    { phase := 2, iterations := 6, entering_index := 1, leaving_index := 1,
      status := [0, 0, 0, 1, 1, 1, 1, 1, 1, 1], basics := [0, 1, 2],
      basic_cycles := [1, 1, 0, 0, 0, 0, 0], objective := 0, TOLERANCE := TOLERANCE,
      max_change := 0, initial_costs := [0, 0, 0, 0, 0, 0, 0],
      costs := [0, 0, 0, -3/4, 20, -1/2, 6], x := [0, 0, 1, 0, 0, 0, 0, 0, 0, 0],
      xl := [0, 0, 0, 0, 0, 0, 0, 0, 0, 0],
      xu := [DBL_MAX, DBL_MAX, DBL_MAX, DBL_MAX, DBL_MAX, DBL_MAX, DBL_MAX, DBL_MAX, DBL_MAX, DBL_MAX],
      basic_costs := [0, 0, 0], pi := [0, 2, 0], reduced_costs := [0, -2, 0, -7/4, 44, 1/2, 0],
      gradient := [-3, 1/3, 0], Binverse := [1, 0, 0, 0, 1, 0, 0, 0, 1] }
  | 7 =>
    { phase := 2, iterations := 7, entering_index := 3, leaving_index := 0,
      status := [1, 0, 0, 0, 1, 1, 1, 1, 1, 1], basics := [3, 1, 2],
      basic_cycles := [1, 1, 0, 1, 0, 0, 0], objective := 0, TOLERANCE := TOLERANCE,
      max_change := 0, initial_costs := [0, 0, 0, 0, 0, 0, 0],
      costs := [0, 0, 0, -3/4, 20, -1/2, 6], x := [0, 0, 1, 0, 0, 0, 0, 0, 0, 0],
      xl := [0, 0, 0, 0, 0, 0, 0, 0, 0, 0],
      xu := [DBL_MAX, DBL_MAX, DBL_MAX, DBL_MAX, DBL_MAX, DBL_MAX, DBL_MAX, DBL_MAX, DBL_MAX, DBL_MAX],
      basic_costs := [-3/4, 0, 0], pi := [0, 0, 0],
      reduced_costs := [0, 0, 0, -3/4, 20, -1/2, 6], gradient := [1/4, 1/2, 0],
      Binverse := [4, 0, 0, -2, 1, 0, 0, 0, 1] }
  | 8 =>
    { phase := 2, iterations := 8, entering_index := 4, leaving_index := 1,
      status := [1, 1, 0, 0, 0, 1, 1, 1, 1, 1], basics := [3, 4, 2],
      basic_cycles := [1, 1, 0, 1, 1, 0, 0], objective := 0, TOLERANCE := TOLERANCE,
      max_change := 0, initial_costs := [0, 0, 0, 0, 0, 0, 0],
      costs := [0, 0, 0, -3/4, 20, -1/2, 6], x := [0, 0, 1, 0, 0, 0, 0, 0, 0, 0],
      xl := [0, 0, 0, 0, 0, 0, 0, 0, 0, 0],
      xu := [DBL_MAX, DBL_MAX, DBL_MAX, DBL_MAX, DBL_MAX, DBL_MAX, DBL_MAX, DBL_MAX, DBL_MAX, DBL_MAX],
      basic_costs := [-3/4, 20, 0], pi := [-3, 0, 0],
      reduced_costs := [3, 0, 0, 0, -4, -7/2, 33], gradient := [-32, 4, 0],
      Binverse := [-12, 8, 0, -1/2, 1/4, 0, 0, 0, 1] }
  | 9 =>
    { phase := 2, iterations := 9, entering_index := 5, leaving_index := 0,
      status := [1, 1, 0, 1, 0, 0, 1, 1, 1, 1], basics := [5, 4, 2],
      basic_cycles := [1, 1, 0, 1, 1, 1, 0], objective := 0, TOLERANCE := TOLERANCE,
      max_change := 0, initial_costs := [0, 0, 0, 0, 0, 0, 0],
      costs := [0, 0, 0, -3/4, 20, -1/2, 6], x := [0, 0, 1, 0, 0, 0, 0, 0, 0, 0],
      xl := [0, 0, 0, 0, 0, 0, 0, 0, 0, 0],
      xu := [DBL_MAX, DBL_MAX, DBL_MAX, DBL_MAX, DBL_MAX, DBL_MAX, DBL_MAX, DBL_MAX, DBL_MAX, DBL_MAX],
      basic_costs := [-1/2, 20, 0], pi := [-1, -1, 0], reduced_costs := [1, 1, 0, 0, 0, -2, 18],
      gradient := [8, 3/8, 1], Binverse := [-3/2, 1, 0, 1/16, -1/8, 0, 3/2, -1, 1] }
  | 10 =>
    { phase := 2, iterations := 10, entering_index := 6, leaving_index := 1,
      status := [1, 1, 0, 1, 1, 0, 0, 1, 1, 1], basics := [5, 6, 2],
      basic_cycles := [1, 1, 0, 1, 1, 1, 1], objective := 0, TOLERANCE := TOLERANCE,
      max_change := 0, initial_costs := [0, 0, 0, 0, 0, 0, 0],
      costs := [0, 0, 0, -3/4, 20, -1/2, 6], x := [0, 0, 1, 0, 0, 0, 0, 0, 0, 0],
      xl := [0, 0, 0, 0, 0, 0, 0, 0, 0, 0],
      xu := [DBL_MAX, DBL_MAX, DBL_MAX, DBL_MAX, DBL_MAX, DBL_MAX, DBL_MAX, DBL_MAX, DBL_MAX, DBL_MAX],
      basic_costs := [-1/2, 6, 0], pi := [2, -3, 0], reduced_costs := [-2, 3, 0, 1/4, 0, 0, -3],
      gradient := [-21/2, 3/16, 21/2], Binverse := [2, -6, 0, 1/3, -2/3, 0, -2, 6, 1] }
  | 11 =>
    { phase := 2, iterations := 11, entering_index := 0, leaving_index := 0,
      status := [0, 1, 0, 1, 1, 1, 0, 1, 1, 1], basics := [0, 6, 2],
      basic_cycles := [2, 1, 0, 1, 1, 1, 1], objective := 0, TOLERANCE := TOLERANCE,
      max_change := 0, initial_costs := [0, 0, 0, 0, 0, 0, 0],
      costs := [0, 0, 0, -3/4, 20, -1/2, 6], x := [0, 0, 1, 0, 0, 0, 0, 0, 0, 0],
      xl := [0, 0, 0, 0, 0, 0, 0, 0, 0, 0],
      xu := [DBL_MAX, DBL_MAX, DBL_MAX, DBL_MAX, DBL_MAX, DBL_MAX, DBL_MAX, DBL_MAX, DBL_MAX, DBL_MAX],
      basic_costs := [0, 6, 0], pi := [1, -1, 0], reduced_costs := [-1, 1, 0, -1/2, 16, 0, 0],
      gradient := [2, 1/3, -2], Binverse := [1, -3, 0, 0, 1/3, 0, 0, 0, 1] }
  | 12 =>
    { phase := 2, iterations := 12, entering_index := 1, leaving_index := 1,
      status := [0, 0, 0, 1, 1, 1, 1, 1, 1, 1], basics := [0, 1, 2],
      basic_cycles := [2, 2, 0, 1, 1, 1, 1], objective := 0, TOLERANCE := TOLERANCE,
      max_change := 0, initial_costs := [0, 0, 0, 0, 0, 0, 0],
      costs := [0, 0, 0, -3/4, 20, -1/2, 6], x := [0, 0, 1, 0, 0, 0, 0, 0, 0, 0],
      xl := [0, 0, 0, 0, 0, 0, 0, 0, 0, 0],
      xu := [DBL_MAX, DBL_MAX, DBL_MAX, DBL_MAX, DBL_MAX, DBL_MAX, DBL_MAX, DBL_MAX, DBL_MAX, DBL_MAX],
      basic_costs := [0, 0, 0], pi := [0, 2, 0], reduced_costs := [0, -2, 0, -7/4, 44, 1/2, 0],
      gradient := [-3, 1/3, 0], Binverse := [1, 0, 0, 0, 1, 0, 0, 0, 1] }
  | _ =>
    { phase := 1, iterations := 0, entering_index := 0, leaving_index := 0,
      status := [1, 1, 1, 1, 1, 1, 1, 0, 0, 0], basics := [7, 8, 9],
      basic_cycles := [0, 0, 0, 0, 0, 0, 0], objective := 0, TOLERANCE := TOLERANCE,
      max_change := 0, initial_costs := [0, 0, 0, 0, 0, 0, 0], costs := [0, 0, 0, 0, 0, 0, 0],
      x := [0, 0, 0, 0, 0, 0, 0, 0, 0, 1], xl := [0, 0, 0, 0, 0, 0, 0, 0, 0, 0],
      xu := [DBL_MAX, DBL_MAX, DBL_MAX, DBL_MAX, DBL_MAX, DBL_MAX, DBL_MAX, DBL_MAX, DBL_MAX, DBL_MAX],
      basic_costs := [1, 1, 1], pi := [0, 0, 0], reduced_costs := [0, 0, 0, 0, 0, 0, 0],
      gradient := [0, 0, 0], Binverse := [1, 0, 0, 0, 1, 0, 0, 0, 1] }

/-- No structural variable is tagged `NONBASIC_FREE` (or carries a value that is no tag). -/
def NoFreeStatus (M : Model) (I : Instance) : Prop :=
  ∀ i, i < M.nvars →
    I.status i = BASIC ∨ I.status i = NONBASIC_LOWER ∨ I.status i = NONBASIC_UPPER


/-! ## Concrete problems -/

/-- The instance a call to `rsm_solve` leaves behind (the argument itself if the fuel ran out,
which does not happen). -/
def solved (M : Model) (s_uninit : ℚ) (I : Instance) : Instance :=
  ((rsm_solve M s_uninit I).getD ("", I)).2

/-- The end-to-end problem: minimise `-x - y` subject to `x + y + s = 6`, `0 ≤ x, y ≤ 4`,
`0 ≤ s`; columns `x, y, s`, and one artificial row variable (index 3). -/
def e2eM : Model :=
  { nrows := 1, nvars := 3, nonzeroes := 3,
    indexes := arr [0, 1, 2], row_starts := arr [0, 3], elements := arr [1, 1, 1],
    b := arr [6], c := arr [-1, -1, 0], xl := arr [0, 0, 0], xu := arr [4, 4, DBL_MAX] }

/-- The starting instance of the end-to-end problem: structurals nonbasic at their lower bound
`0`, the artificial basic at `6` with phase-1 cost `1`, `Binverse = [1]`. -/
def e2eI : Instance :=
  { phase := 0, iterations := 0, entering_index := 0, leaving_index := 0,
    status := arr [1, 1, 1, 0], basics := arr [3], basic_cycles := arr [0, 0, 0],
    objective := 0, TOLERANCE := TOLERANCE, max_change := 0,
    initial_costs := arr [0, 0, 0], costs := arr [0, 0, 0],
    x := arr [0, 0, 0, 6], xl := arr [0, 0, 0, 0], xu := arr [4, 4, DBL_MAX, DBL_MAX],
    basic_costs := arr [1], pi := arr [0], reduced_costs := arr [0, 0, 0], gradient := arr [0],
    Binverse := arr [1] }

/-- One structural variable `x ≥ 0` and two equality rows `x = b0`, `x = b1`, each with an
artificial row variable (indices 1 and 2). -/
def twoRowsM (b0 b1 : ℚ) : Model :=
  { nrows := 2, nvars := 1, nonzeroes := 2,
    indexes := arr [0, 0], row_starts := arr [0, 1, 2], elements := arr [1, 1],
    b := arr [b0, b1], c := arr [0], xl := arr [0], xu := arr [DBL_MAX] }

/-- The starting instance for `twoRowsM`: `x` nonbasic at `0`, the artificials basic at the
right-hand sides with phase-1 cost `1`, `Binverse` the identity. -/
def twoRowsI (b0 b1 : ℚ) : Instance :=
  { phase := 0, iterations := 0, entering_index := 0, leaving_index := 0,
    status := arr [1, 0, 0], basics := arr [1, 2], basic_cycles := arr [0],
    objective := 0, TOLERANCE := TOLERANCE, max_change := 0,
    initial_costs := arr [0], costs := arr [0],
    x := arr [0, b0, b1], xl := arr [0, 0, 0], xu := arr [DBL_MAX, DBL_MAX, DBL_MAX],
    basic_costs := arr [1, 1], pi := arr [0, 0], reduced_costs := arr [0], gradient := arr [0, 0],
    Binverse := arr [1, 0, 0, 1] }

/-- Minimise `x` for `x ≤ 0` unbounded below, with one free row `x + r = 0`. -/
def downM : Model :=
  { nrows := 1, nvars := 1, nonzeroes := 1,
    indexes := arr [0], row_starts := arr [0, 1], elements := arr [1],
    b := arr [0], c := arr [1], xl := arr [-DBL_MAX], xu := arr [0] }

/-- The starting instance for `downM`: `x` nonbasic at its upper bound `0`, the free row
variable basic at `0` with cost `0`. -/
def downI : Instance :=
  { phase := 0, iterations := 0, entering_index := 0, leaving_index := 0,
    status := arr [-1, 0], basics := arr [1], basic_cycles := arr [0],
    objective := 0, TOLERANCE := TOLERANCE, max_change := 0,
    initial_costs := arr [0], costs := arr [0],
    x := arr [0, 0], xl := arr [-DBL_MAX, -DBL_MAX], xu := arr [0, DBL_MAX],
    basic_costs := arr [0], pi := arr [0], reduced_costs := arr [0], gradient := arr [0],
    Binverse := arr [1] }

/-- The mirror image of `downM`: minimise `-x` for `x ≥ 0` unbounded above. -/
def upM : Model :=
  { nrows := 1, nvars := 1, nonzeroes := 1,
    indexes := arr [0], row_starts := arr [0, 1], elements := arr [1],
    b := arr [0], c := arr [-1], xl := arr [0], xu := arr [DBL_MAX] }

/-- The starting instance for `upM`: `x` nonbasic at its lower bound `0`. -/
def upI : Instance :=
  { phase := 0, iterations := 0, entering_index := 0, leaving_index := 0,
    status := arr [1, 0], basics := arr [1], basic_cycles := arr [0],
    objective := 0, TOLERANCE := TOLERANCE, max_change := 0,
    initial_costs := arr [0], costs := arr [0],
    x := arr [0, 0], xl := arr [0, -DBL_MAX], xu := arr [DBL_MAX, DBL_MAX],
    basic_costs := arr [0], pi := arr [0], reduced_costs := arr [0], gradient := arr [0],
    Binverse := arr [1] }

/-- Minimise `-5 x` for `0 ≤ x ≤ 1` with an empty row (artificial 1) and the row `-x + a = 0`
(artificial 2, bounds `[0, DBL_MAX]`). -/
def growM : Model :=
  { nrows := 2, nvars := 1, nonzeroes := 1,
    indexes := arr [0], row_starts := arr [0, 0, 1], elements := arr [-1],
    b := arr [0, 0], c := arr [-5], xl := arr [0], xu := arr [1] }

/-- The starting instance for `growM`: `x` nonbasic at `0`, both artificials basic at `0` with
phase-1 cost `1`, `Binverse` the identity. -/
def growI : Instance :=
  { phase := 0, iterations := 0, entering_index := 0, leaving_index := 0,
    status := arr [1, 0, 0], basics := arr [1, 2], basic_cycles := arr [0],
    objective := 0, TOLERANCE := TOLERANCE, max_change := 0,
    initial_costs := arr [0], costs := arr [0],
    x := arr [0, 0, 0], xl := arr [0, 0, 0], xu := arr [1, DBL_MAX, DBL_MAX],
    basic_costs := arr [1, 1], pi := arr [0, 0], reduced_costs := arr [0], gradient := arr [0, 0],
    Binverse := arr [1, 0, 0, 1] }

/-- The state of the first pivot on `twoRowsM 1 2`, after the ratio test: `gradient = [1, 1]`,
leaving row `0`, `Binverse` the identity. -/
def firstPivotI : Instance :=
  (start_pivot (twoRowsM 1 2) 0 (price (twoRowsM 1 2) (tick (restart (twoRowsI 1 2))))).1

/-- The basis matrix of the artificial columns: the identity. -/
def unitB : Nat → Nat → ℚ := fun j k => if j = k then 1 else 0

/-! ## Vocabulary of the component contracts -/

/-- Variable `i` is a candidate: its score is below minus the tolerance. -/
def IsCandidate (I : Instance) (i : Nat) : Prop := entering_score I i < - I.TOLERANCE

/-- The end-to-end problem after the first `compute_pi` and `compute_reduced_cost`: every
structural variable has reduced cost `-1`. -/
def pricedI : Instance := compute_reduced_cost e2eM (compute_pi e2eM (restart e2eI))

/-! ### Ratio test -/

/-- The signed pivot entry `g = gradient[i] * -s` of row `i` in the ratio test. -/
def row_g (I : Instance) (s : ℚ) (i : Nat) : ℚ := I.gradient i * -s

/-- The bound of the basic variable of row `i` in the direction of `g`: the upper bound for
`g > 0`, the lower bound otherwise. -/
def row_bound (I : Instance) (s : ℚ) (i : Nat) : ℚ :=
  if row_g I s i > 0 then I.xu (I.basics i) else I.xl (I.basics i)

/-- Row `i` is eligible: `|g| > TOLERANCE` and the bound in the direction of `g` is finite. -/
def RowEligible (I : Instance) (s : ℚ) (i : Nat) : Prop :=
  |row_g I s i| > I.TOLERANCE ∧
    (if row_g I s i > 0 then I.xu (I.basics i) < DBL_MAX else I.xl (I.basics i) > -DBL_MAX)

/-- Eligibility is a comparison of rationals, hence decidable. -/
instance RowEligible.decidable (I : Instance) (s : ℚ) (i : Nat) : Decidable (RowEligible I s i) :=
  inferInstanceAs (Decidable (|row_g I s i| > I.TOLERANCE ∧
    (if row_g I s i > 0 then I.xu (I.basics i) < DBL_MAX else I.xl (I.basics i) > -DBL_MAX)))

/-- The ratio `z = (bound - x[basics[i]]) / g` of row `i`. -/
def row_ratio (I : Instance) (s : ℚ) (i : Nat) : ℚ :=
  (row_bound I s i - I.x (I.basics i)) / row_g I s i

/-- The bound span `xu[e] - xl[e]` of the entering variable. -/
def bound_span (I : Instance) : ℚ := I.xu I.entering_index.toNat - I.xl I.entering_index.toNat

/-- The locals of `find_leaving_variable` after `n` rows. -/
def leaving_scan (M : Model) (I : Instance) (s : ℚ) (n : Nat) : LeavingScan :=
  forLoop n (leaving_body M I s)
    { max_change := bound_span I, leaving_index := -2, to_lower := false }

/-- The state in which the first ratio test of a solve runs: after `restart`, the iteration
count, pricing, `basic_cycles[entering_index] += 1` and `compute_gradient`. -/
def first_ratio_state (M : Model) (I : Instance) : Instance :=
  let P := price M (tick (restart I))
  let e := P.entering_index.toNat
  compute_gradient M { P with basic_cycles := Function.update P.basic_cycles e (P.basic_cycles e + 1) }

/-- One structural variable `0 ≤ x ≤ 1` and the row `x = 1` with its artificial (index 1). -/
def tieM : Model :=
  { nrows := 1, nvars := 1, nonzeroes := 1,
    indexes := arr [0], row_starts := arr [0, 1], elements := arr [1],
    b := arr [1], c := arr [0], xl := arr [0], xu := arr [1] }

/-- The starting instance for `tieM`: `x` nonbasic at `0`, the artificial basic at `1` with
phase-1 cost `1` and bounds `[0, DBL_MAX]`. -/
def tieI : Instance :=
  { phase := 0, iterations := 0, entering_index := 0, leaving_index := 0,
    status := arr [1, 0], basics := arr [1], basic_cycles := arr [0],
    objective := 0, TOLERANCE := TOLERANCE, max_change := 0,
    initial_costs := arr [0], costs := arr [0],
    x := arr [0, 1], xl := arr [0, 0], xu := arr [1, DBL_MAX],
    basic_costs := arr [1], pi := arr [0], reduced_costs := arr [0], gradient := arr [0],
    Binverse := arr [1] }

/-- The instance as `start_pivot` leaves it, given the result of the ratio test. -/
def with_ratio_test (I : Instance) (r : Int × ℚ × Bool) : Instance :=
  { I with leaving_index := r.1, max_change := r.2.1 }

/-- The first ratio test of the tie problem: the artificial's ratio equals the bound span. -/
def tieS : Instance := first_ratio_state tieM tieI

/-- The first ratio test of the end-to-end problem: a bound flip of `x`. -/
def flipS : Instance := first_ratio_state e2eM e2eI

/-- The matrix entry `A[i][e]` as stored: the sum of the elements of row `i` whose column index
is `e` (at most one in a row with strictly ascending columns), `0` when the row has none. -/
def stored_entry (M : Model) (i : Nat) (e : Int) : ℚ :=
  ∑ t in Finset.range (M.row_starts (i + 1) - M.row_starts i),
    if (M.indexes (M.row_starts i + t) : Int) = e then M.elements (M.row_starts i + t) else 0

/-- Every row stores its entries with strictly ascending column indices. -/
def RowsAscending (M : Model) : Prop :=
  ∀ i, i < M.nrows → ∀ t, t < M.row_starts (i + 1) - M.row_starts i - 1 →
    M.indexes (M.row_starts i + t) < M.indexes (M.row_starts i + t + 1)

/-- The row offsets are monotone, so that the scan of row `i` runs over the
`row_starts[i+1] - row_starts[i]` entries of that row. -/
def RowStartsMonotone (M : Model) : Prop :=
  ∀ i, i < M.nrows → M.row_starts i ≤ M.row_starts (i + 1)

/-! ### Further concrete problems -/

/-- One structural variable `0 ≤ x ≤ 1` with cost `3` and one empty row `0 = 0` with its
artificial (index `1 = nvars`).  The array `c` is allocated with `nvars + 1` elements by
`new_model`; `v` is the value of the extra element `c[nvars]`. -/
def padM (v : ℚ) : Model :=
  { nrows := 1, nvars := 1, nonzeroes := 0,
    indexes := arr [], row_starts := arr [0, 0], elements := arr [],
    b := arr [0], c := arr [3, v], xl := arr [0], xu := arr [1] }

/-- The starting instance for `padM`: `x` nonbasic at `0`, the artificial basic at `0` with
phase-1 cost `1`. -/
def padI : Instance :=
  { phase := 0, iterations := 0, entering_index := 0, leaving_index := 0,
    status := arr [1, 0], basics := arr [1], basic_cycles := arr [0],
    objective := 0, TOLERANCE := TOLERANCE, max_change := 0,
    initial_costs := arr [0], costs := arr [0],
    x := arr [0, 0], xl := arr [0, 0], xu := arr [1, DBL_MAX],
    basic_costs := arr [1], pi := arr [0], reduced_costs := arr [0], gradient := arr [0],
    Binverse := arr [1] }

/-- One free structural variable `x` and the two rows `6e-8 x = 0`, each with its artificial
(indices 1 and 2): every entry of the column is within the tolerance, their sum is not. -/
def tinyM : Model :=
  { nrows := 2, nvars := 1, nonzeroes := 2,
    indexes := arr [0, 0], row_starts := arr [0, 1, 2],
    elements := arr [6 / 100000000, 6 / 100000000],
    b := arr [0, 0], c := arr [0], xl := arr [-DBL_MAX], xu := arr [DBL_MAX] }

/-- The starting instance for `tinyM`: `x` nonbasic free at `0`, the artificials basic at `0`
with phase-1 cost `1` and bounds `[0, DBL_MAX]`, `Binverse` the identity. -/
def tinyI : Instance :=
  { phase := 0, iterations := 0, entering_index := 0, leaving_index := 0,
    status := arr [2, 0, 0], basics := arr [1, 2], basic_cycles := arr [0],
    objective := 0, TOLERANCE := TOLERANCE, max_change := 0,
    initial_costs := arr [0], costs := arr [0],
    x := arr [0, 0, 0], xl := arr [-DBL_MAX, 0, 0], xu := arr [DBL_MAX, DBL_MAX, DBL_MAX],
    basic_costs := arr [1, 1], pi := arr [0, 0], reduced_costs := arr [0],
    gradient := arr [0, 0], Binverse := arr [1, 0, 0, 1] }

/-- The state in which the ratio test of the pass starting from `I` runs: after the iteration
count, pricing, `basic_cycles[entering_index] += 1` and `compute_gradient`. -/
def ratio_state (M : Model) (I : Instance) : Instance :=
  let P := price M (tick I)
  let e := P.entering_index.toNat
  compute_gradient M { P with basic_cycles := Function.update P.basic_cycles e (P.basic_cycles e + 1) }

open Finset

theorem forLoop_succ {σ : Type} (n : Nat) (body : Nat → σ → σ) (s : σ) :
    forLoop (n + 1) body s = body n (forLoop n body s) := rfl

theorem forLoop_induct {σ : Type} (P : Nat → σ → Prop) (n : Nat) (body : Nat → σ → σ) (s : σ)
    (h0 : P 0 s) (hstep : ∀ i, i < n → ∀ t, P i t → P (i + 1) (body i t)) :
    P n (forLoop n body s) := by
  induction n with
  | zero => exact h0
  | succ k ih =>
    rw [forLoop_succ]
    exact hstep k (Nat.lt_succ_self k) _
      (ih (fun i hi t ht => hstep i (Nat.lt_succ_of_lt hi) t ht))

theorem flat_index_inj {n i j i' j' : Nat} (hj : j < n) (hj' : j' < n)
    (h : i * n + j = i' * n + j') : i = i' ∧ j = j' := by
  have hi : i = i' := by
    rcases Nat.lt_trichotomy i i' with hlt | heq | hgt
    · have := Nat.mul_le_mul_right n (Nat.succ_le_of_lt hlt)
      rw [Nat.succ_mul] at this
      omega
    · exact heq
    · have := Nat.mul_le_mul_right n (Nat.succ_le_of_lt hgt)
      rw [Nat.succ_mul] at this
      omega
  subst hi
  exact ⟨rfl, by omega⟩

/-- The inner loop of `update_Binverse` for a row `i ≠ li`. -/
theorem row_eliminate_spec (n i li : Nat) (gr : ℚ) (Bi : Nat → ℚ) (hne : i ≠ li) :
    ∀ i' j', j' < n →
      forLoop n (fun j F => Function.update F (i * n + j) (F (i * n + j) - gr * F (li * n + j))) Bi
          (i' * n + j') =
        if i' = i then Bi (i * n + j') - gr * Bi (li * n + j') else Bi (i' * n + j') := by
  have key := forLoop_induct
    (fun m F => ∀ i' j', j' < n → F (i' * n + j') =
      if i' = i ∧ j' < m then Bi (i * n + j') - gr * Bi (li * n + j') else Bi (i' * n + j'))
    n (fun j F => Function.update F (i * n + j) (F (i * n + j) - gr * F (li * n + j))) Bi
    (by intro i' j' _; simp)
    (by
      intro m hm F hF i' j' hj'
      by_cases hidx : i' * n + j' = i * n + m
      · obtain ⟨h1, h2⟩ := flat_index_inj hj' hm hidx
        subst h1; subst h2
        simp only [Function.update_same]
        rw [hF i' j' hj', hF li j' hj']
        simp [hne.symm]
      · beta_reduce
        rw [Function.update_noteq hidx, hF i' j' hj']
        have : (i' = i ∧ j' < m + 1) ↔ (i' = i ∧ j' < m) := by
          constructor
          · rintro ⟨h1, h2⟩
            refine ⟨h1, ?_⟩
            rcases Nat.lt_succ_iff_lt_or_eq.mp h2 with h | h
            · exact h
            · exact absurd (by rw [h1, h]) hidx
          · rintro ⟨h1, h2⟩
            exact ⟨h1, Nat.lt_succ_of_lt h2⟩
        simp only [this])
  intro i' j' hj'
  rw [key i' j' hj']
  simp [hj']

/-- The final loop of `update_Binverse`, scaling row `li`. -/
theorem row_scale_spec (n li : Nat) (ilg : ℚ) (Bi : Nat → ℚ) :
    ∀ i' j', j' < n →
      forLoop n (fun j F => Function.update F (li * n + j) (F (li * n + j) * ilg)) Bi
          (i' * n + j') =
        if i' = li then Bi (li * n + j') * ilg else Bi (i' * n + j') := by
  have key := forLoop_induct
    (fun m F => ∀ i' j', j' < n → F (i' * n + j') =
      if i' = li ∧ j' < m then Bi (li * n + j') * ilg else Bi (i' * n + j'))
    n (fun j F => Function.update F (li * n + j) (F (li * n + j) * ilg)) Bi
    (by intro i' j' _; simp)
    (by
      intro m hm F hF i' j' hj'
      by_cases hidx : i' * n + j' = li * n + m
      · obtain ⟨h1, h2⟩ := flat_index_inj hj' hm hidx
        subst h1; subst h2
        simp only [Function.update_same]
        rw [hF i' j' hj']
        simp
      · beta_reduce
        rw [Function.update_noteq hidx, hF i' j' hj']
        have : (i' = li ∧ j' < m + 1) ↔ (i' = li ∧ j' < m) := by
          constructor
          · rintro ⟨h1, h2⟩
            refine ⟨h1, ?_⟩
            rcases Nat.lt_succ_iff_lt_or_eq.mp h2 with h | h
            · exact h
            · exact absurd (by rw [h1, h]) hidx
          · rintro ⟨h1, h2⟩
            exact ⟨h1, Nat.lt_succ_of_lt h2⟩
        simp only [this])
  intro i' j' hj'
  rw [key i' j' hj']
  simp [hj']

/-- Closed form of `update_Binverse` on the entries of the `nrows × nrows` matrix. -/
theorem update_Binverse_entry (M : Model) (I : Instance) (i j : Nat) (hj : j < M.nrows) :
    (update_Binverse M I).Binverse (i * M.nrows + j) =
      if i = I.leaving_index.toNat then
        I.Binverse (I.leaving_index.toNat * M.nrows + j) * (1 / I.gradient I.leaving_index.toNat)
      else if i < M.nrows then
        I.Binverse (i * M.nrows + j) -
          I.gradient i * (1 / I.gradient I.leaving_index.toNat) *
            I.Binverse (I.leaving_index.toNat * M.nrows + j)
      else I.Binverse (i * M.nrows + j) := by
  unfold update_Binverse
  simp only []
  rw [row_scale_spec _ _ _ _ i j hj]
  have key := forLoop_induct
    (fun m F => ∀ i' j', j' < M.nrows → F (i' * M.nrows + j') =
      if i' < m ∧ i' ≠ I.leaving_index.toNat then
        I.Binverse (i' * M.nrows + j') -
          I.gradient i' * (1 / I.gradient I.leaving_index.toNat) *
            I.Binverse (I.leaving_index.toNat * M.nrows + j')
      else I.Binverse (i' * M.nrows + j'))
    M.nrows
    (fun i Bi =>
      if i ≠ I.leaving_index.toNat then
        forLoop M.nrows (fun j Bi =>
          Function.update Bi (i * M.nrows + j)
            (Bi (i * M.nrows + j) -
              I.gradient i * (1 / I.gradient I.leaving_index.toNat) *
                Bi (I.leaving_index.toNat * M.nrows + j))) Bi
      else Bi) I.Binverse
    (by intro i' j' _; simp)
    (by
      intro m _ F hF i' j' hj'
      beta_reduce
      by_cases hm : m = I.leaving_index.toNat
      · simp only [hm, ne_eq, not_true_eq_false, if_false]
        rw [hF i' j' hj']
        have : (i' < I.leaving_index.toNat + 1 ∧ i' ≠ I.leaving_index.toNat) ↔
            (i' < m ∧ i' ≠ I.leaving_index.toNat) := by
          rw [hm]; constructor
          · rintro ⟨h1, h2⟩; exact ⟨by omega, h2⟩
          · rintro ⟨h1, h2⟩; exact ⟨by omega, h2⟩
        simp only [this]
      · simp only [ne_eq, hm, not_false_eq_true, if_true]
        rw [row_eliminate_spec _ _ _ _ _ hm i' j' hj']
        by_cases him : i' = m
        · subst him
          rw [hF i' j' hj', hF _ j' hj']
          simp [hm]
        · rw [if_neg him, hF i' j' hj']
          have : (i' < m + 1 ∧ i' ≠ I.leaving_index.toNat) ↔
              (i' < m ∧ i' ≠ I.leaving_index.toNat) := by
            constructor
            · rintro ⟨h1, h2⟩; exact ⟨by omega, h2⟩
            · rintro ⟨h1, h2⟩; exact ⟨by omega, h2⟩
          simp only [this])
  by_cases hil : i = I.leaving_index.toNat
  · rw [if_pos hil, if_pos hil, key _ j hj]
    simp
  · rw [if_neg hil, if_neg hil, key i j hj]
    by_cases hin : i < M.nrows
    · simp [hin, hil]
    · simp [hin]

/-- C1. In exact arithmetic `update_Binverse` maintains the inverse: if `Binverse * B = I`,
`gradient = Binverse * a` and the pivot `gradient[li]` is nonzero, then the updated `Binverse`
is a left inverse of `B` with column `li` replaced by the entering column `a`. -/
theorem update_Binverse_preserves_inverse (M : Model) (I : Instance)
    (B : Nat → Nat → ℚ) (a : Nat → ℚ)
    (hli : I.leaving_index.toNat < M.nrows)
    (hinv : ∀ i < M.nrows, ∀ k < M.nrows,
      ∑ j in range M.nrows, I.Binverse (i * M.nrows + j) * B j k = if i = k then 1 else 0)
    (hgrad : ∀ i < M.nrows,
      I.gradient i = ∑ j in range M.nrows, I.Binverse (i * M.nrows + j) * a j)
    (hpiv : I.gradient I.leaving_index.toNat ≠ 0) :
    ∀ i < M.nrows, ∀ k < M.nrows,
      ∑ j in range M.nrows, (update_Binverse M I).Binverse (i * M.nrows + j) *
          (if k = I.leaving_index.toNat then a j else B j k) =
        if i = k then 1 else 0 := by
  intro i hi k hk
  have hentry : ∀ j ∈ range M.nrows,
      (update_Binverse M I).Binverse (i * M.nrows + j) *
          (if k = I.leaving_index.toNat then a j else B j k) =
        (if i = I.leaving_index.toNat then
          I.Binverse (I.leaving_index.toNat * M.nrows + j) * (1 / I.gradient I.leaving_index.toNat)
        else
          I.Binverse (i * M.nrows + j) -
            I.gradient i * (1 / I.gradient I.leaving_index.toNat) *
              I.Binverse (I.leaving_index.toNat * M.nrows + j)) *
          (if k = I.leaving_index.toNat then a j else B j k) := by
    intro j hj
    rw [update_Binverse_entry M I i j (mem_range.mp hj)]
    simp [hi]
  rw [sum_congr rfl hentry]
  by_cases hk' : k = I.leaving_index.toNat
  · simp only [hk', if_true]
    by_cases hi' : i = I.leaving_index.toNat
    · simp only [hi', if_true]
      have : ∀ j ∈ range M.nrows,
          I.Binverse (I.leaving_index.toNat * M.nrows + j) *
              (1 / I.gradient I.leaving_index.toNat) * a j =
            (1 / I.gradient I.leaving_index.toNat) *
              (I.Binverse (I.leaving_index.toNat * M.nrows + j) * a j) := by
        intro j _; ring
      rw [sum_congr rfl this, ← mul_sum, ← hgrad _ hli]
      field_simp
    · simp only [hi', if_false]
      have : ∀ j ∈ range M.nrows,
          (I.Binverse (i * M.nrows + j) -
              I.gradient i * (1 / I.gradient I.leaving_index.toNat) *
                I.Binverse (I.leaving_index.toNat * M.nrows + j)) * a j =
            I.Binverse (i * M.nrows + j) * a j -
              I.gradient i * (1 / I.gradient I.leaving_index.toNat) *
                (I.Binverse (I.leaving_index.toNat * M.nrows + j) * a j) := by
        intro j _; ring
      rw [sum_congr rfl this, sum_sub_distrib, ← mul_sum, ← hgrad _ hli, ← hgrad _ hi]
      field_simp
  · simp only [hk', if_false]
    by_cases hi' : i = I.leaving_index.toNat
    · simp only [hi', if_true]
      have : ∀ j ∈ range M.nrows,
          I.Binverse (I.leaving_index.toNat * M.nrows + j) *
              (1 / I.gradient I.leaving_index.toNat) * B j k =
            (1 / I.gradient I.leaving_index.toNat) *
              (I.Binverse (I.leaving_index.toNat * M.nrows + j) * B j k) := by
        intro j _; ring
      rw [sum_congr rfl this, ← mul_sum, hinv _ hli k hk]
      simp [Ne.symm hk']
    · simp only [hi', if_false]
      have : ∀ j ∈ range M.nrows,
          (I.Binverse (i * M.nrows + j) -
              I.gradient i * (1 / I.gradient I.leaving_index.toNat) *
                I.Binverse (I.leaving_index.toNat * M.nrows + j)) * B j k =
            I.Binverse (i * M.nrows + j) * B j k -
              I.gradient i * (1 / I.gradient I.leaving_index.toNat) *
                (I.Binverse (I.leaving_index.toNat * M.nrows + j) * B j k) := by
        intro j _; ring
      rw [sum_congr rfl this, sum_sub_distrib, ← mul_sum, hinv _ hli k hk, hinv _ hi k hk]
      simp [Ne.symm hk']

/-! ### Pricing: the entering variable -/

theorem entering_score_basic (I : Instance) (i : Nat) (h : I.status i = BASIC) :
    entering_score I i = 0 := by
  unfold entering_score
  simp [h, BASIC, NONBASIC_FREE]

/-- The index found by the pricing loop is `-2` or one of the scanned variables. -/
theorem entering_scan_range (I : Instance) (n : Nat) :
    (entering_scan I n).entering_index = -2 ∨
      ∃ i, i < n ∧ (entering_scan I n).entering_index = (i : Int) := by
  unfold entering_scan
  refine forLoop_induct
    (fun m st => st.entering_index = -2 ∨ ∃ i, i < m ∧ st.entering_index = (i : Int))
    n (entering_body I) { cycles := INT_MAX, entering_index := -2, minrc := 0 } (Or.inl rfl) ?_
  intro m _ st hidx
  simp only [entering_body]
  split_ifs with hc
  · exact Or.inr ⟨m, Nat.lt_succ_self m, rfl⟩
  · rcases hidx with h | ⟨i, hi, h1⟩
    · exact Or.inl h
    · exact Or.inr ⟨i, Nat.lt_succ_of_lt hi, h1⟩

/-- With a nonnegative tolerance, `minrc` never exceeds `0` and a chosen variable has a
negative score. -/
theorem entering_scan_score (I : Instance) (n : Nat) (htol : 0 ≤ I.TOLERANCE) :
    (entering_scan I n).minrc ≤ 0 ∧
    ((entering_scan I n).entering_index = -2 ∨
      ∃ i, i < n ∧ (entering_scan I n).entering_index = (i : Int) ∧ entering_score I i < 0) := by
  unfold entering_scan
  refine forLoop_induct
    (fun m st => st.minrc ≤ 0 ∧ (st.entering_index = -2 ∨
      ∃ i, i < m ∧ st.entering_index = (i : Int) ∧ entering_score I i < 0))
    n (entering_body I) { cycles := INT_MAX, entering_index := -2, minrc := 0 }
    ⟨le_refl _, Or.inl rfl⟩ ?_
  intro m _ st ⟨hmin, hidx⟩
  simp only [entering_body]
  split_ifs with hc
  · have hneg : entering_score I m < 0 := by
      rcases hc with ⟨_, h⟩ | ⟨_, h⟩
      · linarith
      · exact lt_of_lt_of_le h hmin
    exact ⟨le_of_lt hneg, Or.inr ⟨m, Nat.lt_succ_self m, rfl, hneg⟩⟩
  · refine ⟨hmin, ?_⟩
    rcases hidx with h | ⟨i, hi, h1, h2⟩
    · exact Or.inl h
    · exact Or.inr ⟨i, Nat.lt_succ_of_lt hi, h1, h2⟩

/-- A nonnegative entering index is a structural variable. -/
theorem find_entering_variable_lt (M : Model) (I : Instance)
    (h : 0 ≤ find_entering_variable M I) : (find_entering_variable M I).toNat < M.nvars := by
  unfold find_entering_variable at *
  rcases entering_scan_range I M.nvars with h2 | ⟨i, hi, h2⟩
  · rw [h2] at h; exact absurd h (by decide)
  · rw [h2]; simpa using hi

/-- With a nonnegative tolerance the entering variable is never a basic variable. -/
theorem find_entering_variable_nonbasic (M : Model) (I : Instance) (htol : 0 ≤ I.TOLERANCE)
    (h : 0 ≤ find_entering_variable M I) :
    I.status (find_entering_variable M I).toNat ≠ BASIC := by
  unfold find_entering_variable at *
  rcases (entering_scan_score I M.nvars htol).2 with h2 | ⟨i, _, h2, h3⟩
  · rw [h2] at h; exact absurd h (by decide)
  · rw [h2]
    intro hb
    simp only [Int.toNat_ofNat] at hb
    rw [entering_score_basic I i hb] at h3
    exact lt_irrefl _ h3

/-! ### Ratio test: the leaving row -/

/-- Loop invariant of the ratio test: either no row has been selected and `max_change` is
still its initial value, or the selected row is one of the scanned rows and its pivot entry
exceeds the tolerance. -/
theorem leaving_scan_inv (M : Model) (I : Instance) (s mc0 : ℚ) (n : Nat) :
    ((forLoop n (leaving_body M I s)
        { max_change := mc0, leaving_index := -2, to_lower := false }).leaving_index = -2 ∧
      (forLoop n (leaving_body M I s)
        { max_change := mc0, leaving_index := -2, to_lower := false }).max_change = mc0) ∨
    ∃ i, i < n ∧
      (forLoop n (leaving_body M I s)
        { max_change := mc0, leaving_index := -2, to_lower := false }).leaving_index = (i : Int) ∧
      |I.gradient i * -s| > I.TOLERANCE := by
  refine forLoop_induct
    (fun m st => (st.leaving_index = -2 ∧ st.max_change = mc0) ∨
      ∃ i, i < m ∧ st.leaving_index = (i : Int) ∧ |I.gradient i * -s| > I.TOLERANCE)
    n (leaving_body M I s) { max_change := mc0, leaving_index := -2, to_lower := false }
    (Or.inl ⟨rfl, rfl⟩) ?_
  intro m _ st hst
  have hkeep : (st.leaving_index = -2 ∧ st.max_change = mc0) ∨
      ∃ i, i < m + 1 ∧ st.leaving_index = (i : Int) ∧ |I.gradient i * -s| > I.TOLERANCE := by
    rcases hst with h | ⟨i, hi, h1, h2⟩
    · exact Or.inl h
    · exact Or.inr ⟨i, Nat.lt_succ_of_lt hi, h1, h2⟩
  simp only [leaving_body]
  split_ifs with hg
  all_goals first
    | exact hkeep
    | exact Or.inr ⟨m, Nat.lt_succ_self m, rfl, hg⟩

/-- The leaving index is `-2` or a row index. -/
theorem find_leaving_variable_range (M : Model) (I : Instance) (su : ℚ) :
    (find_leaving_variable M I su).1 = -2 ∨
      ∃ i, i < M.nrows ∧ (find_leaving_variable M I su).1 = (i : Int) ∧
        |I.gradient i * -(entering_direction I su)| > I.TOLERANCE := by
  unfold find_leaving_variable
  rcases leaving_scan_inv M I (entering_direction I su)
      (I.xu I.entering_index.toNat - I.xl I.entering_index.toNat) M.nrows with h | h
  · exact Or.inl h.1
  · exact Or.inr h

/-- Without a leaving row the step is the entering variable's own bound span, signed. -/
theorem find_leaving_variable_flip (M : Model) (I : Instance) (su : ℚ)
    (h : (find_leaving_variable M I su).1 < 0) :
    (find_leaving_variable M I su).2.1 =
      (I.xu I.entering_index.toNat - I.xl I.entering_index.toNat) * entering_direction I su := by
  unfold find_leaving_variable at *
  rcases leaving_scan_inv M I (entering_direction I su)
      (I.xu I.entering_index.toNat - I.xl I.entering_index.toNat) M.nrows with h1 | ⟨i, _, h1, _⟩
  · simp only [h1.2]
  · simp only [h1] at h
    exact absurd h (by omega)

/-! ### The value update -/

/-- Frame of `update_variables`: a variable outside `basics` keeps its value. -/
theorem update_variables_frame (M : Model) (I : Instance) (j : Nat)
    (h : ∀ r, r < M.nrows → I.basics r ≠ j) : (update_variables M I).x j = I.x j := by
  unfold update_variables
  simp only []
  refine forLoop_induct (fun _ x => x j = I.x j) M.nrows _ I.x rfl ?_
  intro m hm x hx
  beta_reduce
  rw [Function.update_noteq (Ne.symm (h m hm)), hx]

/-! ### The pivot: exchange or bound flip -/

theorem apply_pivot_xl (M : Model) (I : Instance) (tl : Bool) : (apply_pivot M I tl).xl = I.xl := by
  unfold apply_pivot update_variables update_Binverse
  simp only []
  split_ifs <;> rfl

theorem apply_pivot_xu (M : Model) (I : Instance) (tl : Bool) : (apply_pivot M I tl).xu = I.xu := by
  unfold apply_pivot update_variables update_Binverse
  simp only []
  split_ifs <;> rfl

theorem apply_pivot_status (M : Model) (I : Instance) (tl : Bool) :
    (apply_pivot M I tl).status =
      if I.leaving_index ≥ 0 then
        Function.update
          (Function.update I.status (I.basics I.leaving_index.toNat)
            (if tl then NONBASIC_LOWER else NONBASIC_UPPER))
          I.entering_index.toNat BASIC
      else Function.update I.status I.entering_index.toNat (- I.status I.entering_index.toNat) := by
  unfold apply_pivot update_variables update_Binverse
  simp only []
  split_ifs <;> rfl

theorem apply_pivot_basics (M : Model) (I : Instance) (tl : Bool) :
    (apply_pivot M I tl).basics =
      if I.leaving_index ≥ 0 then
        Function.update I.basics I.leaving_index.toNat I.entering_index.toNat
      else I.basics := by
  unfold apply_pivot update_variables update_Binverse
  simp only []
  split_ifs <;> rfl

theorem apply_pivot_x (M : Model) (I : Instance) (tl : Bool) :
    (apply_pivot M I tl).x =
      if I.leaving_index ≥ 0 then
        Function.update
          (Function.update (update_variables M I).x I.entering_index.toNat
            ((update_variables M I).x I.entering_index.toNat + I.max_change))
          (I.basics I.leaving_index.toNat)
          (if tl then I.xl (I.basics I.leaving_index.toNat)
            else I.xu (I.basics I.leaving_index.toNat))
      else
        Function.update (update_variables M I).x I.entering_index.toNat
          ((update_variables M I).x I.entering_index.toNat + I.max_change) := by
  unfold apply_pivot update_variables update_Binverse
  simp only []
  split_ifs <;> rfl

/-- The pivot keeps nonbasic variables on their bounds, provided every in-range member of
`basics` is tagged `BASIC` and a bound flip moves the entering variable by its bound span. -/
theorem apply_pivot_atBounds (M : Model) (I : Instance) (tl : Bool)
    (hb : AtBounds M I)
    (hbasic : ∀ r, r < M.nrows → I.basics r < M.nrows + M.nvars →
      I.status (I.basics r) = BASIC)
    (hflip : I.leaving_index < 0 →
      (I.status I.entering_index.toNat = NONBASIC_LOWER →
        I.max_change = I.xu I.entering_index.toNat - I.xl I.entering_index.toNat) ∧
      (I.status I.entering_index.toNat = NONBASIC_UPPER →
        I.max_change = -(I.xu I.entering_index.toNat - I.xl I.entering_index.toNat))) :
    AtBounds M (apply_pivot M I tl) := by
  intro j hj
  have hframe : I.status j ≠ BASIC → (update_variables M I).x j = I.x j := by
    intro hne
    apply update_variables_frame
    intro r hr hrj
    apply hne
    rw [← hrj]
    exact hbasic r hr (by rw [hrj]; exact hj)
  rw [apply_pivot_status, apply_pivot_x, apply_pivot_xl, apply_pivot_xu]
  by_cases hli : I.leaving_index ≥ 0
  · simp only [hli, if_true]
    by_cases hje : j = I.entering_index.toNat
    · subst hje
      simp [Function.update_same, BASIC, NONBASIC_LOWER, NONBASIC_UPPER]
    · rw [Function.update_noteq hje]
      by_cases hjr : j = I.basics I.leaving_index.toNat
      · rw [hjr]
        simp only [Function.update_same]
        cases tl <;> simp [NONBASIC_LOWER, NONBASIC_UPPER]
      · rw [Function.update_noteq hjr, Function.update_noteq hjr, Function.update_noteq hje]
        constructor
        · intro h
          rw [hframe (by rw [h]; decide)]
          exact (hb j hj).1 h
        · intro h
          rw [hframe (by rw [h]; decide)]
          exact (hb j hj).2 h
  · simp only [hli, if_false]
    have hneg : I.leaving_index < 0 := by omega
    by_cases hje : j = I.entering_index.toNat
    · rw [← hje] at hflip ⊢
      simp only [Function.update_same]
      constructor
      · intro h
        have hs : I.status j = NONBASIC_UPPER := by
          unfold NONBASIC_LOWER at h; unfold NONBASIC_UPPER; omega
        rw [hframe (by rw [hs]; decide), (hb j hj).2 hs, (hflip hneg).2 hs]
        ring
      · intro h
        have hs : I.status j = NONBASIC_LOWER := by
          unfold NONBASIC_UPPER at h; unfold NONBASIC_LOWER; omega
        rw [hframe (by rw [hs]; decide), (hb j hj).1 hs, (hflip hneg).1 hs]
        ring
    · rw [Function.update_noteq hje, Function.update_noteq hje]
      constructor
      · intro h
        rw [hframe (by rw [h]; decide)]
        exact (hb j hj).1 h
      · intro h
        rw [hframe (by rw [h]; decide)]
        exact (hb j hj).2 h

theorem AtBounds_congr (M : Model) (I J : Instance) (hx : J.x = I.x) (hs : J.status = I.status)
    (hl : J.xl = I.xl) (hu : J.xu = I.xu) (hb : AtBounds M I) : AtBounds M J := by
  intro j hj
  rw [hx, hs, hl, hu]
  exact hb j hj

theorem entering_direction_lower (I : Instance) (su : ℚ)
    (h : I.status I.entering_index.toNat = NONBASIC_LOWER) : entering_direction I su = 1 := by
  unfold entering_direction
  simp [h]

theorem entering_direction_upper (I : Instance) (su : ℚ)
    (h : I.status I.entering_index.toNat = NONBASIC_UPPER) : entering_direction I su = -1 := by
  unfold entering_direction
  simp [h, NONBASIC_UPPER, NONBASIC_LOWER]

theorem start_pivot_flip (M : Model) (su : ℚ) (I : Instance)
    (hneg : (start_pivot M su I).1.leaving_index < 0) :
    (I.status I.entering_index.toNat = NONBASIC_LOWER →
      (start_pivot M su I).1.max_change =
        I.xu I.entering_index.toNat - I.xl I.entering_index.toNat) ∧
    (I.status I.entering_index.toNat = NONBASIC_UPPER →
      (start_pivot M su I).1.max_change =
        -(I.xu I.entering_index.toNat - I.xl I.entering_index.toNat)) := by
  have hflip := find_leaving_variable_flip M _ su hneg
  constructor
  · intro hs
    have hd := entering_direction_lower (compute_gradient M
      { I with basic_cycles := Function.update I.basic_cycles I.entering_index.toNat
                                 (I.basic_cycles I.entering_index.toNat + 1) }) su hs
    show (find_leaving_variable M _ su).2.1 = _
    rw [hflip, hd, mul_one]
    rfl
  · intro hs
    have hd := entering_direction_upper (compute_gradient M
      { I with basic_cycles := Function.update I.basic_cycles I.entering_index.toNat
                                 (I.basic_cycles I.entering_index.toNat + 1) }) su hs
    show (find_leaving_variable M _ su).2.1 = _
    rw [hflip, hd, mul_neg, mul_one]
    rfl

/-- The pivot branch keeps nonbasic variables on their bounds, whichever way it ends. -/
theorem pivot_branch_atBounds (M : Model) (su : ℚ) (I : Instance)
    (hb : AtBounds M I)
    (hbasic : ∀ r, r < M.nrows → I.basics r < M.nrows + M.nvars →
      I.status (I.basics r) = BASIC) :
    AtBounds M (pivot_branch M su I).state := by
  have hb1 : AtBounds M (start_pivot M su I).1 := AtBounds_congr M I _ rfl rfl rfl rfl hb
  unfold pivot_branch
  simp only []
  split_ifs with hunb
  · exact hb1
  · exact apply_pivot_atBounds M _ _ hb1 hbasic (start_pivot_flip M su I)

/-- C2. One pass through the loop body of `rsm_solve` (in particular a pivot: `update_variables`,
the entering update, then the exchange or the bound flip) keeps every variable tagged
`NONBASIC_LOWER` exactly on `xl` and every variable tagged `NONBASIC_UPPER` exactly on `xu`,
given that this holds before, `basics` is injective and `status[j] = BASIC` iff `j` is in
`basics`. -/
theorem rsm_body_preserves_bounds (M : Model) (su : ℚ) (I : Instance)
    (hb : AtBounds M I) (_hinj : BasicsInjective M I) (hsm : StatusMatchesBasics M I) :
    AtBounds M (rsm_body M su I).state := by
  have hbasic : ∀ r, r < M.nrows → I.basics r < M.nrows + M.nvars →
      I.status (I.basics r) = BASIC := fun r hr hlt => (hsm _ hlt).mpr ⟨r, hr, rfl⟩
  have hb0 : AtBounds M (price M (tick I)) :=
    AtBounds_congr M I _ rfl rfl rfl rfl hb
  unfold rsm_body
  simp only []
  split_ifs
  · exact AtBounds_congr M I _ rfl rfl rfl rfl hb
  · exact hb0
  · exact AtBounds_congr M _ _ rfl rfl rfl rfl hb0
  · exact hb0
  · exact pivot_branch_atBounds M su _ hb0 hbasic

/-- The exchange or bound flip keeps the basis bookkeeping, when the entering variable is a
nonbasic structural variable and the leaving index, if any, is a row. -/
theorem apply_pivot_basis (M : Model) (I : Instance) (tl : Bool)
    (hinj : BasicsInjective M I) (hsm : StatusMatchesBasics M I)
    (he : I.entering_index.toNat < M.nvars)
    (hnb : I.status I.entering_index.toNat ≠ BASIC)
    (hli : I.leaving_index ≥ 0 → I.leaving_index.toNat < M.nrows) :
    BasicsInjective M (apply_pivot M I tl) ∧ StatusMatchesBasics M (apply_pivot M I tl) := by
  have he' : I.entering_index.toNat < M.nrows + M.nvars := by omega
  have hnotin : ∀ r, r < M.nrows → I.basics r ≠ I.entering_index.toNat := by
    intro r hr heq
    exact hnb ((hsm _ he').mpr ⟨r, hr, heq⟩)
  unfold BasicsInjective StatusMatchesBasics
  rw [apply_pivot_status, apply_pivot_basics]
  by_cases hl : I.leaving_index ≥ 0
  · have hlr := hli hl
    simp only [hl, if_true]
    constructor
    · intro r hr r' hr' heq
      by_cases h1 : r = I.leaving_index.toNat
      · by_cases h2 : r' = I.leaving_index.toNat
        · rw [h1, h2]
        · rw [h1, Function.update_same, Function.update_noteq h2] at heq
          exact absurd heq.symm (hnotin r' hr')
      · by_cases h2 : r' = I.leaving_index.toNat
        · rw [h2, Function.update_same, Function.update_noteq h1] at heq
          exact absurd heq (hnotin r hr)
        · rw [Function.update_noteq h1, Function.update_noteq h2] at heq
          exact hinj r hr r' hr' heq
    · intro j hj
      by_cases hje : j = I.entering_index.toNat
      · rw [hje, Function.update_same]
        exact ⟨fun _ => ⟨I.leaving_index.toNat, hlr, Function.update_same _ _ _⟩, fun _ => rfl⟩
      · rw [Function.update_noteq hje]
        by_cases hjr : j = I.basics I.leaving_index.toNat
        · rw [hjr, Function.update_same]
          constructor
          · intro h
            cases tl <;> simp [NONBASIC_LOWER, NONBASIC_UPPER, BASIC] at h
          · rintro ⟨r, hr, hrj⟩
            exfalso
            by_cases h1 : r = I.leaving_index.toNat
            · rw [h1, Function.update_same] at hrj
              exact hje (hjr.trans hrj.symm)
            · rw [Function.update_noteq h1] at hrj
              exact h1 (hinj r hr _ hlr hrj)
        · rw [Function.update_noteq hjr]
          constructor
          · intro h
            obtain ⟨r, hr, hrj⟩ := (hsm j hj).mp h
            have h1 : r ≠ I.leaving_index.toNat := by
              intro h1; rw [h1] at hrj; exact hjr hrj.symm
            exact ⟨r, hr, by rw [Function.update_noteq h1]; exact hrj⟩
          · rintro ⟨r, hr, hrj⟩
            by_cases h1 : r = I.leaving_index.toNat
            · rw [h1, Function.update_same] at hrj
              exact absurd hrj.symm hje
            · rw [Function.update_noteq h1] at hrj
              exact (hsm j hj).mpr ⟨r, hr, hrj⟩
  · simp only [hl, if_false]
    refine ⟨hinj, ?_⟩
    intro j hj
    by_cases hje : j = I.entering_index.toNat
    · rw [hje, Function.update_same]
      constructor
      · intro h
        exfalso
        apply hnb
        unfold BASIC at *
        omega
      · rintro ⟨r, hr, hrj⟩
        exact absurd hrj (hnotin r hr)
    · rw [Function.update_noteq hje]
      exact hsm j hj

theorem start_pivot_leaving_range (M : Model) (su : ℚ) (I : Instance)
    (h : (start_pivot M su I).1.leaving_index ≥ 0) :
    (start_pivot M su I).1.leaving_index.toNat < M.nrows := by
  change (find_leaving_variable M _ su).1 ≥ 0 at h
  change (find_leaving_variable M _ su).1.toNat < M.nrows
  rcases find_leaving_variable_range M (compute_gradient M
      { I with basic_cycles := Function.update I.basic_cycles I.entering_index.toNat
                                 (I.basic_cycles I.entering_index.toNat + 1) }) su
    with h1 | ⟨i, hi, h1, _⟩
  · rw [h1] at h; exact absurd h (by decide)
  · rw [h1]; simpa using hi

theorem basis_congr (M : Model) (I J : Instance) (hs : J.status = I.status)
    (hb : J.basics = I.basics)
    (h : BasicsInjective M I ∧ StatusMatchesBasics M I) :
    BasicsInjective M J ∧ StatusMatchesBasics M J := by
  unfold BasicsInjective StatusMatchesBasics at *
  rw [hs, hb]
  exact h

/-- The pivot branch keeps the basis bookkeeping. -/
theorem pivot_branch_basis (M : Model) (su : ℚ) (I : Instance)
    (hinj : BasicsInjective M I) (hsm : StatusMatchesBasics M I)
    (he : I.entering_index.toNat < M.nvars)
    (hnb : I.status I.entering_index.toNat ≠ BASIC) :
    BasicsInjective M (pivot_branch M su I).state ∧
      StatusMatchesBasics M (pivot_branch M su I).state := by
  have h1 : BasicsInjective M (start_pivot M su I).1 ∧ StatusMatchesBasics M (start_pivot M su I).1 :=
    basis_congr M I _ rfl rfl ⟨hinj, hsm⟩
  unfold pivot_branch
  simp only []
  split_ifs with hunb
  · exact h1
  · exact apply_pivot_basis M _ _ h1.1 h1.2 he hnb (start_pivot_leaving_range M su I)

theorem price_entering_index (M : Model) (I : Instance) :
    (price M I).entering_index =
      find_entering_variable M (compute_reduced_cost M (compute_pi M I)) := rfl

/-- C3. Every pass through the loop body of `rsm_solve` preserves the basis bookkeeping:
`basics` stays injective on the rows and `status[j] = BASIC` iff `j` occurs in `basics`;
in particular, with a nonnegative tolerance, the entering variable chosen by
`find_entering_variable` is never a variable that is currently basic. -/
theorem rsm_body_preserves_basis (M : Model) (su : ℚ) (I : Instance)
    (htol : 0 ≤ I.TOLERANCE) (hinj : BasicsInjective M I) (hsm : StatusMatchesBasics M I) :
    BasicsInjective M (rsm_body M su I).state ∧
    StatusMatchesBasics M (rsm_body M su I).state ∧
    (0 ≤ (price M I).entering_index →
      I.status (price M I).entering_index.toNat ≠ BASIC) := by
  have hI : BasicsInjective M I ∧ StatusMatchesBasics M I := ⟨hinj, hsm⟩
  have hent : ∀ J : Instance, J.TOLERANCE = I.TOLERANCE → J.status = I.status →
      0 ≤ (price M J).entering_index →
      (price M J).entering_index.toNat < M.nvars ∧
        I.status (price M J).entering_index.toNat ≠ BASIC := by
    intro J ht hs h
    rw [price_entering_index] at h ⊢
    refine ⟨find_entering_variable_lt M _ h, ?_⟩
    have := find_entering_variable_nonbasic M (compute_reduced_cost M (compute_pi M J))
      (by show 0 ≤ J.TOLERANCE; rw [ht]; exact htol) h
    rw [← hs]
    exact this
  have h0 : BasicsInjective M (price M (tick I)) ∧
      StatusMatchesBasics M (price M (tick I)) :=
    basis_congr M I _ rfl rfl hI
  refine ⟨?_, ?_, fun h => (hent I rfl rfl h).2⟩
  all_goals
    unfold rsm_body
    simp only []
    split_ifs with h1 h2 h3 h4
  · exact (basis_congr M I _ rfl rfl hI).1
  · exact h0.1
  · exact (basis_congr M _ _ rfl rfl h0).1
  · exact h0.1
  · have h2' := hent (tick I) rfl rfl (by omega)
    exact (pivot_branch_basis M su _ h0.1 h0.2 h2'.1 h2'.2).1
  · exact (basis_congr M I _ rfl rfl hI).2
  · exact h0.2
  · exact (basis_congr M _ _ rfl rfl h0).2
  · exact h0.2
  · have h2' := hent (tick I) rfl rfl (by omega)
    exact (pivot_branch_basis M su _ h0.1 h0.2 h2'.1 h2'.2).2

/-! ### Closed forms of the array loops -/

/-- A loop that stores `v i` at index `i`. -/
theorem forLoop_set {α : Type} (n : Nat) (v : Nat → α) (f0 : Nat → α) (k : Nat) :
    forLoop n (fun i f => Function.update f i (v i)) f0 k = if k < n then v k else f0 k := by
  induction n with
  | zero => simp [forLoop]
  | succ m ih =>
    rw [forLoop_succ]
    by_cases hk : k = m
    · subst hk; simp
    · rw [Function.update_noteq hk, ih]
      have : k < m + 1 ↔ k < m := by omega
      simp only [this]

/-- A loop that adds `w j` to the entry at index `j`. -/
theorem forLoop_add (n : Nat) (w : Nat → ℚ) (f0 : Nat → ℚ) (k : Nat) :
    forLoop n (fun j f => Function.update f j (f j + w j)) f0 k =
      if k < n then f0 k + w k else f0 k := by
  induction n with
  | zero => simp [forLoop]
  | succ m ih =>
    rw [forLoop_succ]
    by_cases hk : k = m
    · subst hk
      have hm := ih
      simp only [Function.update_same]
      have : forLoop k (fun j f => Function.update f j (f j + w j)) f0 k = f0 k := by
        clear hm
        have := forLoop_induct (fun m f => ∀ j, m ≤ j → f j = f0 j) k
          (fun j f => Function.update f j (f j + w j)) f0 (fun _ _ => rfl)
          (by
            intro i _ t ht j hj
            beta_reduce
            rw [Function.update_noteq (by omega), ht j (by omega)])
        exact this k (le_refl k)
      rw [this]; simp
    · rw [Function.update_noteq hk, ih]
      have : k < m + 1 ↔ k < m := by omega
      simp only [this]

/-- An accumulating loop is a finite sum. -/
theorem forLoop_sum (n : Nat) (w : Nat → ℚ) (a : ℚ) :
    forLoop n (fun i acc => acc + w i) a = a + ∑ i in range n, w i := by
  induction n with
  | zero => simp [forLoop]
  | succ m ih => rw [forLoop_succ, ih, sum_range_succ]; ring

/-- Closed form of `compute_pi`. -/
theorem compute_pi_entry (M : Model) (I : Instance) (j : Nat) :
    (compute_pi M I).pi j =
      if j < M.nrows then
        ∑ i in range M.nrows,
          (if |I.basic_costs i| > I.TOLERANCE then I.basic_costs i * I.Binverse (i * M.nrows + j)
            else 0)
      else I.pi j := by
  unfold compute_pi
  simp only []
  have key := forLoop_induct
    (fun m pi => ∀ j, pi j =
      if j < M.nrows then
        ∑ i in range m,
          (if |I.basic_costs i| > I.TOLERANCE then I.basic_costs i * I.Binverse (i * M.nrows + j)
            else 0)
      else I.pi j)
    M.nrows
    (fun i pi =>
      if |I.basic_costs i| > I.TOLERANCE then
        forLoop M.nrows (fun j pi =>
          Function.update pi j (pi j + I.basic_costs i * I.Binverse (i * M.nrows + j))) pi
      else pi)
    (forLoop M.nrows (fun i pi => Function.update pi i 0) I.pi)
    (by intro j; rw [forLoop_set]; simp)
    (by
      intro m _ pi hpi j
      beta_reduce
      rw [sum_range_succ]
      by_cases hc : |I.basic_costs m| > I.TOLERANCE
      · rw [if_pos hc,
          forLoop_add M.nrows (fun j => I.basic_costs m * I.Binverse (m * M.nrows + j)), hpi j]
        by_cases hj : j < M.nrows
        · simp [hj, hc]
        · simp [hj]
      · rw [if_neg hc, hpi j]
        by_cases hj : j < M.nrows
        · simp [hj, hc]
        · simp [hj])
  exact key j

/-- The inner loop of `compute_reduced_cost` over the entries of one row. -/
theorem reduced_cost_row (M : Model) (I : Instance) (p : ℚ) (start len : Nat)
    (rc0 : Nat → ℚ) (k : Nat) :
    forLoop len (fun t rc =>
        if I.status (M.indexes (start + t)) ≠ 0 then
          Function.update rc (M.indexes (start + t))
            (rc (M.indexes (start + t)) - p * M.elements (start + t))
        else rc) rc0 k =
      rc0 k - ∑ t in range len,
        (if M.indexes (start + t) = k ∧ I.status k ≠ 0 then p * M.elements (start + t) else 0) := by
  induction len with
  | zero => simp [forLoop]
  | succ m ih =>
    rw [forLoop_succ, sum_range_succ]
    by_cases hs : I.status (M.indexes (start + m)) ≠ 0
    · rw [if_pos hs]
      by_cases hk : M.indexes (start + m) = k
      · rw [hk] at hs ⊢
        rw [Function.update_same, ih]
        simp [hs]
        ring
      · rw [Function.update_noteq (Ne.symm hk), ih]
        simp [hk]
    · rw [if_neg hs, ih]
      by_cases hk : M.indexes (start + m) = k
      · rw [hk] at hs
        simp [hs]
      · simp [hk]

/-- Closed form of `compute_reduced_cost`. -/
theorem compute_reduced_cost_entry (M : Model) (I : Instance) (k : Nat) :
    (compute_reduced_cost M I).reduced_costs k =
      (if k < M.nvars then (if I.status k ≠ 0 then I.costs k else 0) else I.reduced_costs k) -
        ∑ i in range M.nrows, row_price M I i k := by
  unfold compute_reduced_cost
  simp only []
  have key := forLoop_induct
    (fun m rc => ∀ k, rc k =
      (if k < M.nvars then (if I.status k ≠ 0 then I.costs k else 0) else I.reduced_costs k) -
        ∑ i in range m, row_price M I i k)
    M.nrows
    (fun i rc =>
      if |I.pi i| > I.TOLERANCE then
        forLoop (M.row_starts (i + 1) - M.row_starts i) (fun t rc =>
          if I.status (M.indexes (M.row_starts i + t)) ≠ 0 then
            Function.update rc (M.indexes (M.row_starts i + t))
              (rc (M.indexes (M.row_starts i + t)) - I.pi i * M.elements (M.row_starts i + t))
          else rc) rc
      else rc)
    (forLoop M.nvars
      (fun i rc => Function.update rc i (if I.status i ≠ 0 then I.costs i else 0)) I.reduced_costs)
    (by
      intro k
      rw [forLoop_set M.nvars (fun i => if I.status i ≠ 0 then I.costs i else 0)]
      simp)
    (by
      intro m _ rc hrc k
      beta_reduce
      rw [sum_range_succ]
      by_cases hp : |I.pi m| > I.TOLERANCE
      · rw [if_pos hp, reduced_cost_row, hrc k]
        unfold row_price
        rw [if_pos hp]
        ring
      · rw [if_neg hp, hrc k]
        unfold row_price
        rw [if_neg hp]
        ring)
  exact key k

/-! ### The loop body, case by case -/

/-- The six ways a pass through the loop body can go. -/
theorem rsm_body_cases (M : Model) (su : ℚ) (I : Instance) :
    (I.iterations + 1 > 10000 ∧ rsm_body M su I = Flow.ret "Iteration limit" (tick I)) ∨
    (I.iterations + 1 ≤ 10000 ∧ (price M (tick I)).entering_index < 0 ∧
      (price M (tick I)).phase = 1 ∧ phase1_infeasible M (price M (tick I)) = true ∧
      rsm_body M su I = Flow.ret "Infeasible" (price M (tick I))) ∨
    (I.iterations + 1 ≤ 10000 ∧ (price M (tick I)).entering_index < 0 ∧
      (price M (tick I)).phase = 1 ∧ phase1_infeasible M (price M (tick I)) = false ∧
      rsm_body M su I = Flow.next (enter_phase2 M (price M (tick I)))) ∨
    (I.iterations + 1 ≤ 10000 ∧ (price M (tick I)).entering_index < 0 ∧
      (price M (tick I)).phase ≠ 1 ∧ rsm_body M su I = Flow.brk (price M (tick I))) ∨
    (I.iterations + 1 ≤ 10000 ∧ 0 ≤ (price M (tick I)).entering_index ∧
      ((start_pivot M su (price M (tick I))).1.phase = 2 ∧
        (start_pivot M su (price M (tick I))).1.max_change ≥ DBL_MAX / 2) ∧
      rsm_body M su I = Flow.ret "unbounded" (start_pivot M su (price M (tick I))).1) ∨
    (I.iterations + 1 ≤ 10000 ∧ 0 ≤ (price M (tick I)).entering_index ∧
      ¬ ((start_pivot M su (price M (tick I))).1.phase = 2 ∧
        (start_pivot M su (price M (tick I))).1.max_change ≥ DBL_MAX / 2) ∧
      rsm_body M su I =
        Flow.next (apply_pivot M (start_pivot M su (price M (tick I))).1
          (start_pivot M su (price M (tick I))).2)) := by
  have htick : (tick I).iterations = I.iterations + 1 := rfl
  unfold rsm_body pivot_branch
  simp only [htick]
  by_cases h1 : I.iterations + 1 > 10000
  · left
    exact ⟨h1, by rw [if_pos h1]⟩
  · right
    have h1' : I.iterations + 1 ≤ 10000 := by omega
    rw [if_neg h1]
    by_cases h2 : (price M (tick I)).entering_index < 0
    · rw [if_pos h2]
      by_cases h3 : (price M (tick I)).phase = 1
      · rw [if_pos h3]
        by_cases h4 : phase1_infeasible M (price M (tick I)) = true
        · left
          exact ⟨h1', h2, h3, h4, by rw [if_pos h4]⟩
        · right; left
          exact ⟨h1', h2, h3, by simpa using h4, by rw [if_neg h4]⟩
      · right; right; left
        exact ⟨h1', h2, h3, by rw [if_neg h3]⟩
    · rw [if_neg h2]
      right; right; right
      have h2' : 0 ≤ (price M (tick I)).entering_index := by omega
      by_cases h5 : (start_pivot M su (price M (tick I))).1.phase = 2 ∧
          (start_pivot M su (price M (tick I))).1.max_change ≥ DBL_MAX / 2
      · left
        exact ⟨h1', h2', h5, by rw [if_pos h5]⟩
      · right
        exact ⟨h1', h2', h5, by rw [if_neg h5]⟩

theorem apply_pivot_iterations (M : Model) (I : Instance) (tl : Bool) :
    (apply_pivot M I tl).iterations = I.iterations := by
  unfold apply_pivot update_variables update_Binverse
  simp only []
  split_ifs <;> rfl

theorem apply_pivot_phase (M : Model) (I : Instance) (tl : Bool) :
    (apply_pivot M I tl).phase = I.phase := by
  unfold apply_pivot update_variables update_Binverse
  simp only []
  split_ifs <;> rfl

theorem apply_pivot_costs (M : Model) (I : Instance) (tl : Bool) :
    (apply_pivot M I tl).costs = I.costs := by
  unfold apply_pivot update_variables update_Binverse
  simp only []
  split_ifs <;> rfl

theorem apply_pivot_TOLERANCE (M : Model) (I : Instance) (tl : Bool) :
    (apply_pivot M I tl).TOLERANCE = I.TOLERANCE := by
  unfold apply_pivot update_variables update_Binverse
  simp only []
  split_ifs <;> rfl

theorem apply_pivot_basic_costs (M : Model) (I : Instance) (tl : Bool) :
    (apply_pivot M I tl).basic_costs =
      if I.leaving_index ≥ 0 then
        Function.update I.basic_costs I.leaving_index.toNat (I.costs I.entering_index.toNat)
      else I.basic_costs := by
  unfold apply_pivot update_variables update_Binverse
  simp only []
  split_ifs <;> rfl

/-- Every pass increments `iterations` by one. -/
theorem rsm_body_iterations (M : Model) (su : ℚ) (I : Instance) :
    (rsm_body M su I).state.iterations = I.iterations + 1 := by
  rcases rsm_body_cases M su I with h | h | h | h | h | h
  · rw [h.2]; rfl
  · rw [h.2.2.2.2]; rfl
  · rw [h.2.2.2.2]; rfl
  · rw [h.2.2.2]; rfl
  · rw [h.2.2.2]; rfl
  · rw [h.2.2.2]
    show (apply_pivot M _ _).iterations = _
    rw [apply_pivot_iterations]; rfl

/-! ### Termination -/

/-- Run from any loop-head state with `iterations ≤ 10000`, the loop leaves within
`10001 - iterations` passes. -/
theorem rsm_loop_total (M : Model) (su : ℚ) (fuel : Nat) :
    ∀ I : Instance, I.iterations ≤ 10000 → 10001 - I.iterations ≤ (fuel : Int) →
      ∃ r I', rsm_loop M su fuel I = some (r, I') ∧ IsOutcome r ∧
        I.iterations < I'.iterations ∧ I'.iterations ≤ 10001 ∧
        (r = "Iteration limit" ↔ I'.iterations = 10001) := by
  induction fuel with
  | zero => intro I h1 h2; simp at h2; omega
  | succ n ih =>
    intro I h1 h2
    have hit := rsm_body_iterations M su I
    rcases rsm_body_cases M su I with h | h | h | h | h | h
    · refine ⟨"Iteration limit", tick I, ?_, Or.inr (Or.inr (Or.inr rfl)), ?_, ?_, ?_⟩
      · simp only [rsm_loop, h.2]
      · show I.iterations < I.iterations + 1; omega
      · show I.iterations + 1 ≤ 10001; omega
      · have := h.1
        constructor
        · intro _; show I.iterations + 1 = 10001; omega
        · intro _; rfl
    · refine ⟨"Infeasible", price M (tick I), ?_, Or.inr (Or.inl rfl), ?_, ?_, ?_⟩
      · simp only [rsm_loop, h.2.2.2.2]
      · show I.iterations < I.iterations + 1; omega
      · show I.iterations + 1 ≤ 10001; omega
      · have := h.1
        constructor
        · intro hs; exact absurd hs (by decide)
        · intro hs
          have : I.iterations + 1 = 10001 := hs
          omega
    · have hnext : rsm_loop M su (n + 1) I = rsm_loop M su n (enter_phase2 M (price M (tick I))) := by
        simp only [rsm_loop, h.2.2.2.2]
      have hi : (enter_phase2 M (price M (tick I))).iterations = I.iterations + 1 := rfl
      obtain ⟨r, I', e1, e2, e3, e4, e5⟩ := ih (enter_phase2 M (price M (tick I)))
        (by rw [hi]; exact h.1) (by rw [hi]; push_cast at h2; omega)
      exact ⟨r, I', by rw [hnext, e1], e2, by rw [hi] at e3; omega, e4, e5⟩
    · refine ⟨"optimal", final_objective M (price M (tick I)), ?_, Or.inl rfl, ?_, ?_, ?_⟩
      · simp only [rsm_loop, h.2.2.2]
      · show I.iterations < I.iterations + 1; omega
      · show I.iterations + 1 ≤ 10001; omega
      · have := h.1
        constructor
        · intro hs; exact absurd hs (by decide)
        · intro hs
          have : I.iterations + 1 = 10001 := hs
          omega
    · refine ⟨"unbounded", (start_pivot M su (price M (tick I))).1, ?_,
        Or.inr (Or.inr (Or.inl rfl)), ?_, ?_, ?_⟩
      · simp only [rsm_loop, h.2.2.2]
      · show I.iterations < I.iterations + 1; omega
      · show I.iterations + 1 ≤ 10001; omega
      · have := h.1
        constructor
        · intro hs; exact absurd hs (by decide)
        · intro hs
          have : I.iterations + 1 = 10001 := hs
          omega
    · have hnext : rsm_loop M su (n + 1) I =
          rsm_loop M su n (apply_pivot M (start_pivot M su (price M (tick I))).1
            (start_pivot M su (price M (tick I))).2) := by
        simp only [rsm_loop, h.2.2.2]
      have hi : (apply_pivot M (start_pivot M su (price M (tick I))).1
            (start_pivot M su (price M (tick I))).2).iterations = I.iterations + 1 := by
        rw [apply_pivot_iterations]; rfl
      obtain ⟨r, I', e1, e2, e3, e4, e5⟩ := ih _
        (by rw [hi]; exact h.1) (by rw [hi]; push_cast at h2; omega)
      exact ⟨r, I', by rw [hnext, e1], e2, by rw [hi] at e3; omega, e4, e5⟩

/-- More fuel does not change a result. -/
theorem rsm_loop_fuel_mono (M : Model) (su : ℚ) (fuel : Nat) :
    ∀ (I : Instance) (res : String × Instance), rsm_loop M su fuel I = some res →
      ∀ k, rsm_loop M su (fuel + k) I = some res := by
  induction fuel with
  | zero => intro I res h; simp [rsm_loop] at h
  | succ n ih =>
    intro I res h k
    rw [Nat.add_right_comm]
    simp only [rsm_loop] at h ⊢
    cases hb : rsm_body M su I with
    | next I1 => rw [hb] at h; exact ih I1 res h k
    | brk I1 => rw [hb] at h; exact h
    | ret r I1 => rw [hb] at h; exact h

/-- C7. `rsm_solve` terminates on every model and instance: at most 10000 loop bodies are
executed (the loop is left within 10001 passes, and more fuel changes nothing), the result is
one of the four strings, and it is "Iteration limit" exactly when `iterations` is 10001 on
return, i.e. when 10000 bodies completed without another outcome. -/
theorem rsm_solve_terminates (M : Model) (su : ℚ) (I : Instance) :
    ∃ r I', rsm_solve M su I = some (r, I') ∧
      (r = "optimal" ∨ r = "Infeasible" ∨ r = "unbounded" ∨ r = "Iteration limit") ∧
      1 ≤ I'.iterations ∧ I'.iterations ≤ 10001 ∧
      (r = "Iteration limit" ↔ I'.iterations = 10001) ∧
      (∀ fuel, 10001 ≤ fuel →
        rsm_loop M su fuel (restart I) = some (r, I')) := by
  obtain ⟨r, I', e1, e2, e3, e4, e5⟩ :=
    rsm_loop_total M su 10001 (restart I)
      (by show (0 : Int) ≤ 10000; decide) (by show (10001 : Int) - 0 ≤ ((10001 : Nat) : Int); decide)
  refine ⟨r, I', e1, e2, ?_, e4, e5, ?_⟩
  · have : (0 : Int) < I'.iterations := e3
    omega
  · intro fuel hf
    have := rsm_loop_fuel_mono M su 10001 _ _ e1 (fuel - 10001)
    rwa [Nat.add_sub_cancel' hf] at this

/-- A loop that conditionally stores `v i` at index `i`. -/
theorem forLoop_set_if {α : Type} (n : Nat) (c : Nat → Prop) [DecidablePred c] (v : Nat → α)
    (f0 : Nat → α) (k : Nat) :
    forLoop n (fun i f => if c i then Function.update f i (v i) else f) f0 k =
      if k < n ∧ c k then v k else f0 k := by
  induction n with
  | zero => simp [forLoop]
  | succ m ih =>
    rw [forLoop_succ]
    by_cases hk : k = m
    · subst hk
      by_cases hc : c k
      · simp [hc]
      · simp only [hc, if_false, and_false]
        rw [ih]; simp [hc]
    · have : (k < m + 1 ∧ c k) ↔ (k < m ∧ c k) := by
        constructor
        · rintro ⟨h1, h2⟩; exact ⟨by omega, h2⟩
        · rintro ⟨h1, h2⟩; exact ⟨by omega, h2⟩
      simp only [this]
      by_cases hc : c m
      · simp only [hc, if_true]
        rw [Function.update_noteq hk, ih]
      · simp only [hc, if_false]
        rw [ih]

/-- Closed form of the resynchronisation loop of the phase switch. -/
theorem enter_phase2_basic_costs (M : Model) (I : Instance) (i : Nat) :
    (enter_phase2 M I).basic_costs i =
      if i < M.nrows ∧ I.basics i ≤ M.nvars then M.c (I.basics i) else I.basic_costs i := by
  unfold enter_phase2
  simp only []
  exact forLoop_set_if M.nrows (fun i => I.basics i ≤ M.nvars) (fun i => M.c (I.basics i))
    I.basic_costs i

theorem enter_phase2_synced (M : Model) (I : Instance) : Phase2Synced M (enter_phase2 M I) := by
  refine ⟨rfl, ?_⟩
  intro i hi hb
  rw [enter_phase2_basic_costs]
  have hb' : I.basics i ≤ M.nvars := hb
  simp [hi, hb']
  rfl

/-- A pivot in phase 2 keeps the costs synchronised. -/
theorem apply_pivot_synced (M : Model) (I : Instance) (tl : Bool) (h : Phase2Synced M I) :
    Phase2Synced M (apply_pivot M I tl) := by
  unfold Phase2Synced
  rw [apply_pivot_costs, apply_pivot_basics, apply_pivot_basic_costs]
  refine ⟨h.1, ?_⟩
  intro i hi
  by_cases hl : I.leaving_index ≥ 0
  · simp only [hl, if_true]
    by_cases hil : i = I.leaving_index.toNat
    · rw [hil, Function.update_same, Function.update_same, h.1]
      intro _; trivial
    · rw [Function.update_noteq hil, Function.update_noteq hil]
      exact h.2 i hi
  · simp only [hl, if_false]
    exact h.2 i hi

/-- The phase invariant is preserved by every pass that continues the loop. -/
theorem rsm_body_phaseInv (M : Model) (su : ℚ) (I I' : Instance) (hinv : PhaseInv M I)
    (h : rsm_body M su I = Flow.next I') : PhaseInv M I' := by
  rcases rsm_body_cases M su I with c | c | c | c | c | c
  · rw [c.2] at h; cases h
  · rw [c.2.2.2.2] at h; cases h
  · rw [c.2.2.2.2] at h
    cases h
    exact ⟨Or.inr rfl, fun _ => enter_phase2_synced M _⟩
  · rw [c.2.2.2] at h; cases h
  · rw [c.2.2.2] at h; cases h
  · rw [c.2.2.2] at h
    cases h
    unfold PhaseInv
    rw [apply_pivot_phase]
    refine ⟨hinv.1, ?_⟩
    intro hp
    exact apply_pivot_synced M _ _ (hinv.2 hp)

/-- An "optimal" result comes from a `break` in phase 2 right after a pricing pass that found
no entering variable. -/
theorem rsm_loop_optimal (M : Model) (su : ℚ) (fuel : Nat) :
    ∀ (I I' : Instance), PhaseInv M I → rsm_loop M su fuel I = some ("optimal", I') →
      ∃ I0, PhaseInv M I0 ∧ I0.phase = 2 ∧ (price M (tick I0)).entering_index < 0 ∧
        I' = final_objective M (price M (tick I0)) := by
  induction fuel with
  | zero => intro I I' _ h; simp [rsm_loop] at h
  | succ n ih =>
    intro I I' hinv h
    simp only [rsm_loop] at h
    rcases rsm_body_cases M su I with c | c | c | c | c | c
    · rw [c.2] at h
      simp only [Option.some.injEq, Prod.mk.injEq] at h
      exact absurd h.1 (by decide)
    · rw [c.2.2.2.2] at h
      simp only [Option.some.injEq, Prod.mk.injEq] at h
      exact absurd h.1 (by decide)
    · have hb := c.2.2.2.2
      rw [hb] at h
      exact ih _ I' (rsm_body_phaseInv M su I _ hinv hb) h
    · rw [c.2.2.2] at h
      simp only [Option.some.injEq, Prod.mk.injEq, true_and] at h
      refine ⟨I, hinv, ?_, c.2.1, h.symm⟩
      have hp : I.phase ≠ 1 := c.2.2.1
      rcases hinv.1 with h1 | h2
      · exact absurd h1 hp
      · exact h2
    · rw [c.2.2.2] at h
      simp only [Option.some.injEq, Prod.mk.injEq] at h
      exact absurd h.1 (by decide)
    · have hb := c.2.2.2
      rw [hb] at h
      exact ih _ I' (rsm_body_phaseInv M su I _ hinv hb) h

/-! ### Pricing depends only on the basis data -/

theorem row_price_congr (M : Model) (A B : Instance) (i k : Nat) (hpi : A.pi i = B.pi i)
    (ht : A.TOLERANCE = B.TOLERANCE) (hs : A.status = B.status) :
    row_price M A i k = row_price M B i k := by
  unfold row_price
  rw [hpi, ht, hs]

/-- The multipliers computed by `compute_pi` depend only on `basic_costs`, `Binverse` and the
tolerance. -/
theorem compute_pi_congr (M : Model) (A B : Instance) (hb : A.basic_costs = B.basic_costs)
    (hi : A.Binverse = B.Binverse) (ht : A.TOLERANCE = B.TOLERANCE) (j : Nat) (hj : j < M.nrows) :
    (compute_pi M A).pi j = (compute_pi M B).pi j := by
  rw [compute_pi_entry, compute_pi_entry, hb, hi, ht]
  simp [hj]

/-- The reduced costs of the structural variables computed by a pricing pass depend only on
the basis data. -/
theorem price_reduced_costs_congr (M : Model) (A B : Instance)
    (hb : A.basic_costs = B.basic_costs) (hi : A.Binverse = B.Binverse)
    (ht : A.TOLERANCE = B.TOLERANCE) (hs : A.status = B.status) (hc : A.costs = B.costs)
    (k : Nat) (hk : k < M.nvars) :
    (compute_reduced_cost M (compute_pi M A)).reduced_costs k =
      (compute_reduced_cost M (compute_pi M B)).reduced_costs k := by
  rw [compute_reduced_cost_entry, compute_reduced_cost_entry]
  have h1 : (compute_pi M A).status = (compute_pi M B).status := hs
  have h2 : (compute_pi M A).costs = (compute_pi M B).costs := hc
  have h3 : (compute_pi M A).TOLERANCE = (compute_pi M B).TOLERANCE := ht
  rw [h1, h2]
  simp only [hk, if_true]
  congr 1
  apply sum_congr rfl
  intro i hi'
  exact row_price_congr M _ _ i k (compute_pi_congr M A B hb hi ht i (mem_range.mp hi')) h3 h1

/-- The pricing loop reads only the first `n` entries of its arrays. -/
theorem entering_scan_congr (A B : Instance) (n : Nat)
    (hs : A.status = B.status) (hc : A.basic_cycles = B.basic_cycles)
    (ht : A.TOLERANCE = B.TOLERANCE)
    (hr : ∀ i, i < n → A.reduced_costs i = B.reduced_costs i) :
    entering_scan A n = entering_scan B n := by
  unfold entering_scan
  induction n with
  | zero => rfl
  | succ m ih =>
    rw [forLoop_succ, forLoop_succ, ih (fun i hi => hr i (Nat.lt_succ_of_lt hi))]
    unfold entering_body entering_score
    rw [hs, hc, ht, hr m (Nat.lt_succ_self m)]

/-- The entering index found by a pricing pass depends only on the basis data. -/
theorem price_entering_congr (M : Model) (A B : Instance)
    (hb : A.basic_costs = B.basic_costs) (hi : A.Binverse = B.Binverse)
    (ht : A.TOLERANCE = B.TOLERANCE) (hs : A.status = B.status) (hc : A.costs = B.costs)
    (hy : A.basic_cycles = B.basic_cycles) :
    (price M A).entering_index = (price M B).entering_index := by
  rw [price_entering_index, price_entering_index]
  unfold find_entering_variable
  rw [entering_scan_congr (compute_reduced_cost M (compute_pi M A))
    (compute_reduced_cost M (compute_pi M B)) M.nvars hs hy ht
    (fun k hk => price_reduced_costs_congr M A B hb hi ht hs hc k hk)]

/-- C6. Whenever `rsm_solve` returns "optimal": the final phase is 2, the active costs are the
model costs `c`, `find_entering_variable` finds no candidate on the final state, whose reduced
costs of the structural variables are those recomputed by `compute_pi` and
`compute_reduced_cost` from it, and `objective` is the sum of `x[i] * c[i]` over the structural
variables for the final `x`. -/
theorem rsm_solve_optimal (M : Model) (su : ℚ) (I I' : Instance)
    (h : rsm_solve M su I = some ("optimal", I')) :
    I'.phase = 2 ∧ I'.costs = M.c ∧
    find_entering_variable M I' < 0 ∧
    (∀ k, k < M.nvars →
      (compute_reduced_cost M (compute_pi M I')).reduced_costs k = I'.reduced_costs k) ∧
    find_entering_variable M (compute_reduced_cost M (compute_pi M I')) < 0 ∧
    I'.objective = ∑ i in range M.nvars, I'.x i * M.c i := by
  obtain ⟨I0, hinv, hp, hneg, hI'⟩ :=
    rsm_loop_optimal M su 10001 (restart I) I'
      ⟨Or.inl rfl, fun h2 => absurd (show (1 : Int) = 2 from h2) (by decide)⟩ h
  have hsync := hinv.2 hp
  subst hI'
  have hrc : ∀ k, k < M.nvars →
      (compute_reduced_cost M (compute_pi M (final_objective M (price M (tick I0))))).reduced_costs k =
        (final_objective M (price M (tick I0))).reduced_costs k := fun k hk =>
    price_reduced_costs_congr M (final_objective M (price M (tick I0))) I0 rfl rfl rfl rfl rfl k hk
  refine ⟨hp, hsync.1, hneg, hrc, ?_, ?_⟩
  · have : (price M (final_objective M (price M (tick I0)))).entering_index =
        (price M (tick I0)).entering_index :=
      price_entering_congr M _ _ rfl rfl rfl rfl rfl rfl
    rw [price_entering_index] at this
    rw [this]
    exact hneg
  · show forLoop M.nvars (fun i objective => objective + (price M (tick I0)).x i * M.c i) 0 = _
    rw [forLoop_sum, zero_add]
    rfl

theorem rsm_loop_next (M : Model) (su : ℚ) (n : Nat) (I I1 : Instance)
    (h : rsm_body M su I = Flow.next I1) : rsm_loop M su (n + 1) I = rsm_loop M su n I1 := by
  simp only [rsm_loop, h]

theorem rsm_loop_brk (M : Model) (su : ℚ) (n : Nat) (I I1 : Instance)
    (h : rsm_body M su I = Flow.brk I1) :
    rsm_loop M su (n + 1) I = some ("optimal", final_objective M I1) := by
  simp only [rsm_loop, h]

theorem rsm_loop_ret (M : Model) (su : ℚ) (n : Nat) (I I1 : Instance) (r : String)
    (h : rsm_body M su I = Flow.ret r I1) : rsm_loop M su (n + 1) I = some (r, I1) := by
  simp only [rsm_loop, h]

/-- A second call on an optimal instance that passes the phase-1 test prices twice, pivots
never, and breaks. -/
theorem rsm_loop_resolve (M : Model) (su : ℚ) (n : Nat) (I0 : Instance)
    (hsync : Phase2Synced M I0)
    (hneg : (price M (tick I0)).entering_index < 0)
    (hfeas : phase1_infeasible M (final_objective M (price M (tick I0))) = false) :
    ∃ I2, rsm_loop M su (n + 2)
        (restart (final_objective M (price M (tick I0)))) =
          some ("optimal", I2) ∧
      I2.x = (final_objective M (price M (tick I0))).x ∧
      I2.basics = (final_objective M (price M (tick I0))).basics ∧
      I2.status = (final_objective M (price M (tick I0))).status ∧
      I2.Binverse = (final_objective M (price M (tick I0))).Binverse ∧
      I2.objective = (final_objective M (price M (tick I0))).objective ∧
      I2.iterations = 2 := by
  -- first pass: no entering variable, phase 1, the test passes, switch to phase 2
  have e1 : (price M (tick (restart (final_objective M (price M (tick I0)))))).entering_index = (price M (tick I0)).entering_index :=
    price_entering_congr M _ _ rfl rfl rfl rfl rfl rfl
  have b1 : rsm_body M su (restart (final_objective M (price M (tick I0)))) =
      Flow.next (enter_phase2 M (price M (tick (restart (final_objective M (price M (tick I0))))))) := by
    rcases rsm_body_cases M su
      (restart (final_objective M (price M (tick I0))))
      with c | c | c | c | c | c
    · exact absurd c.1 (by show ¬ ((0 : Int) + 1 > 10000); decide)
    · have : phase1_infeasible M (final_objective M (price M (tick I0))) = true := c.2.2.2.1
      rw [hfeas] at this; cases this
    · exact c.2.2.2.2
    · exact absurd (show (1 : Int) = 1 from rfl) c.2.2.1
    · have := c.2.1; rw [e1] at this; omega
    · have := c.2.1; rw [e1] at this; omega
  -- second pass: no entering variable, phase 2, break
  have hbc : (enter_phase2 M (price M (tick (restart (final_objective M (price M (tick I0))))))).basic_costs = I0.basic_costs := by
    funext i
    rw [enter_phase2_basic_costs]
    split_ifs with hc
    · exact (hsync.2 i hc.1 hc.2).symm
    · rfl
  have e2 : (price M (tick (enter_phase2 M (price M (tick
      (restart (final_objective M (price M (tick I0))))))))).entering_index =
        (price M (tick I0)).entering_index :=
    price_entering_congr M _ _ hbc rfl rfl rfl hsync.1.symm rfl
  have b2 : rsm_body M su (enter_phase2 M (price M (tick
      (restart (final_objective M (price M (tick I0))))))) =
      Flow.brk (price M (tick (enter_phase2 M (price M (tick
        (restart (final_objective M (price M (tick I0))))))))) := by
    rcases rsm_body_cases M su (enter_phase2 M (price M (tick
      (restart (final_objective M (price M (tick I0)))))))
      with c | c | c | c | c | c
    · exact absurd c.1 (by show ¬ ((0 : Int) + 1 + 1 > 10000); decide)
    · exact absurd (show (2 : Int) = 1 from c.2.2.1) (by decide)
    · exact absurd (show (2 : Int) = 1 from c.2.2.1) (by decide)
    · exact c.2.2.2
    · have := c.2.1; rw [e2] at this; omega
    · have := c.2.1; rw [e2] at this; omega
  refine ⟨final_objective M (price M (tick (enter_phase2 M (price M (tick
    (restart (final_objective M (price M (tick I0))))))))), ?_, rfl, rfl, rfl, rfl, rfl, rfl⟩
  rw [rsm_loop_next M su (n + 1) _ _ b1, rsm_loop_brk M su n _ _ b2]

/-- What the phase-1 test of the source checks. -/
theorem phase1_infeasible_iff (M : Model) (I : Instance) :
    phase1_infeasible M I = true ↔
      ∃ i, i < M.nrows ∧ I.basics i > M.nvars ∧ |I.x (I.basics i)| > I.TOLERANCE := by
  unfold phase1_infeasible
  simp only [List.any_eq_true, List.mem_range, decide_eq_true_eq]

/-- C10 (amended). If a call to `rsm_solve` returned "optimal" and, in the resulting instance,
no basic variable with index above `nvars` has `|x|` above the tolerance (the phase-1 test the
second call performs), then calling `rsm_solve` again on the resulting instance performs zero
pivots (`x`, `basics`, `status` and `Binverse` are unchanged, two pricing passes are made) and
returns "optimal" with the same objective. -/
theorem rsm_solve_idempotent (M : Model) (su su' : ℚ) (I I1 : Instance)
    (h : rsm_solve M su I = some ("optimal", I1))
    (hfeas : ∀ i, i < M.nrows → I1.basics i > M.nvars → |I1.x (I1.basics i)| ≤ I1.TOLERANCE) :
    ∃ I2, rsm_solve M su' I1 = some ("optimal", I2) ∧
      I2.x = I1.x ∧ I2.basics = I1.basics ∧ I2.status = I1.status ∧
      I2.Binverse = I1.Binverse ∧ I2.objective = I1.objective ∧ I2.iterations = 2 := by
  obtain ⟨I0, hinv, hp, hneg, hI1⟩ :=
    rsm_loop_optimal M su 10001 (restart I) I1
      ⟨Or.inl rfl, fun h2 => absurd (show (1 : Int) = 2 from h2) (by decide)⟩ h
  subst hI1
  have hf : phase1_infeasible M (final_objective M (price M (tick I0))) = false := by
    rw [Bool.eq_false_iff]
    intro ht
    obtain ⟨i, hi, hb, hx⟩ := (phase1_infeasible_iff M _).mp ht
    exact absurd (hfeas i hi hb) (not_le.mpr hx)
  exact rsm_loop_resolve M su' 9999 I0 (hinv.2 hp) hneg hf

/-! ### The uninitialised `s` is never read when no structural variable is free -/

theorem entering_direction_irrelevant (I : Instance) (su su' : ℚ)
    (h : I.status I.entering_index.toNat = NONBASIC_LOWER ∨
      I.status I.entering_index.toNat = NONBASIC_UPPER) :
    entering_direction I su = entering_direction I su' := by
  rcases h with h | h
  · rw [entering_direction_lower I su h, entering_direction_lower I su' h]
  · rw [entering_direction_upper I su h, entering_direction_upper I su' h]

theorem start_pivot_irrelevant (M : Model) (I : Instance) (su su' : ℚ)
    (h : I.status I.entering_index.toNat = NONBASIC_LOWER ∨
      I.status I.entering_index.toNat = NONBASIC_UPPER) :
    start_pivot M su I = start_pivot M su' I := by
  have hd : entering_direction (compute_gradient M
      { I with basic_cycles := Function.update I.basic_cycles I.entering_index.toNat
                                 (I.basic_cycles I.entering_index.toNat + 1) }) su =
    entering_direction (compute_gradient M
      { I with basic_cycles := Function.update I.basic_cycles I.entering_index.toNat
                                 (I.basic_cycles I.entering_index.toNat + 1) }) su' :=
    entering_direction_irrelevant _ su su' h
  unfold start_pivot find_leaving_variable
  simp only []
  rw [hd]

/-- With a nonnegative tolerance and no free structural variable, a pass through the loop body
does not depend on the indeterminate value of the uninitialised `s`. -/
theorem rsm_body_irrelevant (M : Model) (I : Instance) (su su' : ℚ)
    (htol : 0 ≤ I.TOLERANCE) (hst : NoFreeStatus M I) :
    rsm_body M su I = rsm_body M su' I := by
  unfold rsm_body pivot_branch
  simp only []
  split_ifs with h1 h2
  all_goals first
    | rfl
    | skip
  all_goals
    have h2' : 0 ≤ (price M (tick I)).entering_index := by omega
    rw [price_entering_index] at h2'
    have hlt := find_entering_variable_lt M _ h2'
    have hnb := find_entering_variable_nonbasic M (compute_reduced_cost M (compute_pi M (tick I)))
      htol h2'
    have hs : (price M (tick I)).status (price M (tick I)).entering_index.toNat = NONBASIC_LOWER ∨
        (price M (tick I)).status (price M (tick I)).entering_index.toNat = NONBASIC_UPPER := by
      rcases hst _ hlt with h | h | h
      · exact absurd h hnb
      · exact Or.inl h
      · exact Or.inr h
    have heq := start_pivot_irrelevant M (price M (tick I)) su su' hs
    simp only [heq] at *
  all_goals first
    | rfl
    | contradiction

theorem apply_pivot_noFree (M : Model) (I : Instance) (tl : Bool) (h : NoFreeStatus M I) :
    NoFreeStatus M (apply_pivot M I tl) := by
  intro i hi
  rw [apply_pivot_status]
  by_cases hl : I.leaving_index ≥ 0
  · simp only [hl, if_true]
    by_cases h1 : i = I.entering_index.toNat
    · rw [h1, Function.update_same]; exact Or.inl rfl
    · rw [Function.update_noteq h1]
      by_cases h2 : i = I.basics I.leaving_index.toNat
      · rw [h2, Function.update_same]
        cases tl
        · exact Or.inr (Or.inr rfl)
        · exact Or.inr (Or.inl rfl)
      · rw [Function.update_noteq h2]; exact h i hi
  · simp only [hl, if_false]
    by_cases h1 : i = I.entering_index.toNat
    · rw [h1, Function.update_same]
      by_cases he : I.entering_index.toNat < M.nvars
      · rcases h _ he with h3 | h3 | h3
        · rw [h3]; exact Or.inl rfl
        · rw [h3]; exact Or.inr (Or.inr rfl)
        · rw [h3]; exact Or.inr (Or.inl rfl)
      · exact absurd (h1 ▸ hi) he
    · rw [Function.update_noteq h1]; exact h i hi

/-- A pass that continues the loop keeps the tolerance and introduces no free status. -/
theorem rsm_body_noFree (M : Model) (su : ℚ) (I I' : Instance) (hst : NoFreeStatus M I)
    (h : rsm_body M su I = Flow.next I') :
    NoFreeStatus M I' ∧ I'.TOLERANCE = I.TOLERANCE := by
  rcases rsm_body_cases M su I with c | c | c | c | c | c
  · rw [c.2] at h; cases h
  · rw [c.2.2.2.2] at h; cases h
  · rw [c.2.2.2.2] at h
    cases h
    exact ⟨hst, rfl⟩
  · rw [c.2.2.2] at h; cases h
  · rw [c.2.2.2] at h; cases h
  · rw [c.2.2.2] at h
    cases h
    refine ⟨apply_pivot_noFree M _ _ hst, ?_⟩
    rw [apply_pivot_TOLERANCE]
    rfl

/-- With a nonnegative tolerance and no free structural variable, the loop does not depend on
the indeterminate value of the uninitialised `s`. -/
theorem rsm_loop_irrelevant (M : Model) (su su' : ℚ) (fuel : Nat) :
    ∀ I : Instance, 0 ≤ I.TOLERANCE → NoFreeStatus M I →
      rsm_loop M su fuel I = rsm_loop M su' fuel I := by
  induction fuel with
  | zero => intro I _ _; rfl
  | succ n ih =>
    intro I htol hst
    have hb := rsm_body_irrelevant M I su su' htol hst
    simp only [rsm_loop]
    rw [← hb]
    cases hc : rsm_body M su I with
    | next I1 =>
      obtain ⟨h1, h2⟩ := rsm_body_noFree M su I I1 hst hc
      exact ih I1 (by rw [h2]; exact htol) h1
    | brk I1 => rfl
    | ret r I1 => rfl

theorem rsm_solve_irrelevant (M : Model) (su su' : ℚ) (I : Instance)
    (htol : 0 ≤ I.TOLERANCE) (hst : NoFreeStatus M I) :
    rsm_solve M su I = rsm_solve M su' I :=
  rsm_loop_irrelevant M su su' 10001 (restart I) htol hst

/-! ## Concrete runs -/

/-- A run whose returned string is known leaves the instance `solved`. -/
theorem rsm_solve_eq_solved (M : Model) (su : ℚ) (I : Instance) (r : String)
    (h : (rsm_solve M su I).map Prod.fst = some r) :
    rsm_solve M su I = some (r, solved M su I) := by
  unfold solved
  cases hs : rsm_solve M su I with
  | none => rw [hs] at h; cases h
  | some p =>
    rw [hs] at h
    simp only [Option.map_some', Option.some.injEq] at h
    simp only [Option.getD_some, ← h]

theorem e2e_noFree : NoFreeStatus e2eM e2eI := by
  unfold NoFreeStatus; decide

theorem e2e_run :
    (rsm_solve e2eM 0 e2eI).map Prod.fst = some "optimal" ∧
    (solved e2eM 0 e2eI).objective = -6 ∧
    (solved e2eM 0 e2eI).x 0 = 4 ∧ (solved e2eM 0 e2eI).x 1 = 2 ∧
    (solved e2eM 0 e2eI).iterations = 4 := by
  decide!

/-- C9. End to end: on the LP maximise `x + y` subject to `x ≤ 4`, `y ≤ 4`, `x + y ≤ 6` in
minimise-with-bounds form, `rsm_solve` returns "optimal" with objective `-6` at the vertex
`x = 4`, `y = 2` (so `x + y = 6` and `0 ≤ x, y ≤ 4`), whatever the uninitialised `s`. -/
theorem rsm_solve_end_to_end (su : ℚ) :
    ∃ I', rsm_solve e2eM su e2eI = some ("optimal", I') ∧ I'.objective = -6 ∧
      I'.x 0 = 4 ∧ I'.x 1 = 2 ∧ I'.x 0 + I'.x 1 = 6 ∧
      0 ≤ I'.x 0 ∧ I'.x 0 ≤ 4 ∧ 0 ≤ I'.x 1 ∧ I'.x 1 ≤ 4 := by
  have htol : 0 ≤ e2eI.TOLERANCE := by decide!
  rw [rsm_solve_irrelevant e2eM su 0 e2eI htol e2e_noFree]
  obtain ⟨h1, h2, h3, h4, _⟩ := e2e_run
  refine ⟨solved e2eM 0 e2eI, rsm_solve_eq_solved _ _ _ _ h1, h2, h3, h4, ?_⟩
  rw [h3, h4]
  norm_num

theorem twoRows_noFree (b0 b1 : ℚ) : NoFreeStatus (twoRowsM b0 b1) (twoRowsI b0 b1) := by
  intro i hi
  have h0 : i = 0 := by
    have : i < 1 := hi
    omega
  subst h0
  exact Or.inr (Or.inl rfl)

theorem twoRows_run :
    (rsm_solve (twoRowsM 1 2) 0 (twoRowsI 1 2)).map Prod.fst = some "Infeasible" ∧
    (rsm_solve (twoRowsM 2 1) 0 (twoRowsI 2 1)).map Prod.fst = some "optimal" ∧
    (solved (twoRowsM 2 1) 0 (twoRowsI 2 1)).basics 0 = 1 ∧
    (solved (twoRowsM 2 1) 0 (twoRowsI 2 1)).x 1 = 1 ∧
    (solved (twoRowsM 2 1) 0 (twoRowsI 2 1)).x 0 = 1 := by
  decide!

/-- C4 (failing input). For one variable `x` with the rows `x = 1`, `x = 2` the solver returns
"Infeasible", but with the rows in the order `x = 2`, `x = 1` it returns "optimal": the
artificial of the first row, whose index is exactly `nvars = 1`, stays basic at value `1`
and the phase-1 test `basics[i] > nvars` skips it. -/
theorem rsm_solve_two_rows (su : ℚ) :
    (∃ I', rsm_solve (twoRowsM 1 2) su (twoRowsI 1 2) = some ("Infeasible", I')) ∧
    (∃ I', rsm_solve (twoRowsM 2 1) su (twoRowsI 2 1) = some ("optimal", I') ∧
      I'.basics 0 = (twoRowsM 2 1).nvars ∧ I'.x (I'.basics 0) = 1 ∧
      |I'.x (I'.basics 0)| > I'.TOLERANCE) := by
  have htol : ∀ b0 b1 : ℚ, 0 ≤ (twoRowsI b0 b1).TOLERANCE := fun _ _ => by
    show (0 : ℚ) ≤ TOLERANCE; decide!
  rw [rsm_solve_irrelevant _ su 0 _ (htol 1 2) (twoRows_noFree 1 2),
    rsm_solve_irrelevant _ su 0 _ (htol 2 1) (twoRows_noFree 2 1)]
  obtain ⟨h1, h2, h3, h4, _⟩ := twoRows_run
  refine ⟨⟨_, rsm_solve_eq_solved _ _ _ _ h1⟩, _, rsm_solve_eq_solved _ _ _ _ h2, h3, ?_, ?_⟩
  · rw [h3]; exact h4
  · rw [h3, h4]
    have : (solved (twoRowsM 2 1) 0 (twoRowsI 2 1)).TOLERANCE = TOLERANCE := by decide!
    rw [this]
    unfold TOLERANCE
    norm_num

theorem down_noFree : NoFreeStatus downM downI := by
  unfold NoFreeStatus; decide

theorem up_noFree : NoFreeStatus upM upI := by
  unfold NoFreeStatus; decide

theorem down_up_run :
    (rsm_solve upM 0 upI).map Prod.fst = some "unbounded" ∧
    (rsm_solve downM 0 downI).map Prod.fst = some "optimal" ∧
    (solved downM 0 downI).max_change = -DBL_MAX ∧
    (solved downM 0 downI).leaving_index = -2 ∧
    (solved downM 0 downI).phase = 2 ∧
    (solved downM 0 downI).x 0 = -DBL_MAX ∧
    (solved downM 0 downI).objective = -DBL_MAX ∧
    (solved downM 0 downI).iterations = 3 := by
  decide!

/-- C5 (failing input). Minimising `-x` for `x ≥ 0` unbounded above returns "unbounded", but
minimising `x` for `x ≤ 0` unbounded below, entering from the upper bound, returns "optimal":
in phase 2 no row limits the move, the signed step is `max_change = -DBL_MAX`, the test
`max_change >= DBL_MAX / 2` fails, and the variable is flipped to `-DBL_MAX`. -/
theorem rsm_solve_unbounded_below (su : ℚ) :
    (∃ I', rsm_solve upM su upI = some ("unbounded", I')) ∧
    (∃ I', rsm_solve downM su downI = some ("optimal", I') ∧
      I'.phase = 2 ∧ I'.leaving_index = -2 ∧ I'.max_change = -DBL_MAX ∧
      |I'.max_change| ≥ DBL_MAX / 2 ∧ I'.x 0 = -DBL_MAX ∧ I'.objective = -DBL_MAX) := by
  have htol : (0 : ℚ) ≤ TOLERANCE := by decide!
  rw [rsm_solve_irrelevant _ su 0 _ htol up_noFree,
    rsm_solve_irrelevant _ su 0 _ htol down_noFree]
  obtain ⟨h1, h2, h3, h4, h5, h6, h7, _⟩ := down_up_run
  refine ⟨⟨_, rsm_solve_eq_solved _ _ _ _ h1⟩, _, rsm_solve_eq_solved _ _ _ _ h2,
    h5, h4, h3, ?_, h6, h7⟩
  rw [h3]
  decide!

/-- C10 (counterexample). On `growM` the first call returns "optimal" (the bound flip of `x` in
phase 2 raises the basic artificial of row 1 to `1`), and the second call on the resulting
instance returns "Infeasible". -/
theorem rsm_solve_not_idempotent :
    (rsm_solve growM 0 growI).map Prod.fst = some "optimal" ∧
    (rsm_solve growM 0 (solved growM 0 growI)).map Prod.fst = some "Infeasible" := by
  decide!

/-! ### Frames: what a pass leaves untouched -/

/-- Closed form of `compute_gradient`. -/
theorem compute_gradient_entry (M : Model) (I : Instance) (j : Nat) :
    (compute_gradient M I).gradient j =
      if j < M.nrows then
        ∑ i in range M.nrows, column_entry M I.entering_index i * I.Binverse (j * M.nrows + i)
      else I.gradient j := by
  unfold compute_gradient
  simp only []
  have key := forLoop_induct
    (fun m g => ∀ j, g j =
      if j < M.nrows then
        ∑ i in range m, column_entry M I.entering_index i * I.Binverse (j * M.nrows + i)
      else I.gradient j)
    M.nrows
    (fun i g =>
      match scan_row M I.entering_index (M.row_starts i)
          (M.row_starts (i + 1) - M.row_starts i) with
      | some v =>
        forLoop M.nrows (fun j g => Function.update g j (g j + v * I.Binverse (j * M.nrows + i))) g
      | none => g)
    (forLoop M.nrows (fun i g => Function.update g i 0) I.gradient)
    (by intro j; rw [forLoop_set]; simp)
    (by
      intro m _ g hg j
      beta_reduce
      rw [sum_range_succ]
      cases hs : scan_row M I.entering_index (M.row_starts m)
          (M.row_starts (m + 1) - M.row_starts m) with
      | none =>
        have hce : column_entry M I.entering_index m = 0 := by unfold column_entry; rw [hs]
        simp only []
        rw [hg j, hce]
        by_cases hj : j < M.nrows
        · simp [hj]
        · simp [hj]
      | some v =>
        have hce : column_entry M I.entering_index m = v := by unfold column_entry; rw [hs]
        simp only []
        rw [forLoop_add M.nrows (fun j => v * I.Binverse (j * M.nrows + m)), hg j, hce]
        by_cases hj : j < M.nrows
        · simp [hj]
        · simp [hj])
  exact key j

/-- Frame of `update_Binverse`: entries beyond the `nrows × nrows` matrix are untouched. -/
theorem update_Binverse_frame (M : Model) (I : Instance) (k : Nat)
    (hli : I.leaving_index.toNat < M.nrows) (hk : M.nrows * M.nrows ≤ k) :
    (update_Binverse M I).Binverse k = I.Binverse k := by
  have hidx : ∀ i j, i < M.nrows → j < M.nrows → k ≠ i * M.nrows + j := by
    intro i j hi hj heq
    have h1 : i * M.nrows + j < (i + 1) * M.nrows := by rw [Nat.succ_mul]; omega
    have h2 : (i + 1) * M.nrows ≤ M.nrows * M.nrows := Nat.mul_le_mul_right _ hi
    omega
  unfold update_Binverse
  simp only []
  have inner : ∀ (F : Nat → ℚ) (i : Nat) (gr : ℚ), i < M.nrows →
      forLoop M.nrows (fun j Bi => Function.update Bi (i * M.nrows + j)
        (Bi (i * M.nrows + j) - gr * Bi (I.leaving_index.toNat * M.nrows + j))) F k = F k := by
    intro F i gr hi
    refine forLoop_induct (fun _ G => G k = F k) M.nrows _ F rfl ?_
    intro m hm G hG
    beta_reduce
    rw [Function.update_noteq (hidx i m hi hm), hG]
  have h2 : ∀ (F : Nat → ℚ),
      forLoop M.nrows (fun j Bi => Function.update Bi (I.leaving_index.toNat * M.nrows + j)
        (Bi (I.leaving_index.toNat * M.nrows + j) * (1 / I.gradient I.leaving_index.toNat))) F k =
          F k := by
    intro F
    refine forLoop_induct (fun _ G => G k = F k) M.nrows _ F rfl ?_
    intro m hm G hG
    beta_reduce
    rw [Function.update_noteq (hidx _ m hli hm), hG]
  rw [h2]
  refine forLoop_induct (fun _ G => G k = I.Binverse k) M.nrows _ I.Binverse rfl ?_
  intro m hm G hG
  beta_reduce
  split_ifs with hne
  · rw [inner G m _ hm, hG]
  · exact hG

/-- A row without an entry in column `k` contributes nothing to the reduced cost of `k`. -/
theorem row_price_zero (M : Model) (I : Instance) (i k : Nat)
    (h : ∀ t, t < M.row_starts (i + 1) - M.row_starts i → M.indexes (M.row_starts i + t) ≠ k) :
    row_price M I i k = 0 := by
  unfold row_price
  split_ifs
  · apply sum_eq_zero
    intro t ht
    rw [if_neg]
    intro hc
    exact h t (mem_range.mp ht) hc.1
  · rfl

theorem apply_pivot_pi (M : Model) (I : Instance) (tl : Bool) : (apply_pivot M I tl).pi = I.pi := by
  unfold apply_pivot update_variables update_Binverse
  simp only []
  split_ifs <;> rfl

theorem apply_pivot_reduced_costs (M : Model) (I : Instance) (tl : Bool) :
    (apply_pivot M I tl).reduced_costs = I.reduced_costs := by
  unfold apply_pivot update_variables update_Binverse
  simp only []
  split_ifs <;> rfl

theorem apply_pivot_gradient (M : Model) (I : Instance) (tl : Bool) :
    (apply_pivot M I tl).gradient = I.gradient := by
  unfold apply_pivot update_variables update_Binverse
  simp only []
  split_ifs <;> rfl

theorem apply_pivot_initial_costs (M : Model) (I : Instance) (tl : Bool) :
    (apply_pivot M I tl).initial_costs = I.initial_costs := by
  unfold apply_pivot update_variables update_Binverse
  simp only []
  split_ifs <;> rfl

theorem apply_pivot_objective (M : Model) (I : Instance) (tl : Bool) :
    (apply_pivot M I tl).objective = I.objective := by
  unfold apply_pivot update_variables update_Binverse
  simp only []
  split_ifs <;> rfl

theorem apply_pivot_Binverse (M : Model) (I : Instance) (tl : Bool) :
    (apply_pivot M I tl).Binverse =
      if I.leaving_index ≥ 0 then (update_Binverse M I).Binverse else I.Binverse := by
  unfold apply_pivot update_variables update_Binverse
  simp only []
  split_ifs <;> rfl

theorem apply_pivot_basic_cycles (M : Model) (I : Instance) (tl : Bool) :
    (apply_pivot M I tl).basic_cycles =
      if |I.max_change| > I.TOLERANCE then
        forLoop M.nvars (fun i bc => Function.update bc i 0) I.basic_cycles
      else I.basic_cycles := by
  unfold apply_pivot update_variables update_Binverse
  simp only []
  split_ifs <;> rfl

theorem SameOutside.refl (M : Model) (I : Instance) : SameOutside M I I :=
  ⟨fun _ _ => ⟨rfl, rfl⟩, fun _ _ => ⟨rfl, rfl, rfl, rfl⟩, fun _ _ => ⟨rfl, rfl⟩,
    fun _ _ => rfl, rfl, rfl, rfl, rfl, Or.inl rfl⟩

theorem SameOutside.trans (M : Model) (I J K : Instance) (h1 : SameOutside M I J)
    (h2 : SameOutside M J K) : SameOutside M I K := by
  obtain ⟨a1, a2, a3, a4, a5, a6, a7, a8, a9⟩ := h1
  obtain ⟨b1, b2, b3, b4, b5, b6, b7, b8, b9⟩ := h2
  refine ⟨?_, ?_, ?_, ?_, b5.trans a5, b6.trans a6, b7.trans a7, b8.trans a8, ?_⟩
  · intro i hi
    exact ⟨(b1 i hi).1.trans (a1 i hi).1, (b1 i hi).2.trans (a1 i hi).2⟩
  · intro i hi
    exact ⟨(b2 i hi).1.trans (a2 i hi).1, (b2 i hi).2.1.trans (a2 i hi).2.1,
      (b2 i hi).2.2.1.trans (a2 i hi).2.2.1, (b2 i hi).2.2.2.trans (a2 i hi).2.2.2⟩
  · intro i hi
    exact ⟨(b3 i hi).1.trans (a3 i hi).1, (b3 i hi).2.trans (a3 i hi).2⟩
  · intro i hi
    exact (b4 i hi).trans (a4 i hi)
  · rcases b9 with h | h
    · rw [h]; exact a9
    · exact Or.inr h

theorem price_frame (M : Model) (I : Instance) (hM : ColumnsInRange M) :
    SameOutside M I (price M I) := by
  refine ⟨fun _ _ => ⟨rfl, rfl⟩, ?_, ?_, fun _ _ => rfl, rfl, rfl, rfl, rfl, Or.inl rfl⟩
  · intro i hi
    refine ⟨rfl, rfl, ?_, rfl⟩
    show (compute_pi M I).pi i = I.pi i
    rw [compute_pi_entry, if_neg (by omega)]
  · intro k hk
    refine ⟨rfl, ?_⟩
    show (compute_reduced_cost M (compute_pi M I)).reduced_costs k = I.reduced_costs k
    rw [compute_reduced_cost_entry, if_neg (by omega)]
    have : ∑ i in range M.nrows, row_price M (compute_pi M I) i k = 0 := by
      apply sum_eq_zero
      intro i hi
      apply row_price_zero
      intro t ht heq
      have := hM i (mem_range.mp hi) t ht
      omega
    rw [this, sub_zero]
    rfl

theorem enter_phase2_frame (M : Model) (I : Instance) : SameOutside M I (enter_phase2 M I) := by
  refine ⟨fun _ _ => ⟨rfl, rfl⟩, ?_, fun _ _ => ⟨rfl, rfl⟩, fun _ _ => rfl, rfl, rfl, rfl, rfl, Or.inr rfl⟩
  intro i hi
  refine ⟨rfl, ?_, rfl, rfl⟩
  rw [enter_phase2_basic_costs, if_neg]
  intro hc
  omega

theorem start_pivot_frame (M : Model) (su : ℚ) (I : Instance)
    (he : I.entering_index.toNat < M.nvars) : SameOutside M I (start_pivot M su I).1 := by
  refine ⟨fun _ _ => ⟨rfl, rfl⟩, ?_, ?_, fun _ _ => rfl, rfl, rfl, rfl, rfl, Or.inl rfl⟩
  · intro i hi
    refine ⟨rfl, rfl, rfl, ?_⟩
    show (compute_gradient M _).gradient i = I.gradient i
    rw [compute_gradient_entry, if_neg (by omega)]
  · intro i hi
    refine ⟨?_, rfl⟩
    show Function.update I.basic_cycles I.entering_index.toNat _ i = I.basic_cycles i
    rw [Function.update_noteq (by omega)]

theorem apply_pivot_frame (M : Model) (I : Instance) (tl : Bool)
    (hb : BasicsInRange M I) (he : I.entering_index.toNat < M.nvars)
    (hli : I.leaving_index ≥ 0 → I.leaving_index.toNat < M.nrows) :
    SameOutside M I (apply_pivot M I tl) := by
  refine ⟨?_, ?_, ?_, ?_, apply_pivot_xl M I tl, apply_pivot_xu M I tl,
    apply_pivot_initial_costs M I tl, apply_pivot_TOLERANCE M I tl,
    Or.inl (apply_pivot_costs M I tl)⟩
  · intro i hi
    have hie : i ≠ I.entering_index.toNat := by omega
    have hx : (update_variables M I).x i = I.x i :=
      update_variables_frame M I i (fun r hr heq => by have := hb r hr; omega)
    rw [apply_pivot_x, apply_pivot_status]
    by_cases hl : I.leaving_index ≥ 0
    · have hir : i ≠ I.basics I.leaving_index.toNat := by
        have := hb _ (hli hl); omega
      simp only [hl, if_true]
      rw [Function.update_noteq hir, Function.update_noteq hie, Function.update_noteq hie,
        Function.update_noteq hir]
      exact ⟨hx, rfl⟩
    · simp only [hl, if_false]
      rw [Function.update_noteq hie, Function.update_noteq hie]
      exact ⟨hx, rfl⟩
  · intro i hi
    rw [apply_pivot_basics, apply_pivot_basic_costs, apply_pivot_pi, apply_pivot_gradient]
    by_cases hl : I.leaving_index ≥ 0
    · have hil : i ≠ I.leaving_index.toNat := by have := hli hl; omega
      rw [if_pos hl, if_pos hl, Function.update_noteq hil, Function.update_noteq hil]
      exact ⟨rfl, rfl, rfl, rfl⟩
    · rw [if_neg hl, if_neg hl]
      exact ⟨rfl, rfl, rfl, rfl⟩
  · intro i hi
    rw [apply_pivot_basic_cycles, apply_pivot_reduced_costs]
    refine ⟨?_, rfl⟩
    split_ifs
    · rw [forLoop_set M.nvars (fun _ => (0 : Int)), if_neg (by omega)]
    · rfl
  · intro i hi
    rw [apply_pivot_Binverse]
    by_cases hl : I.leaving_index ≥ 0
    · simp only [hl, if_true]
      exact update_Binverse_frame M I i (hli hl) hi
    · simp only [hl, if_false]

/-- A pass through the loop body writes only inside the nominal extent of the arrays. -/
theorem rsm_body_frame (M : Model) (su : ℚ) (I : Instance) (hM : ColumnsInRange M)
    (hb : BasicsInRange M I) : SameOutside M I (rsm_body M su I).state := by
  have h0 : SameOutside M I (tick I) := SameOutside.refl M I
  have h1 : SameOutside M I (price M (tick I)) :=
    SameOutside.trans M _ _ _ h0 (price_frame M (tick I) hM)
  rcases rsm_body_cases M su I with c | c | c | c | c | c
  · rw [c.2]; exact h0
  · rw [c.2.2.2.2]; exact h1
  · rw [c.2.2.2.2]
    exact SameOutside.trans M _ _ _ h1 (enter_phase2_frame M _)
  · rw [c.2.2.2]; exact h1
  · rw [c.2.2.2]
    have he := find_entering_variable_lt M _ (by rw [← price_entering_index]; exact c.2.1)
    exact SameOutside.trans M _ _ _ h1 (start_pivot_frame M su _ he)
  · rw [c.2.2.2]
    have he := find_entering_variable_lt M _ (by rw [← price_entering_index]; exact c.2.1)
    have h2 := SameOutside.trans M _ _ _ h1 (start_pivot_frame M su _ he)
    refine SameOutside.trans M _ _ _ h2 (apply_pivot_frame M _ _ hb he ?_)
    exact start_pivot_leaving_range M su _

/-! ### Shifting the cycle counters -/

theorem entering_body_def (I : Instance) (i : Nat) (st : EnteringScan) :
    entering_body I i st =
      if (I.basic_cycles i < st.cycles ∧ entering_score I i < - I.TOLERANCE) ∨
          (I.basic_cycles i = st.cycles ∧ entering_score I i < st.minrc) then
        { minrc := entering_score I i, cycles := I.basic_cycles i, entering_index := (i : Int) }
      else st := rfl

/-- Raising the counters of all nonbasic structural variables by the same amount does not
change the variable chosen by the pricing loop. -/
theorem entering_scan_shift (I : Instance) (S : Nat → Bool) (d t : Int) (n : Nat)
    (hd : 0 ≤ d) (htol : 0 ≤ I.TOLERANCE)
    (hS : ∀ i, i < n → I.status i ≠ BASIC → S i = true)
    (hb : ∀ i, i < n → I.basic_cycles i + d < INT_MAX) :
    (entering_scan (shiftCounters S d t I) n).entering_index =
        (entering_scan I n).entering_index ∧
    (entering_scan (shiftCounters S d t I) n).minrc = (entering_scan I n).minrc ∧
    (entering_scan I n).minrc ≤ 0 ∧
    (((entering_scan I n).cycles = INT_MAX ∧
        (entering_scan (shiftCounters S d t I) n).cycles = INT_MAX) ∨
      (entering_scan (shiftCounters S d t I) n).cycles = (entering_scan I n).cycles + d) := by
  induction n with
  | zero => exact ⟨rfl, rfl, le_refl _, Or.inl ⟨rfl, rfl⟩⟩
  | succ m ih =>
    obtain ⟨h1, h2, h3, h4⟩ := ih (fun i hi => hS i (Nat.lt_succ_of_lt hi))
      (fun i hi => hb i (Nat.lt_succ_of_lt hi))
    have hbm := hb m (Nat.lt_succ_self m)
    have hscore : entering_score (shiftCounters S d t I) m = entering_score I m := rfl
    have htolS : (shiftCounters S d t I).TOLERANCE = I.TOLERANCE := rfl
    have hbcS : (shiftCounters S d t I).basic_cycles m =
        if S m then I.basic_cycles m + d else I.basic_cycles m := rfl
    have hstep1 : entering_scan (shiftCounters S d t I) (m + 1) =
        entering_body (shiftCounters S d t I) m (entering_scan (shiftCounters S d t I) m) := rfl
    have hstep2 : entering_scan I (m + 1) = entering_body I m (entering_scan I m) := rfl
    rw [hstep1, hstep2, entering_body_def, entering_body_def, hscore, htolS, hbcS, h2]
    by_cases hneg : entering_score I m < 0
    · -- the variable is nonbasic, hence shifted
      have hnb : I.status m ≠ BASIC := by
        intro hbasic
        rw [entering_score_basic I m hbasic] at hneg
        exact lt_irrefl _ hneg
      have hSm := hS m (Nat.lt_succ_self m) hnb
      simp only [hSm, if_true]
      have hcond : ((I.basic_cycles m + d < (entering_scan (shiftCounters S d t I) m).cycles ∧
            entering_score I m < -I.TOLERANCE) ∨
          (I.basic_cycles m + d = (entering_scan (shiftCounters S d t I) m).cycles ∧
            entering_score I m < (entering_scan I m).minrc)) ↔
          ((I.basic_cycles m < (entering_scan I m).cycles ∧
            entering_score I m < -I.TOLERANCE) ∨
          (I.basic_cycles m = (entering_scan I m).cycles ∧
            entering_score I m < (entering_scan I m).minrc)) := by
        rcases h4 with ⟨ha, hb'⟩ | hc
        · rw [ha, hb']
          constructor
          · rintro (⟨_, h⟩ | ⟨h, _⟩)
            · exact Or.inl ⟨by omega, h⟩
            · omega
          · rintro (⟨_, h⟩ | ⟨h, _⟩)
            · exact Or.inl ⟨hbm, h⟩
            · omega
        · rw [hc]
          constructor
          · rintro (⟨h, h'⟩ | ⟨h, h'⟩)
            · exact Or.inl ⟨by omega, h'⟩
            · exact Or.inr ⟨by omega, h'⟩
          · rintro (⟨h, h'⟩ | ⟨h, h'⟩)
            · exact Or.inl ⟨by omega, h'⟩
            · exact Or.inr ⟨by omega, h'⟩
      by_cases hc : (I.basic_cycles m < (entering_scan I m).cycles ∧
            entering_score I m < -I.TOLERANCE) ∨
          (I.basic_cycles m = (entering_scan I m).cycles ∧
            entering_score I m < (entering_scan I m).minrc)
      · rw [if_pos (hcond.mpr hc), if_pos hc]
        exact ⟨rfl, rfl, le_of_lt hneg, Or.inr rfl⟩
      · rw [if_neg (fun h => hc (hcond.mp h)), if_neg hc]
        exact ⟨h1, h2, h3, h4⟩
    · -- a score that is not negative is never selected
      have hno : ∀ (c cy : Int), ¬ ((c < cy ∧ entering_score I m < -I.TOLERANCE) ∨
          (c = cy ∧ entering_score I m < (entering_scan I m).minrc)) := by
        intro c cy hcase
        rcases hcase with ⟨_, h⟩ | ⟨_, h⟩
        · exact hneg (by linarith)
        · exact hneg (lt_of_lt_of_le h h3)
      rw [if_neg (hno _ _), if_neg (hno _ _)]
      exact ⟨h1, h2, h3, h4⟩


theorem tick_shift (S : Nat → Bool) (d t : Int) (I : Instance) :
    tick (shiftCounters S d t I) = shiftCounters S d t (tick I) := by
  unfold tick shiftCounters
  simp only []
  congr 1
  omega

theorem price_shift (M : Model) (S : Nat → Bool) (d t : Int) (I : Instance)
    (hd : 0 ≤ d) (htol : 0 ≤ I.TOLERANCE)
    (hS : ∀ i, i < M.nvars → I.status i ≠ BASIC → S i = true)
    (hb : ∀ i, i < M.nvars → I.basic_cycles i + d < INT_MAX) :
    price M (shiftCounters S d t I) = shiftCounters S d t (price M I) := by
  have h := (entering_scan_shift (compute_reduced_cost M (compute_pi M I)) S d t M.nvars hd htol
    hS hb).1
  have h' : find_entering_variable M (compute_reduced_cost M (compute_pi M (shiftCounters S d t I)))
      = find_entering_variable M (compute_reduced_cost M (compute_pi M I)) := h
  unfold price
  simp only []
  rw [h']
  rfl

theorem start_pivot_shift (M : Model) (su : ℚ) (S : Nat → Bool) (d t : Int) (I : Instance)
    (hSe : S I.entering_index.toNat = true) :
    start_pivot M su (shiftCounters S d t I) =
      (shiftCounters S d t (start_pivot M su I).1, (start_pivot M su I).2) := by
  have hbc : Function.update (shiftCounters S d t I).basic_cycles I.entering_index.toNat
        ((shiftCounters S d t I).basic_cycles I.entering_index.toNat + 1) =
      fun i => if S i then
          Function.update I.basic_cycles I.entering_index.toNat
            (I.basic_cycles I.entering_index.toNat + 1) i + d
        else
          Function.update I.basic_cycles I.entering_index.toNat
            (I.basic_cycles I.entering_index.toNat + 1) i := by
    funext i
    by_cases hi : i = I.entering_index.toNat
    · rw [hi, Function.update_same]
      simp only [hSe, if_true, Function.update_same]
      show (if S I.entering_index.toNat then I.basic_cycles I.entering_index.toNat + d
        else I.basic_cycles I.entering_index.toNat) + 1 = _
      rw [if_pos hSe]
      omega
    · rw [Function.update_noteq hi, Function.update_noteq hi]
      rfl
  unfold start_pivot
  simp only []
  have he : (shiftCounters S d t I).entering_index = I.entering_index := rfl
  rw [he, hbc]
  rfl

theorem apply_pivot_shift (M : Model) (S : Nat → Bool) (d t : Int) (I : Instance) (tl : Bool)
    (hdeg : ¬ |I.max_change| > I.TOLERANCE) :
    apply_pivot M (shiftCounters S d t I) tl = shiftCounters S d t (apply_pivot M I tl) := by
  have hdeg' : ¬ |(shiftCounters S d t I).max_change| > (shiftCounters S d t I).TOLERANCE := hdeg
  unfold apply_pivot
  simp only [if_neg hdeg, if_neg hdeg']
  by_cases hl : I.leaving_index ≥ 0
  · have hl' : (update_variables M (shiftCounters S d t I)).leaving_index ≥ 0 := hl
    have hl'' : (update_variables M I).leaving_index ≥ 0 := hl
    rw [if_pos hl', if_pos hl'']
    rfl
  · have hl' : ¬ (update_variables M (shiftCounters S d t I)).leaving_index ≥ 0 := hl
    have hl'' : ¬ (update_variables M I).leaving_index ≥ 0 := hl
    rw [if_neg hl', if_neg hl'']
    rfl

/-- A degenerate pivot pass commutes with raising the cycle counters of all nonbasic
structural variables (and `iterations`), as long as the counters stay below `INT_MAX` and the
iteration cap is not reached. -/
theorem rsm_body_shift (M : Model) (su : ℚ) (S : Nat → Bool) (d t : Int) (I : Instance)
    (hd : 0 ≤ d) (htol : 0 ≤ I.TOLERANCE)
    (hS : ∀ i, i < M.nvars → I.status i ≠ BASIC → S i = true)
    (hb : ∀ i, i < M.nvars → I.basic_cycles i + d < INT_MAX)
    (hit : I.iterations + t + 1 ≤ 10000)
    (hpiv : 0 ≤ (price M (tick I)).entering_index)
    (hnext : (rsm_body M su I).isNext = true)
    (hdeg : ¬ |(start_pivot M su (price M (tick I))).1.max_change| > I.TOLERANCE) :
    rsm_body M su (shiftCounters S d t I) =
      Flow.next (shiftCounters S d t (rsm_body M su I).state) := by
  have hP : price M (tick (shiftCounters S d t I)) = shiftCounters S d t (price M (tick I)) := by
    rw [tick_shift]
    exact price_shift M S d t (tick I) hd htol hS hb
  have he := find_entering_variable_lt M _ (by rw [← price_entering_index]; exact hpiv)
  have hnb := find_entering_variable_nonbasic M (compute_reduced_cost M (compute_pi M (tick I)))
    htol (by rw [← price_entering_index]; exact hpiv)
  have hSe : S (price M (tick I)).entering_index.toNat = true := hS _ he hnb
  have hsp := start_pivot_shift M su S d t (price M (tick I)) hSe
  -- the unshifted pass is the pivot
  have hI : rsm_body M su I =
      Flow.next (apply_pivot M (start_pivot M su (price M (tick I))).1
        (start_pivot M su (price M (tick I))).2) ∧
      ¬ ((start_pivot M su (price M (tick I))).1.phase = 2 ∧
        (start_pivot M su (price M (tick I))).1.max_change ≥ DBL_MAX / 2) := by
    rcases rsm_body_cases M su I with c | c | c | c | c | c
    · rw [c.2] at hnext; cases hnext
    · rw [c.2.2.2.2] at hnext; cases hnext
    · have := c.2.1; omega
    · rw [c.2.2.2] at hnext; cases hnext
    · rw [c.2.2.2] at hnext; cases hnext
    · exact ⟨c.2.2.2, c.2.2.1⟩
  rw [hI.1]
  rcases rsm_body_cases M su (shiftCounters S d t I) with c | c | c | c | c | c
  · have : (shiftCounters S d t I).iterations + 1 > 10000 := c.1
    have h2 : (shiftCounters S d t I).iterations = I.iterations + t := rfl
    omega
  · have := c.2.1; rw [hP] at this
    have h2 : (shiftCounters S d t (price M (tick I))).entering_index =
      (price M (tick I)).entering_index := rfl
    omega
  · have := c.2.1; rw [hP] at this
    have h2 : (shiftCounters S d t (price M (tick I))).entering_index =
      (price M (tick I)).entering_index := rfl
    omega
  · have := c.2.1; rw [hP] at this
    have h2 : (shiftCounters S d t (price M (tick I))).entering_index =
      (price M (tick I)).entering_index := rfl
    omega
  · have := c.2.2.1
    rw [hP, hsp] at this
    exact absurd this hI.2
  · rw [c.2.2.2, hP, hsp]
    simp only [Flow.state]
    rw [apply_pivot_shift M S d t _ _ hdeg]

/-! ### Composing shifts -/

theorem Flow.isNext_eq (f : Flow) (h : f.isNext = true) : f = Flow.next f.state := by
  cases f with
  | next I => rfl
  | brk I => cases h
  | ret r I => cases h

theorem Instance.eq_of_fields (I J : Instance)
    (h1 : I.phase = J.phase) (h2 : I.iterations = J.iterations)
    (h3 : I.entering_index = J.entering_index) (h4 : I.leaving_index = J.leaving_index)
    (h5 : I.status = J.status) (h6 : I.basics = J.basics) (h7 : I.basic_cycles = J.basic_cycles)
    (h8 : I.objective = J.objective) (h9 : I.TOLERANCE = J.TOLERANCE)
    (h10 : I.max_change = J.max_change) (h11 : I.initial_costs = J.initial_costs)
    (h12 : I.costs = J.costs) (h13 : I.x = J.x) (h14 : I.xl = J.xl) (h15 : I.xu = J.xu)
    (h16 : I.basic_costs = J.basic_costs) (h17 : I.pi = J.pi)
    (h18 : I.reduced_costs = J.reduced_costs) (h19 : I.gradient = J.gradient)
    (h20 : I.Binverse = J.Binverse) : I = J := by
  cases I; cases J
  simp only at *
  simp only [h1, h2, h3, h4, h5, h6, h7, h8, h9, h10, h11, h12, h13, h14, h15, h16, h17, h18,
    h19, h20]

theorem shiftCounters_zero (S : Nat → Bool) (I : Instance) : shiftCounters S 0 0 I = I := by
  unfold shiftCounters
  have h1 : (fun i => if S i then I.basic_cycles i + 0 else I.basic_cycles i) = I.basic_cycles := by
    funext i; split_ifs <;> simp
  rw [h1, add_zero]

theorem shiftCounters_add (S : Nat → Bool) (d t d' t' : Int) (I : Instance) :
    shiftCounters S d t (shiftCounters S d' t' I) = shiftCounters S (d' + d) (t' + t) I := by
  unfold shiftCounters
  simp only []
  have h1 : (fun i => if S i then (if S i then I.basic_cycles i + d' else I.basic_cycles i) + d
        else (if S i then I.basic_cycles i + d' else I.basic_cycles i)) =
      fun i => if S i then I.basic_cycles i + (d' + d) else I.basic_cycles i := by
    funext i
    by_cases h : S i = true
    · simp only [h, if_true]; omega
    · simp only [h]; rfl
  rw [h1, add_assoc]

/-! ### Finite records of instances -/

theorem arr_zero {α : Type} [Zero α] (l : List α) (i : Nat) (h : l.length ≤ i) : arr l i = 0 := by
  unfold arr
  exact List.getD_eq_default l 0 h

theorem arr_map_range {α : Type} [Zero α] (f : Nat → α) (n : Nat) (h : ∀ i, n ≤ i → f i = 0) :
    arr ((List.range n).map f) = f := by
  funext i
  by_cases hi : i < n
  · unfold arr
    rw [List.getD_eq_getElem _ _ (by simpa using hi)]
    simp
  · rw [arr_zero _ _ (by simp; omega), h i (by omega)]

theorem zeroOutside_toInstance (M : Model) (s : Snapshot) (h : Fits M s) :
    ZeroOutside M s.toInstance := by
  obtain ⟨h1, h2, h3, h4, h5, h6, h7, h8, h9, h10, h11, h12, h13⟩ := h
  refine ⟨fun i hi => ⟨?_, ?_, ?_, ?_⟩, fun i hi => ⟨?_, ?_, ?_, ?_⟩,
    fun i hi => ⟨?_, ?_, ?_, ?_⟩, fun i hi => ?_⟩
  all_goals
    apply arr_zero
    omega

theorem zeroOutside_of_same (M : Model) (I J : Instance) (hc : ∀ i, M.nvars ≤ i → M.c i = 0)
    (hz : ZeroOutside M I) (hs : SameOutside M I J) : ZeroOutside M J := by
  obtain ⟨z1, z2, z3, z4⟩ := hz
  obtain ⟨s1, s2, s3, s4, s5, s6, s7, _, s9⟩ := hs
  refine ⟨fun i hi => ?_, fun i hi => ?_, fun i hi => ?_, fun i hi => ?_⟩
  · rw [(s1 i hi).1, (s1 i hi).2, s5, s6]
    exact z1 i hi
  · rw [(s2 i hi).1, (s2 i hi).2.1, (s2 i hi).2.2.1, (s2 i hi).2.2.2]
    exact z2 i hi
  · rw [(s3 i hi).1, (s3 i hi).2, s7]
    refine ⟨(z3 i hi).1, (z3 i hi).2.1, ?_, (z3 i hi).2.2.2⟩
    rcases s9 with h | h
    · rw [h]; exact (z3 i hi).2.2.1
    · rw [h]; exact hc i hi
  · rw [s4 i hi]
    exact z4 i hi

theorem toInstance_snapshot (M : Model) (I : Instance) (hz : ZeroOutside M I) :
    (snapshot M I).toInstance = I := by
  obtain ⟨z1, z2, z3, z4⟩ := hz
  apply Instance.eq_of_fields
  all_goals first
    | rfl
    | skip
  · exact arr_map_range _ _ (fun i hi => (z1 i hi).2.1)
  · exact arr_map_range _ _ (fun i hi => (z2 i hi).1)
  · exact arr_map_range _ _ (fun i hi => (z3 i hi).1)
  · exact arr_map_range _ _ (fun i hi => (z3 i hi).2.2.2)
  · exact arr_map_range _ _ (fun i hi => (z3 i hi).2.2.1)
  · exact arr_map_range _ _ (fun i hi => (z1 i hi).1)
  · exact arr_map_range _ _ (fun i hi => (z1 i hi).2.2.1)
  · exact arr_map_range _ _ (fun i hi => (z1 i hi).2.2.2)
  · exact arr_map_range _ _ (fun i hi => (z2 i hi).2.1)
  · exact arr_map_range _ _ (fun i hi => (z2 i hi).2.2.1)
  · exact arr_map_range _ _ (fun i hi => (z3 i hi).2.1)
  · exact arr_map_range _ _ (fun i hi => (z2 i hi).2.2.2)
  · exact arr_map_range _ _ (fun i hi => z4 i hi)

/-- A pass from a recorded instance, checked on the records: if the pass continues the loop
and the record of the resulting instance is `s'`, the pass yields the instance of `s'`. -/
theorem snapshot_step (M : Model) (su : ℚ) (s s' : Snapshot) (hM : ColumnsInRange M)
    (hc : ∀ i, M.nvars ≤ i → M.c i = 0) (hfit : Fits M s)
    (hb : BasicsInRange M s.toInstance)
    (hnext : (rsm_body M su s.toInstance).isNext = true)
    (hsnap : snapshot M (rsm_body M su s.toInstance).state = s') :
    rsm_body M su s.toInstance = Flow.next s'.toInstance := by
  have hz := zeroOutside_of_same M _ _ hc (zeroOutside_toInstance M s hfit)
    (rsm_body_frame M su s.toInstance hM hb)
  rw [Flow.isNext_eq _ hnext, ← hsnap, toInstance_snapshot M _ hz]

/-! ## Beale's cycling LP -/

theorem beale_trace_zero : (bealeTrace 0).toInstance = restart bealeI := rfl

theorem beale_columns : ColumnsInRange bealeM := by
  unfold ColumnsInRange; decide!

theorem beale_costs_zero : ∀ i, bealeM.nvars ≤ i → bealeM.c i = 0 :=
  fun i hi => arr_zero _ i hi

/-- Pass by pass, the first twelve passes on Beale's LP continue the loop and produce the
recorded instances. -/
theorem beale_checks : ∀ n, n < 12 →
    Fits bealeM (bealeTrace n) ∧ BasicsInRange bealeM (bealeTrace n).toInstance ∧
    (rsm_body bealeM 0 (bealeTrace n).toInstance).isNext = true ∧
    snapshot bealeM (rsm_body bealeM 0 (bealeTrace n).toInstance).state = bealeTrace (n + 1) := by
  unfold Fits BasicsInRange; decide!

theorem beale_steps (n : Nat) (hn : n < 12) :
    rsm_body bealeM 0 (bealeTrace n).toInstance = Flow.next (bealeTrace (n + 1)).toInstance := by
  obtain ⟨h1, h2, h3, h4⟩ := beale_checks n hn
  exact snapshot_step bealeM 0 _ _ beale_columns beale_costs_zero h1 h2 h3 h4

/-- Passes 7 to 12 are degenerate pivots on the six cycling variables. -/
theorem beale_degenerate : ∀ p, p < 6 →
    DegeneratePivot bealeM 0 bealeS (bealeTrace (6 + p)).toInstance ∧
    (∀ i, i < bealeM.nvars → (bealeTrace (6 + p)).toInstance.basic_cycles i ≤ 2) ∧
    (bealeTrace (6 + p)).toInstance.iterations = 6 + p := by
  unfold DegeneratePivot; decide!

/-- After twelve passes the instance is the one after six passes, with the counters of the six
cycling variables raised by one. -/
theorem beale_period :
    (bealeTrace 12).toInstance = shiftCounters bealeS 1 6 (bealeTrace 6).toInstance := by
  apply Instance.eq_of_fields
  all_goals first
    | rfl
    | skip
  funext i
  show arr [2, 2, 0, 1, 1, 1, 1] i =
    if bealeS i then arr [1, 1, 0, 0, 0, 0, 0] i + 1 else arr [1, 1, 0, 0, 0, 0, 0] i
  by_cases hi : i < 7
  · interval_cases i <;> rfl
  · have hS : bealeS i = false := by
      unfold bealeS
      simp only [decide_eq_false_iff_not, not_and]
      intro h; exact absurd h hi
    rw [hS, arr_zero _ i (by simp; omega), arr_zero _ i (by simp; omega)]
    rfl

/-- Passes along a trace can be peeled off the loop. -/
theorem rsm_loop_trace (M : Model) (su : ℚ) (n : Nat) : ∀ (t : Nat → Instance) (m : Nat),
    (∀ p, p < n → rsm_body M su (t p) = Flow.next (t (p + 1))) →
      rsm_loop M su (n + m) (t 0) = rsm_loop M su m (t n) := by
  induction n with
  | zero => intro t m _; rw [Nat.zero_add]
  | succ k ih =>
    intro t m h
    rw [Nat.add_right_comm, rsm_loop_next M su (k + m) _ _ (h 0 (Nat.succ_pos k))]
    exact ih (fun p => t (p + 1)) m (fun p hp => h (p + 1) (Nat.succ_lt_succ hp))

/-- Degenerate pivot passes along a trace can also be peeled off when all counters are
shifted. -/
theorem rsm_loop_shift_trace (M : Model) (su : ℚ) (S : Nat → Bool) (d τ : Int) (hd : 0 ≤ d)
    (n : Nat) : ∀ (t : Nat → Instance) (m : Nat),
    (∀ p, p < n → rsm_body M su (t p) = Flow.next (t (p + 1)) ∧
      DegeneratePivot M su S (t p) ∧
      (∀ i, i < M.nvars → (t p).basic_cycles i + d < INT_MAX) ∧
      (t p).iterations + τ + 1 ≤ 10000) →
    rsm_loop M su (n + m) (shiftCounters S d τ (t 0)) =
      rsm_loop M su m (shiftCounters S d τ (t n)) := by
  refine fun t m h => rsm_loop_trace M su n (fun p => shiftCounters S d τ (t p)) m ?_
  intro p hp
  obtain ⟨hstep, ⟨htol, hS, hpiv, hnext, hdeg⟩, hb, hit⟩ := h p hp
  have := rsm_body_shift M su S d τ (t p) hd htol hS hb hit hpiv hnext hdeg
  rw [this, hstep]
  rfl

theorem beale_shift_side (k : Nat) (p : Nat) (hp : p < 6)
    (hit : 6 * k + p ≤ 9993) :
    rsm_body bealeM 0 (bealeTrace (6 + p)).toInstance =
        Flow.next (bealeTrace (6 + (p + 1))).toInstance ∧
    DegeneratePivot bealeM 0 bealeS (bealeTrace (6 + p)).toInstance ∧
    (∀ i, i < bealeM.nvars →
      (bealeTrace (6 + p)).toInstance.basic_cycles i + (k : Int) < INT_MAX) ∧
    (bealeTrace (6 + p)).toInstance.iterations + (6 * k : Int) + 1 ≤ 10000 := by
  obtain ⟨h1, h2, h3⟩ := beale_degenerate p hp
  refine ⟨beale_steps (6 + p) (by omega), h1, ?_, ?_⟩
  · intro i hi
    have := h2 i hi
    unfold INT_MAX
    omega
  · rw [h3]
    omega

/-- One full cycle of six passes raises the counters of the cycling variables by one. -/
theorem beale_cycle (k : Nat) (hk : k ≤ 1664) (m : Nat) :
    rsm_loop bealeM 0 (6 + m) (shiftCounters bealeS k (6 * k) (bealeTrace 6).toInstance) =
      rsm_loop bealeM 0 m
        (shiftCounters bealeS ((k + 1 : Nat) : Int) (6 * ((k + 1 : Nat) : Int))
          (bealeTrace 6).toInstance) := by
  have h := rsm_loop_shift_trace bealeM 0 bealeS k (6 * k) (Int.natCast_nonneg k) 6
    (fun p => (bealeTrace (6 + p)).toInstance) m
    (fun p hp => beale_shift_side k p hp (by omega))
  have h12 : (bealeTrace (6 + 6)).toInstance =
      shiftCounters bealeS 1 6 (bealeTrace 6).toInstance := beale_period
  simp only [] at h
  rw [h12, shiftCounters_add] at h
  rw [h]
  congr 2
  · push_cast; ring
  · push_cast; ring

theorem beale_cycles (j : Nat) : j ≤ 1665 → ∀ m,
    rsm_loop bealeM 0 (6 * j + m) (bealeTrace 6).toInstance =
      rsm_loop bealeM 0 m
        (shiftCounters bealeS (j : Int) (6 * (j : Int)) (bealeTrace 6).toInstance) := by
  induction j with
  | zero =>
    intro _ m
    have : shiftCounters bealeS ((0 : Nat) : Int) (6 * ((0 : Nat) : Int))
        (bealeTrace 6).toInstance = (bealeTrace 6).toInstance := by
      simp only [Nat.cast_zero, mul_zero]
      exact shiftCounters_zero _ _
    rw [this, Nat.mul_zero, Nat.zero_add]
  | succ i ih =>
    intro hj m
    have e : 6 * (i + 1) + m = 6 * i + (6 + m) := by ring
    rw [e, ih (by omega) (6 + m), beale_cycle i (by omega) m]

theorem rsm_body_limit (M : Model) (su : ℚ) (I : Instance) (h : I.iterations + 1 > 10000) :
    rsm_body M su I = Flow.ret "Iteration limit" (tick I) := by
  rcases rsm_body_cases M su I with c | c | c | c | c | c
  · exact c.2
  all_goals
    have := c.1
    omega

/-- On Beale's LP the loop runs into the iteration cap. -/
theorem beale_limit :
    rsm_solve bealeM 0 bealeI =
      some ("Iteration limit",
        tick (shiftCounters bealeS 1665 (6 * 1665) (bealeTrace 10).toInstance)) := by
  unfold rsm_solve
  rw [← beale_trace_zero]
  have h1 := rsm_loop_trace bealeM 0 6 (fun p => (bealeTrace p).toInstance) 9995
    (fun p hp => beale_steps p (by omega))
  have h2 := beale_cycles 1665 (le_refl _) 5
  have h3 := rsm_loop_shift_trace bealeM 0 bealeS (1665 : Nat) (6 * (1665 : Nat))
    (Int.natCast_nonneg _) 4 (fun p => (bealeTrace (6 + p)).toInstance) 1
    (fun p hp => beale_shift_side 1665 p (by omega) (by omega))
  have h4 := rsm_body_limit bealeM 0
    (shiftCounters bealeS (1665 : Nat) (6 * (1665 : Nat)) (bealeTrace 10).toInstance)
    (by
      show (10 : Int) + 6 * ((1665 : Nat) : Int) + 1 > 10000
      norm_num)
  simp only [] at h1 h3
  have e1 : (10001 : Nat) = 6 + 9995 := by norm_num
  have e2 : (9995 : Nat) = 6 * 1665 + 5 := by norm_num
  have e3 : (5 : Nat) = 4 + 1 := by norm_num
  rw [e1, h1, e2, h2, e3, h3, rsm_loop_ret bealeM 0 0 _ _ _ h4]
  rfl

theorem beale_noFree : NoFreeStatus bealeM bealeI := by
  unfold NoFreeStatus; decide

/-- C8 (counterexample). On Beale's LP, encoded as in the claim, `rsm_solve` returns
"Iteration limit". -/
theorem rsm_solve_beale_cycles :
    (rsm_solve bealeM 0 bealeI).map Prod.fst = some "Iteration limit" := by
  rw [beale_limit]
  rfl

/-- C8 (amended). On Beale's LP `rsm_solve` does cycle: after six passes it repeats the same
six degenerate pivots, and it terminates only through the iteration cap, returning
"Iteration limit" with `iterations = 10001`, whatever the uninitialised `s`. -/
theorem rsm_solve_beale (su : ℚ) :
    ∃ I', rsm_solve bealeM su bealeI = some ("Iteration limit", I') ∧
      I'.iterations = 10001 ∧ I'.phase = 2 ∧
      I'.basics = (bealeTrace 10).toInstance.basics ∧ I'.x = (bealeTrace 10).toInstance.x := by
  have htol : 0 ≤ bealeI.TOLERANCE := by decide!
  rw [rsm_solve_irrelevant bealeM su 0 bealeI htol beale_noFree, beale_limit]
  refine ⟨_, rfl, ?_, rfl, rfl, rfl⟩
  show (10 : Int) + 6 * 1665 + 1 = 10001
  norm_num

/-! ## Instances of the general theorems -/

/-- Witness for C1: the first pivot on the two-row problem `x = 1`, `x = 2`. -/
theorem update_Binverse_preserves_inverse_witness :
    firstPivotI.leaving_index.toNat < (twoRowsM 1 2).nrows ∧
    (∀ i < (twoRowsM 1 2).nrows, ∀ k < (twoRowsM 1 2).nrows,
      ∑ j in range (twoRowsM 1 2).nrows,
        firstPivotI.Binverse (i * (twoRowsM 1 2).nrows + j) * unitB j k = if i = k then 1 else 0) ∧
    (∀ i < (twoRowsM 1 2).nrows,
      firstPivotI.gradient i =
        ∑ j in range (twoRowsM 1 2).nrows,
          firstPivotI.Binverse (i * (twoRowsM 1 2).nrows + j) * (arr [1, 1] : Nat → ℚ) j) ∧
    firstPivotI.gradient firstPivotI.leaving_index.toNat ≠ 0 ∧
    (∀ i < (twoRowsM 1 2).nrows, ∀ k < (twoRowsM 1 2).nrows,
      ∑ j in range (twoRowsM 1 2).nrows,
        (update_Binverse (twoRowsM 1 2) firstPivotI).Binverse (i * (twoRowsM 1 2).nrows + j) *
          (if k = firstPivotI.leaving_index.toNat then (arr [1, 1] : Nat → ℚ) j else unitB j k) =
        if i = k then 1 else 0) := by
  have h1 : firstPivotI.leaving_index.toNat < (twoRowsM 1 2).nrows := by decide!
  have h2 : ∀ i < (twoRowsM 1 2).nrows, ∀ k < (twoRowsM 1 2).nrows,
      ∑ j in range (twoRowsM 1 2).nrows,
        firstPivotI.Binverse (i * (twoRowsM 1 2).nrows + j) * unitB j k =
          if i = k then 1 else 0 := by decide!
  have h3 : ∀ i < (twoRowsM 1 2).nrows,
      firstPivotI.gradient i =
        ∑ j in range (twoRowsM 1 2).nrows,
          firstPivotI.Binverse (i * (twoRowsM 1 2).nrows + j) * (arr [1, 1] : Nat → ℚ) j := by
    decide!
  have h4 : firstPivotI.gradient firstPivotI.leaving_index.toNat ≠ 0 := by decide!
  exact ⟨h1, h2, h3, h4,
    update_Binverse_preserves_inverse (twoRowsM 1 2) firstPivotI unitB (arr [1, 1]) h1 h2 h3 h4⟩

/-- Witness for C2: the first pass on the end-to-end problem, a bound flip of `x`. -/
theorem rsm_body_preserves_bounds_witness :
    AtBounds e2eM (restart e2eI) ∧ BasicsInjective e2eM (restart e2eI) ∧
    StatusMatchesBasics e2eM (restart e2eI) ∧
    AtBounds e2eM (rsm_body e2eM 0 (restart e2eI)).state := by
  have h1 : AtBounds e2eM (restart e2eI) := by unfold AtBounds; decide!
  have h2 : BasicsInjective e2eM (restart e2eI) := by unfold BasicsInjective; decide!
  have h3 : StatusMatchesBasics e2eM (restart e2eI) := by unfold StatusMatchesBasics; decide!
  exact ⟨h1, h2, h3, rsm_body_preserves_bounds e2eM 0 (restart e2eI) h1 h2 h3⟩

/-- Witness for C3: the first pivot on the two-row problem, an exchange. -/
theorem rsm_body_preserves_basis_witness :
    0 ≤ (restart (twoRowsI 1 2)).TOLERANCE ∧
    BasicsInjective (twoRowsM 1 2) (restart (twoRowsI 1 2)) ∧
    StatusMatchesBasics (twoRowsM 1 2) (restart (twoRowsI 1 2)) ∧
    (BasicsInjective (twoRowsM 1 2) (rsm_body (twoRowsM 1 2) 0 (restart (twoRowsI 1 2))).state ∧
      StatusMatchesBasics (twoRowsM 1 2)
        (rsm_body (twoRowsM 1 2) 0 (restart (twoRowsI 1 2))).state ∧
      (0 ≤ (price (twoRowsM 1 2) (restart (twoRowsI 1 2))).entering_index →
        (restart (twoRowsI 1 2)).status
          (price (twoRowsM 1 2) (restart (twoRowsI 1 2))).entering_index.toNat ≠ BASIC)) := by
  have h1 : 0 ≤ (restart (twoRowsI 1 2)).TOLERANCE := by decide!
  have h2 : BasicsInjective (twoRowsM 1 2) (restart (twoRowsI 1 2)) := by
    unfold BasicsInjective; decide!
  have h3 : StatusMatchesBasics (twoRowsM 1 2) (restart (twoRowsI 1 2)) := by
    unfold StatusMatchesBasics; decide!
  exact ⟨h1, h2, h3,
    rsm_body_preserves_basis (twoRowsM 1 2) 0 (restart (twoRowsI 1 2)) h1 h2 h3⟩

/-- Witness for C6: the end-to-end problem. -/
theorem rsm_solve_optimal_witness :
    rsm_solve e2eM 0 e2eI = some ("optimal", solved e2eM 0 e2eI) ∧
    ((solved e2eM 0 e2eI).phase = 2 ∧ (solved e2eM 0 e2eI).costs = e2eM.c ∧
      find_entering_variable e2eM (solved e2eM 0 e2eI) < 0 ∧
      (∀ k, k < e2eM.nvars →
        (compute_reduced_cost e2eM (compute_pi e2eM (solved e2eM 0 e2eI))).reduced_costs k =
          (solved e2eM 0 e2eI).reduced_costs k) ∧
      find_entering_variable e2eM
        (compute_reduced_cost e2eM (compute_pi e2eM (solved e2eM 0 e2eI))) < 0 ∧
      (solved e2eM 0 e2eI).objective =
        ∑ i in range e2eM.nvars, (solved e2eM 0 e2eI).x i * e2eM.c i) := by
  have h : rsm_solve e2eM 0 e2eI = some ("optimal", solved e2eM 0 e2eI) :=
    rsm_solve_eq_solved _ _ _ _ e2e_run.1
  exact ⟨h, rsm_solve_optimal e2eM 0 e2eI (solved e2eM 0 e2eI) h⟩

/-- Witness for C10 (amended): the end-to-end problem, whose final basis holds no artificial. -/
theorem rsm_solve_idempotent_witness :
    rsm_solve e2eM 0 e2eI = some ("optimal", solved e2eM 0 e2eI) ∧
    (∀ i, i < e2eM.nrows → (solved e2eM 0 e2eI).basics i > e2eM.nvars →
      |(solved e2eM 0 e2eI).x ((solved e2eM 0 e2eI).basics i)| ≤
        (solved e2eM 0 e2eI).TOLERANCE) ∧
    (∃ I2, rsm_solve e2eM 0 (solved e2eM 0 e2eI) = some ("optimal", I2) ∧
      I2.x = (solved e2eM 0 e2eI).x ∧ I2.basics = (solved e2eM 0 e2eI).basics ∧
      I2.status = (solved e2eM 0 e2eI).status ∧
      I2.Binverse = (solved e2eM 0 e2eI).Binverse ∧
      I2.objective = (solved e2eM 0 e2eI).objective ∧ I2.iterations = 2) := by
  have h : rsm_solve e2eM 0 e2eI = some ("optimal", solved e2eM 0 e2eI) :=
    rsm_solve_eq_solved _ _ _ _ e2e_run.1
  have hf : ∀ i, i < e2eM.nrows → (solved e2eM 0 e2eI).basics i > e2eM.nvars →
      |(solved e2eM 0 e2eI).x ((solved e2eM 0 e2eI).basics i)| ≤
        (solved e2eM 0 e2eI).TOLERANCE := by decide!
  exact ⟨h, hf, rsm_solve_idempotent e2eM 0 0 e2eI (solved e2eM 0 e2eI) h hf⟩

/-! ## Pricing: the selection rule -/

/-- Loop invariant of `find_entering_variable` with all counters below `INT_MAX`: without a
candidate among the scanned variables the locals are untouched; otherwise the index is a
candidate with the least counter among the candidates, and the most negative score among the
candidates with that counter. -/
theorem entering_scan_spec (I : Instance) (n : Nat)
    (hbc : ∀ i, i < n → I.basic_cycles i < INT_MAX) :
    ((∀ i, i < n → ¬ IsCandidate I i) ∧ (entering_scan I n).entering_index = -2 ∧
      (entering_scan I n).cycles = INT_MAX) ∨
    (∃ i, i < n ∧ (entering_scan I n).entering_index = (i : Int) ∧
      (entering_scan I n).cycles = I.basic_cycles i ∧
      (entering_scan I n).minrc = entering_score I i ∧ IsCandidate I i ∧
      (∀ j, j < n → IsCandidate I j → I.basic_cycles i ≤ I.basic_cycles j) ∧
      (∀ j, j < n → IsCandidate I j → I.basic_cycles j = I.basic_cycles i →
        entering_score I i ≤ entering_score I j)) := by
  induction n with
  | zero => exact Or.inl ⟨fun i hi => absurd hi (Nat.not_lt_zero i), rfl, rfl⟩
  | succ m ih =>
    have hm := hbc m (Nat.lt_succ_self m)
    have hstep : entering_scan I (m + 1) = entering_body I m (entering_scan I m) := rfl
    rw [hstep, entering_body_def]
    rcases ih (fun i hi => hbc i (Nat.lt_succ_of_lt hi)) with ⟨hnone, hidx, hcyc⟩ | ⟨i, hi, hidx, hcyc, hmin, hcand, hleast, hbest⟩
    · -- no candidate so far
      rw [hcyc]
      by_cases hc : IsCandidate I m
      · rw [if_pos (Or.inl ⟨hm, hc⟩)]
        refine Or.inr ⟨m, Nat.lt_succ_self m, rfl, rfl, rfl, hc, ?_, ?_⟩
        · intro j hj hcj
          rcases Nat.lt_succ_iff_lt_or_eq.mp hj with h | h
          · exact absurd hcj (hnone j h)
          · rw [h]
        · intro j hj hcj _
          rcases Nat.lt_succ_iff_lt_or_eq.mp hj with h | h
          · exact absurd hcj (hnone j h)
          · rw [h]
      · rw [if_neg]
        · refine Or.inl ⟨?_, hidx, hcyc⟩
          intro j hj
          rcases Nat.lt_succ_iff_lt_or_eq.mp hj with h | h
          · exact hnone j h
          · rw [h]; exact hc
        · rintro (⟨_, h⟩ | ⟨h, _⟩)
          · exact hc h
          · omega
    · -- variable `i` is the best candidate so far
      rw [hcyc, hmin]
      have hci : entering_score I i < - I.TOLERANCE := hcand
      by_cases hsel : (I.basic_cycles m < I.basic_cycles i ∧ entering_score I m < -I.TOLERANCE) ∨
          (I.basic_cycles m = I.basic_cycles i ∧ entering_score I m < entering_score I i)
      · rw [if_pos hsel]
        have hcm : IsCandidate I m := by
          rcases hsel with ⟨_, h⟩ | ⟨_, h⟩
          · exact h
          · exact lt_trans h hci
        refine Or.inr ⟨m, Nat.lt_succ_self m, rfl, rfl, rfl, hcm, ?_, ?_⟩
        · intro j hj hcj
          rcases Nat.lt_succ_iff_lt_or_eq.mp hj with h | h
          · have := hleast j h hcj
            rcases hsel with ⟨h1, _⟩ | ⟨h1, _⟩ <;> omega
          · rw [h]
        · intro j hj hcj hjm
          rcases Nat.lt_succ_iff_lt_or_eq.mp hj with h | h
          · have h1 := hleast j h hcj
            rcases hsel with ⟨h2, _⟩ | ⟨h2, h3⟩
            · omega
            · exact le_trans (le_of_lt h3) (hbest j h hcj (by omega))
          · rw [h]
      · rw [if_neg hsel]
        refine Or.inr ⟨i, Nat.lt_succ_of_lt hi, hidx, hcyc, hmin, hcand, ?_, ?_⟩
        · intro j hj hcj
          rcases Nat.lt_succ_iff_lt_or_eq.mp hj with h | h
          · exact hleast j h hcj
          · rw [h]
            by_contra hlt
            exact hsel (Or.inl ⟨by omega, by rw [h] at hcj; exact hcj⟩)
        · intro j hj hcj hji
          rcases Nat.lt_succ_iff_lt_or_eq.mp hj with h | h
          · exact hbest j h hcj hji
          · rw [h] at hji ⊢
            by_contra hlt
            exact hsel (Or.inr ⟨hji, not_le.mp hlt⟩)

/-- C11. Pricing selection rule: with all `basic_cycles[i] < INT_MAX`, `find_entering_variable`
returns a negative value iff no structural variable is a candidate (score below minus the
tolerance); otherwise it returns a candidate whose `basic_cycles` is least among all
candidates and whose score is the most negative among the candidates with that least value.
The score of a free variable is `-|reduced_costs[i]|`, of any other `status[i] *
reduced_costs[i]`.  The rule holds for every tolerance, in particular for every tolerance `≥ 0`. -/
theorem find_entering_variable_spec (M : Model) (I : Instance)
    (hbc : ∀ i, i < M.nvars → I.basic_cycles i < INT_MAX) :
    (∀ i, entering_score I i =
      if I.status i = NONBASIC_FREE then - |I.reduced_costs i|
      else (I.status i : ℚ) * I.reduced_costs i) ∧
    (find_entering_variable M I < 0 ↔ ∀ i, i < M.nvars → ¬ IsCandidate I i) ∧
    (0 ≤ find_entering_variable M I →
      ∃ i, i < M.nvars ∧ find_entering_variable M I = (i : Int) ∧ IsCandidate I i ∧
        (∀ j, j < M.nvars → IsCandidate I j → I.basic_cycles i ≤ I.basic_cycles j) ∧
        (∀ j, j < M.nvars → IsCandidate I j → I.basic_cycles j = I.basic_cycles i →
          entering_score I i ≤ entering_score I j)) := by
  refine ⟨fun i => rfl, ?_, ?_⟩
  · unfold find_entering_variable
    rcases entering_scan_spec I M.nvars hbc with ⟨h1, h2, _⟩ | ⟨i, hi, h2, _, _, hc, _, _⟩
    · rw [h2]
      exact ⟨fun _ => h1, fun _ => by decide⟩
    · rw [h2]
      constructor
      · intro h; omega
      · intro h; exact absurd hc (h i hi)
  · intro hpos
    unfold find_entering_variable at *
    rcases entering_scan_spec I M.nvars hbc with ⟨_, h2, _⟩ | ⟨i, hi, h2, _, _, hc, h5, h6⟩
    · rw [h2] at hpos; exact absurd hpos (by decide)
    · exact ⟨i, hi, h2, hc, h5, h6⟩

/-! ## Ratio test: minimum, tie-break, guard -/

/-- One iteration of the ratio test in the vocabulary of eligible rows and ratios. -/
theorem leaving_body_eq (M : Model) (I : Instance) (s : ℚ) (i : Nat) (st : LeavingScan) :
    leaving_body M I s i st =
      if RowEligible I s i ∧ (row_ratio I s i < st.max_change ∨
          (I.basics i ≥ M.nvars ∧ row_ratio I s i ≤ st.max_change)) then
        { max_change := row_ratio I s i, leaving_index := (i : Int),
          to_lower := decide (row_g I s i < 0) }
      else st := by
  unfold leaving_body RowEligible row_ratio row_bound row_g
  simp only []
  by_cases hg : |I.gradient i * -s| > I.TOLERANCE
  · by_cases hp : I.gradient i * -s > 0
    · by_cases hb : I.xu (I.basics i) < DBL_MAX
      · simp only [hg, hp, hb, if_true, true_and]
      · simp only [hg, hp, hb, if_true, if_false, true_and, false_and]
        simp
    · by_cases hb : I.xl (I.basics i) > -DBL_MAX
      · simp only [hg, hp, hb, if_true, if_false, true_and]
      · simp only [hg, hp, hb, if_true, if_false, true_and, false_and]
        simp
  · simp only [hg, if_false, false_and]

/-- Source `find_leaving_variable` in terms of the scan over all rows. -/
theorem find_leaving_variable_eq (M : Model) (I : Instance) (su : ℚ) :
    find_leaving_variable M I su =
      ((leaving_scan M I (entering_direction I su) M.nrows).leaving_index,
        (leaving_scan M I (entering_direction I su) M.nrows).max_change *
          entering_direction I su,
        (leaving_scan M I (entering_direction I su) M.nrows).to_lower) := rfl

/-- Loop invariant of the ratio test. -/
theorem leaving_scan_spec (M : Model) (I : Instance) (s : ℚ) (n : Nat) :
    (leaving_scan M I s n).max_change ≤ bound_span I ∧
    (∀ i, i < n → RowEligible I s i → (leaving_scan M I s n).max_change ≤ row_ratio I s i) ∧
    (((leaving_scan M I s n).leaving_index = -2 ∧
        (leaving_scan M I s n).max_change = bound_span I) ∨
      ∃ li, li < n ∧ (leaving_scan M I s n).leaving_index = (li : Int) ∧ RowEligible I s li ∧
        row_ratio I s li = (leaving_scan M I s n).max_change ∧
        (leaving_scan M I s n).to_lower = decide (row_g I s li < 0) ∧
        (row_ratio I s li < bound_span I ∨ M.nvars ≤ I.basics li)) ∧
    (∀ i, i < n → RowEligible I s i → M.nvars ≤ I.basics i →
      row_ratio I s i = (leaving_scan M I s n).max_change →
      ∃ li, li < n ∧ (leaving_scan M I s n).leaving_index = (li : Int) ∧
        M.nvars ≤ I.basics li) := by
  induction n with
  | zero =>
    refine ⟨le_refl _, ?_, Or.inl ⟨rfl, rfl⟩, ?_⟩
    · intro i hi; exact absurd hi (Nat.not_lt_zero i)
    · intro i hi; exact absurd hi (Nat.not_lt_zero i)
  | succ m ih =>
    obtain ⟨h1, h2, h3, h4⟩ := ih
    have hstep : leaving_scan M I s (m + 1) = leaving_body M I s m (leaving_scan M I s m) := rfl
    rw [hstep, leaving_body_eq]
    by_cases hsel : RowEligible I s m ∧ (row_ratio I s m < (leaving_scan M I s m).max_change ∨
          (I.basics m ≥ M.nvars ∧ row_ratio I s m ≤ (leaving_scan M I s m).max_change))
    · rw [if_pos hsel]
      obtain ⟨hel, hz⟩ := hsel
      have hle : row_ratio I s m ≤ (leaving_scan M I s m).max_change := by
        rcases hz with h | ⟨_, h⟩
        · exact le_of_lt h
        · exact h
      refine ⟨le_trans hle h1, ?_, Or.inr ⟨m, Nat.lt_succ_self m, rfl, hel, rfl, rfl, ?_⟩, ?_⟩
      · intro i hi hei
        rcases Nat.lt_succ_iff_lt_or_eq.mp hi with h | h
        · exact le_trans hle (h2 i h hei)
        · rw [h]
      · rcases hz with h | ⟨h, _⟩
        · exact Or.inl (lt_of_lt_of_le h h1)
        · exact Or.inr h
      · intro i hi hei hai hri
        refine ⟨m, Nat.lt_succ_self m, rfl, ?_⟩
        rcases Nat.lt_succ_iff_lt_or_eq.mp hi with h | h
        · rcases hz with hlt | ⟨hge, _⟩
          · have := h2 i h hei
            have hri' : row_ratio I s i = row_ratio I s m := hri
            rw [hri'] at this
            exact absurd hlt (not_lt.mpr this)
          · exact hge
        · rw [← h]; exact hai
    · rw [if_neg hsel]
      refine ⟨h1, ?_, ?_, ?_⟩
      · intro i hi hei
        rcases Nat.lt_succ_iff_lt_or_eq.mp hi with h | h
        · exact h2 i h hei
        · rw [h] at hei ⊢
          by_contra hlt
          exact hsel ⟨hei, Or.inl (not_le.mp hlt)⟩
      · rcases h3 with h | ⟨li, hli, h⟩
        · exact Or.inl h
        · exact Or.inr ⟨li, Nat.lt_succ_of_lt hli, h⟩
      · intro i hi hei hai hri
        rcases Nat.lt_succ_iff_lt_or_eq.mp hi with h | h
        · obtain ⟨li, hli, h5⟩ := h4 i h hei hai hri
          exact ⟨li, Nat.lt_succ_of_lt hli, h5⟩
        · rw [h] at hei hai hri
          exact absurd ⟨hei, Or.inr ⟨hai, le_of_eq hri⟩⟩ hsel

/-- The first pivot of a solve starts from `first_ratio_state` and records the result of the
ratio test run there. -/
theorem start_pivot_first (M : Model) (su : ℚ) (I : Instance) :
    start_pivot M su (price M (tick (restart I))) =
      (with_ratio_test (first_ratio_state M I)
          (find_leaving_variable M (first_ratio_state M I) su),
        (find_leaving_variable M (first_ratio_state M I) su).2.2) := rfl

/-- Closed form of `update_variables` on the basic variables, for injective `basics`. -/
theorem update_variables_basic (M : Model) (I : Instance) (hinj : BasicsInjective M I)
    (i : Nat) (hi : i < M.nrows) :
    (update_variables M I).x (I.basics i) = I.x (I.basics i) - I.max_change * I.gradient i := by
  unfold update_variables
  simp only []
  have key := forLoop_induct
    (fun m x => ∀ i, i < M.nrows → x (I.basics i) =
      if i < m then I.x (I.basics i) - I.max_change * I.gradient i else I.x (I.basics i))
    M.nrows (fun i x => Function.update x (I.basics i) (x (I.basics i) - I.max_change * I.gradient i))
    I.x (by intro i _; simp)
    (by
      intro m hm x hx i hi
      beta_reduce
      by_cases him : i = m
      · subst him
        rw [Function.update_same, hx i hi]
        simp
      · have hne : I.basics i ≠ I.basics m := fun h => him (hinj i hi m hm h)
        rw [Function.update_noteq hne, hx i hi]
        have : i < m + 1 ↔ i < m := by omega
        simp only [this])
  rw [key i hi, if_pos hi]

/-- C12 (as stated) fails: on the first ratio test of `tieM` the only eligible row has ratio
`1`, equal to the bound span of the entering variable and not smaller, yet the row of the
artificial is returned as the leaving row `0`. -/
theorem find_leaving_variable_tie :
    (∀ i, i < tieM.nrows → RowEligible tieS (entering_direction tieS 0) i →
      ¬ row_ratio tieS (entering_direction tieS 0) i < bound_span tieS) ∧
    (find_leaving_variable tieM tieS 0).1 = 0 ∧
    ¬ (find_leaving_variable tieM tieS 0).1 < 0 := by
  decide!

/-- C12 (amended). If no eligible row has a ratio strictly smaller than the bound span of the
entering variable, then `max_change = s * (xu[e] - xl[e])`, and `find_leaving_variable`
returns no leaving row (a negative index) exactly when, in addition, no eligible row whose
basic variable is an appended one (`basics[i] >= nvars`) has a ratio equal to the span. -/
theorem find_leaving_variable_no_row (M : Model) (I : Instance) (su : ℚ)
    (h : ∀ i, i < M.nrows → RowEligible I (entering_direction I su) i →
      ¬ row_ratio I (entering_direction I su) i < bound_span I) :
    (find_leaving_variable M I su).2.1 = entering_direction I su * bound_span I ∧
    ((find_leaving_variable M I su).1 < 0 ↔
      ∀ i, i < M.nrows → RowEligible I (entering_direction I su) i → M.nvars ≤ I.basics i →
        row_ratio I (entering_direction I su) i ≠ bound_span I) := by
  rw [find_leaving_variable_eq]
  simp only []
  obtain ⟨h1, h2, h3, h4⟩ := leaving_scan_spec M I (entering_direction I su) M.nrows
  have hmc : (leaving_scan M I (entering_direction I su) M.nrows).max_change = bound_span I := by
    rcases h3 with ⟨_, h⟩ | ⟨li, hli, _, hel, hr, _, _⟩
    · exact h
    · exact le_antisymm h1 (by rw [← hr]; exact not_lt.mp (h li hli hel))
  refine ⟨by rw [hmc, mul_comm], ?_⟩
  constructor
  · intro hneg i hi hel hart hr
    obtain ⟨li, _, hl, _⟩ := h4 i hi hel hart (by rw [hr, hmc])
    rw [hl] at hneg
    omega
  · intro hno
    rcases h3 with ⟨hl, _⟩ | ⟨li, hli, hl, hel, hr, _, hwhy⟩
    · rw [hl]; decide
    · exfalso
      rcases hwhy with hlt | hart
      · exact h li hli hel hlt
      · exact hno li hli hel hart (by rw [hr, hmc])

/-- C13. Ratio test, minimum and tie-break: `find_leaving_variable` returns `max_change = s * m`
where `m` is the least of the bound span `xu[e] - xl[e]` and the ratios of the eligible rows;
if it returns a row, that row is eligible, its ratio is `m`, and `to_lower` is set iff `g < 0`
for that row; and if some eligible row with `basics[i] >= nvars` has ratio `m`, then a row is
returned and its basic variable has index `>= nvars`. -/
theorem find_leaving_variable_min (M : Model) (I : Instance) (su : ℚ) :
    ∃ m : ℚ, (find_leaving_variable M I su).2.1 = entering_direction I su * m ∧
      m ≤ bound_span I ∧
      (∀ i, i < M.nrows → RowEligible I (entering_direction I su) i →
        m ≤ row_ratio I (entering_direction I su) i) ∧
      (m = bound_span I ∨ ∃ i, i < M.nrows ∧ RowEligible I (entering_direction I su) i ∧
        row_ratio I (entering_direction I su) i = m) ∧
      ((find_leaving_variable M I su).1 = -2 ∨
        ∃ li, li < M.nrows ∧ (find_leaving_variable M I su).1 = (li : Int) ∧
          RowEligible I (entering_direction I su) li ∧
          row_ratio I (entering_direction I su) li = m ∧
          ((find_leaving_variable M I su).2.2 = true ↔
            row_g I (entering_direction I su) li < 0)) ∧
      (∀ i, i < M.nrows → RowEligible I (entering_direction I su) i → M.nvars ≤ I.basics i →
        row_ratio I (entering_direction I su) i = m →
        ∃ li, li < M.nrows ∧ (find_leaving_variable M I su).1 = (li : Int) ∧
          M.nvars ≤ I.basics li) := by
  rw [find_leaving_variable_eq]
  simp only []
  obtain ⟨h1, h2, h3, h4⟩ := leaving_scan_spec M I (entering_direction I su) M.nrows
  refine ⟨(leaving_scan M I (entering_direction I su) M.nrows).max_change, mul_comm _ _, h1, h2,
    ?_, ?_, h4⟩
  · rcases h3 with ⟨_, h⟩ | ⟨li, hli, _, hel, hr, _, _⟩
    · exact Or.inl h
    · exact Or.inr ⟨li, hli, hel, hr⟩
  · rcases h3 with ⟨h, _⟩ | ⟨li, hli, hl, hel, hr, htl, _⟩
    · exact Or.inl h
    · refine Or.inr ⟨li, hli, hl, hel, hr, ?_⟩
      rw [htl]
      exact decide_eq_true_iff

/-- The pivot branch of a pass starts from `ratio_state` and records the result of the ratio
test run there. -/
theorem start_pivot_ratio_state (M : Model) (su : ℚ) (I : Instance) :
    start_pivot M su (price M (tick I)) =
      (with_ratio_test (ratio_state M I) (find_leaving_variable M (ratio_state M I) su),
        (find_leaving_variable M (ratio_state M I) su).2.2) := rfl

/-- C20. The ratio-test step respects bounds: with `TOLERANCE >= 0` and `basics` injective,
after `update_variables` with the `max_change` returned by `find_leaving_variable`, the basic
variable of every eligible row has not passed the bound in its direction of movement, and
the leaving variable, if there is one, sits exactly on its destination bound: when the
entering variable is not basic, the values left by the pivot are those before the assignment
`x[leaving] := bound`. -/
theorem ratio_step_respects_bounds (M : Model) (I : Instance) (su : ℚ)
    (htol : 0 ≤ I.TOLERANCE) (hinj : BasicsInjective M I) :
    (∀ i, i < M.nrows → RowEligible I (entering_direction I su) i →
      (row_g I (entering_direction I su) i > 0 →
        (update_variables M (with_ratio_test I (find_leaving_variable M I su))).x (I.basics i) ≤
          I.xu (I.basics i)) ∧
      (row_g I (entering_direction I su) i < 0 →
        I.xl (I.basics i) ≤
          (update_variables M (with_ratio_test I (find_leaving_variable M I su))).x
            (I.basics i))) ∧
    (∀ li, li < M.nrows → (find_leaving_variable M I su).1 = (li : Int) →
      (update_variables M (with_ratio_test I (find_leaving_variable M I su))).x (I.basics li) =
        (if (find_leaving_variable M I su).2.2 then I.xl (I.basics li)
          else I.xu (I.basics li)) ∧
      ((∀ r, r < M.nrows → I.basics r ≠ I.entering_index.toNat) →
        (apply_pivot M (with_ratio_test I (find_leaving_variable M I su))
            (find_leaving_variable M I su).2.2).x =
          Function.update
            (update_variables M (with_ratio_test I (find_leaving_variable M I su))).x
            I.entering_index.toNat
            ((update_variables M (with_ratio_test I (find_leaving_variable M I su))).x
              I.entering_index.toNat + (find_leaving_variable M I su).2.1))) := by
  have hinj' : BasicsInjective M (with_ratio_test I (find_leaving_variable M I su)) := hinj
  have hx : ∀ i, i < M.nrows →
      (update_variables M (with_ratio_test I (find_leaving_variable M I su))).x (I.basics i) =
        I.x (I.basics i) +
          (leaving_scan M I (entering_direction I su) M.nrows).max_change *
            row_g I (entering_direction I su) i := by
    intro i hi
    have := update_variables_basic M _ hinj' i hi
    have e1 : (with_ratio_test I (find_leaving_variable M I su)).basics = I.basics := rfl
    have e2 : (with_ratio_test I (find_leaving_variable M I su)).x = I.x := rfl
    have e3 : (with_ratio_test I (find_leaving_variable M I su)).gradient = I.gradient := rfl
    have e4 : (with_ratio_test I (find_leaving_variable M I su)).max_change =
        (leaving_scan M I (entering_direction I su) M.nrows).max_change *
          entering_direction I su := rfl
    rw [e1, e2, e3, e4] at this
    rw [this]
    unfold row_g
    ring
  obtain ⟨h1, h2, h3, h4⟩ := leaving_scan_spec M I (entering_direction I su) M.nrows
  have hgnz : ∀ i, RowEligible I (entering_direction I su) i →
      row_g I (entering_direction I su) i ≠ 0 := by
    intro i hel h0
    have := hel.1
    rw [h0, abs_zero] at this
    exact absurd this (not_lt.mpr htol)
  constructor
  · intro i hi hel
    have hm := h2 i hi hel
    constructor
    · intro hg
      rw [hx i hi]
      have : row_ratio I (entering_direction I su) i =
          (I.xu (I.basics i) - I.x (I.basics i)) / row_g I (entering_direction I su) i := by
        unfold row_ratio row_bound
        rw [if_pos hg]
      rw [this, le_div_iff₀ hg] at hm
      linarith
    · intro hg
      rw [hx i hi]
      have hng : ¬ row_g I (entering_direction I su) i > 0 := not_lt.mpr (le_of_lt hg)
      have : row_ratio I (entering_direction I su) i =
          (I.xl (I.basics i) - I.x (I.basics i)) / row_g I (entering_direction I su) i := by
        unfold row_ratio row_bound
        rw [if_neg hng]
      rw [this, le_div_iff_of_neg hg] at hm
      linarith
  · intro li hli hl
    have hval : (update_variables M (with_ratio_test I (find_leaving_variable M I su))).x
        (I.basics li) =
        (if (find_leaving_variable M I su).2.2 then I.xl (I.basics li)
          else I.xu (I.basics li)) := by
      rw [hx li hli]
      rw [find_leaving_variable_eq] at hl ⊢
      simp only [] at hl ⊢
      rcases h3 with ⟨h, _⟩ | ⟨l2, _, hl2, hel, hr, htl, _⟩
      · rw [h] at hl; omega
      · have hll : l2 = li := by rw [hl2] at hl; exact_mod_cast hl
        subst hll
        rw [← hr, htl]
        have hne := hgnz l2 hel
        unfold row_ratio row_bound
        by_cases hg : row_g I (entering_direction I su) l2 > 0
        · have hng : ¬ row_g I (entering_direction I su) l2 < 0 := not_lt.mpr (le_of_lt hg)
          rw [if_pos hg, div_mul_cancel₀ _ hne]
          simp only [hng, decide_False, Bool.false_eq_true, if_false]
          ring
        · have hlt : row_g I (entering_direction I su) l2 < 0 :=
            lt_of_le_of_ne (not_lt.mp hg) hne
          rw [if_neg hg, div_mul_cancel₀ _ hne]
          simp only [hlt, decide_True, if_true]
          ring
    refine ⟨hval, ?_⟩
    intro hne
    rw [apply_pivot_x]
    have e0 : (with_ratio_test I (find_leaving_variable M I su)).leaving_index = (li : Int) := hl
    have e1 : (with_ratio_test I (find_leaving_variable M I su)).basics = I.basics := rfl
    have e2 : (with_ratio_test I (find_leaving_variable M I su)).entering_index =
        I.entering_index := rfl
    have e3 : (with_ratio_test I (find_leaving_variable M I su)).xl = I.xl := rfl
    have e4 : (with_ratio_test I (find_leaving_variable M I su)).xu = I.xu := rfl
    have e5 : (with_ratio_test I (find_leaving_variable M I su)).max_change =
        (find_leaving_variable M I su).2.1 := rfl
    rw [e0, e1, e2, e3, e4, e5, if_pos (by omega), Int.toNat_ofNat]
    apply Function.update_eq_self_iff.mpr
    rw [Function.update_noteq (hne li hli), hval]

/-! ## The entering column: `compute_gradient` -/

/-- In a strictly ascending run of columns the first is below all later ones. -/
theorem ascending_first (idx : Nat → Nat) (j n : Nat)
    (hasc : ∀ t, t < n - 1 → idx (j + t) < idx (j + t + 1)) (t : Nat) (ht : t < n) (h0 : 0 < t) :
    idx j < idx (j + t) := by
  induction t with
  | zero => exact absurd h0 (Nat.lt_irrefl 0)
  | succ k ih =>
    have hk := hasc k (by omega)
    rcases Nat.eq_zero_or_pos k with h | h
    · subst h; simpa using hk
    · exact lt_trans (ih (by omega) h) hk

/-- The row scan of `compute_gradient` on a strictly ascending run: it finds the entry of
column `e` if the run has one (the early exit skips none), and there is at most one. -/
theorem scan_row_spec (M : Model) (e : Int) (n : Nat) : ∀ j,
    (∀ t, t < n - 1 → M.indexes (j + t) < M.indexes (j + t + 1)) →
    ((∀ t, t < n → (M.indexes (j + t) : Int) ≠ e) ∧ scan_row M e j n = none) ∨
    ∃ t, t < n ∧ (M.indexes (j + t) : Int) = e ∧ scan_row M e j n = some (M.elements (j + t)) ∧
      ∀ u, u < n → (M.indexes (j + u) : Int) = e → u = t := by
  induction n with
  | zero =>
    intro j _
    exact Or.inl ⟨fun t ht => absurd ht (Nat.not_lt_zero t), rfl⟩
  | succ m ih =>
    intro j hasc
    have hfirst := ascending_first M.indexes j (m + 1) hasc
    unfold scan_row
    simp only []
    by_cases h1 : (M.indexes j : Int) = e
    · rw [if_pos h1]
      refine Or.inr ⟨0, Nat.succ_pos m, by simpa using h1, by simp, ?_⟩
      intro u hu hue
      by_contra hne
      have := hfirst u hu (Nat.pos_of_ne_zero hne)
      rw [← h1] at hue
      have : M.indexes (j + u) = M.indexes j := by exact_mod_cast hue
      omega
    · rw [if_neg h1]
      by_cases h2 : (M.indexes j : Int) > e
      · rw [if_pos h2]
        refine Or.inl ⟨?_, rfl⟩
        intro t ht hte
        rcases Nat.eq_zero_or_pos t with h | h
        · subst h; exact h1 (by simpa using hte)
        · have := hfirst t ht h
          have h3 : (M.indexes j : Int) < (M.indexes (j + t) : Int) := by exact_mod_cast this
          omega
      · rw [if_neg h2]
        have hasc' : ∀ t, t < m - 1 → M.indexes (j + 1 + t) < M.indexes (j + 1 + t + 1) := by
          intro t ht
          have := hasc (t + 1) (by omega)
          have e1 : j + (t + 1) = j + 1 + t := by omega
          rw [e1] at this
          exact this
        rcases ih (j + 1) hasc' with ⟨hno, hs⟩ | ⟨t, ht, hte, hs, huniq⟩
        · refine Or.inl ⟨?_, hs⟩
          intro t ht
          rcases Nat.eq_zero_or_pos t with h | h
          · subst h; simpa using h1
          · have := hno (t - 1) (by omega)
            have e1 : j + 1 + (t - 1) = j + t := by omega
            rw [e1] at this
            exact this
        · have e1 : j + 1 + t = j + (t + 1) := by omega
          rw [e1] at hte hs
          refine Or.inr ⟨t + 1, by omega, hte, hs, ?_⟩
          intro u hu hue
          rcases Nat.eq_zero_or_pos u with h | h
          · subst h; exact absurd (by simpa using hue) h1
          · have e2 : j + u = j + 1 + (u - 1) := by omega
            rw [e2] at hue
            have := huniq (u - 1) (by omega) hue
            omega

/-- On a model with ascending rows the value found by the row scan is the stored entry. -/
theorem column_entry_eq_stored (M : Model) (hasc : RowsAscending M) (e : Int) (i : Nat)
    (hi : i < M.nrows) : column_entry M e i = stored_entry M i e := by
  unfold column_entry stored_entry
  rcases scan_row_spec M e (M.row_starts (i + 1) - M.row_starts i) (M.row_starts i) (hasc i hi)
    with ⟨hno, hs⟩ | ⟨t, ht, hte, hs, huniq⟩
  · rw [hs]
    symm
    apply sum_eq_zero
    intro t ht
    rw [if_neg (hno t (mem_range.mp ht))]
  · rw [hs]
    symm
    simp only []
    rw [sum_eq_single t]
    · rw [if_pos hte]
    · intro u hu hne
      rw [if_neg]
      intro hue
      exact hne (huniq u (mem_range.mp hu) hue)
    · intro hnt
      exact absurd (mem_range.mpr ht) hnt

/-- C14. On a model whose rows have strictly ascending column indices (and monotone
`row_starts`), `compute_gradient` sets `gradient[j]` to the sum over the rows `i` of
`Binverse[j][i] * A[i][e]` for every `j < nrows`, where `A[i][e]` is the stored element of row
`i` in column `e`, or `0` when the row has none: `gradient = Binverse * A[:, e]`.  The early
exit of the scan never skips a present entry: the scan of a row that stores column `e` finds
that element. -/
theorem compute_gradient_spec (M : Model) (I : Instance) (hasc : RowsAscending M)
    (_hmono : RowStartsMonotone M) :
    (∀ j, j < M.nrows →
      (compute_gradient M I).gradient j =
        ∑ i in range M.nrows, I.Binverse (j * M.nrows + i) * stored_entry M i I.entering_index) ∧
    (∀ i, i < M.nrows → ∀ t, t < M.row_starts (i + 1) - M.row_starts i →
      (M.indexes (M.row_starts i + t) : Int) = I.entering_index →
      scan_row M I.entering_index (M.row_starts i) (M.row_starts (i + 1) - M.row_starts i) =
        some (M.elements (M.row_starts i + t))) := by
  constructor
  · intro j hj
    rw [compute_gradient_entry, if_pos hj]
    apply sum_congr rfl
    intro i hi
    rw [column_entry_eq_stored M hasc _ i (mem_range.mp hi), mul_comm]
  · intro i hi t ht hte
    rcases scan_row_spec M I.entering_index (M.row_starts (i + 1) - M.row_starts i)
      (M.row_starts i) (hasc i hi) with ⟨hno, _⟩ | ⟨u, _, _, hs, huniq⟩
    · exact absurd hte (hno t ht)
    · rw [hs, huniq t ht hte]

/-! ## Pricing vectors: `compute_pi` and `compute_reduced_cost` -/

/-- The contribution of a row to a nonbasic column is `pi[i]` times the stored entry. -/
theorem row_price_nonbasic (M : Model) (I : Instance) (i k : Nat) (hk : I.status k ≠ 0) :
    row_price M I i k =
      if |I.pi i| > I.TOLERANCE then I.pi i * stored_entry M i (k : Int) else 0 := by
  unfold row_price stored_entry
  by_cases hp : |I.pi i| > I.TOLERANCE
  · rw [if_pos hp, if_pos hp, mul_sum]
    apply sum_congr rfl
    intro t _
    by_cases hc : M.indexes (M.row_starts i + t) = k
    · have hc' : (M.indexes (M.row_starts i + t) : Int) = (k : Int) := by exact_mod_cast hc
      rw [if_pos ⟨hc, hk⟩, if_pos hc']
    · have hc' : ¬ (M.indexes (M.row_starts i + t) : Int) = (k : Int) := by exact_mod_cast hc
      rw [if_neg (fun h => hc h.1), if_neg hc', mul_zero]
  · rw [if_neg hp, if_neg hp]

/-- A row contributes nothing to the reduced cost of a basic column. -/
theorem row_price_basic (M : Model) (I : Instance) (i k : Nat) (hk : I.status k = 0) :
    row_price M I i k = 0 := by
  unfold row_price
  split_ifs
  · apply sum_eq_zero
    intro t _
    rw [if_neg]
    intro hc
    exact hc.2 hk
  · rfl

/-- C15. After `compute_pi` followed by `compute_reduced_cost`: `pi[j]` is the sum over the rows
`i` with `|basic_costs[i]| > TOLERANCE` of `basic_costs[i] * Binverse[i][j]`; the reduced cost
of every basic structural variable is exactly `0`; and the reduced cost of every nonbasic
structural `k` is `costs[k]` minus the sum over the rows `i` with `|pi[i]| > TOLERANCE` of
`pi[i] * A[i][k]`, where `A[i][k]` sums all stored entries of row `i` in column `k`. -/
theorem pricing_vectors_spec (M : Model) (I : Instance) :
    (∀ j, j < M.nrows →
      (compute_reduced_cost M (compute_pi M I)).pi j =
        ∑ i in range M.nrows,
          if |I.basic_costs i| > I.TOLERANCE then I.basic_costs i * I.Binverse (i * M.nrows + j)
          else 0) ∧
    (∀ k, k < M.nvars → I.status k = BASIC →
      (compute_reduced_cost M (compute_pi M I)).reduced_costs k = 0) ∧
    (∀ k, k < M.nvars → I.status k ≠ BASIC →
      (compute_reduced_cost M (compute_pi M I)).reduced_costs k =
        I.costs k - ∑ i in range M.nrows,
          if |(compute_reduced_cost M (compute_pi M I)).pi i| > I.TOLERANCE then
            (compute_reduced_cost M (compute_pi M I)).pi i * stored_entry M i (k : Int)
          else 0) := by
  have hpi : (compute_reduced_cost M (compute_pi M I)).pi = (compute_pi M I).pi := rfl
  have hst : (compute_pi M I).status = I.status := rfl
  have hco : (compute_pi M I).costs = I.costs := rfl
  have htl : (compute_pi M I).TOLERANCE = I.TOLERANCE := rfl
  refine ⟨?_, ?_, ?_⟩
  · intro j hj
    rw [hpi, compute_pi_entry, if_pos hj]
  · intro k hk hb
    rw [compute_reduced_cost_entry, if_pos hk, hst]
    have hb0 : I.status k = 0 := hb
    have h0 : ¬ I.status k ≠ 0 := fun h => h hb0
    rw [if_neg h0, zero_sub, neg_eq_zero]
    apply sum_eq_zero
    intro i _
    exact row_price_basic M (compute_pi M I) i k hb0
  · intro k hk hb
    have hb0 : I.status k ≠ 0 := hb
    rw [compute_reduced_cost_entry, if_pos hk, hst, if_pos hb0, hco, hpi]
    congr 1
    apply sum_congr rfl
    intro i _
    rw [row_price_nonbasic M (compute_pi M I) i k hb0, htl]

/-! ## The phase switch -/

/-- Pricing does not read the model's cost vector. -/
theorem pad_price (v : ℚ) :
    price (padM v) (tick (restart padI)) = price (padM 0) (tick (restart padI)) := rfl

/-- The first pricing pass on `padM` finds no entering variable. -/
theorem pad_first_pricing :
    (price (padM 0) (tick (restart padI))).entering_index < 0 ∧
    (price (padM 0) (tick (restart padI))).phase = 1 ∧
    (price (padM 0) (tick (restart padI))).basics 0 = 1 ∧
    (price (padM 0) (tick (restart padI))).basic_costs 0 = 1 := by
  decide!

/-- C16 (failing input). On `padM v` the first pass finds no entering variable and switches
to phase 2.  The artificial of row `0` has index `1 = nvars`; the resynchronisation, written
`basics[i] <= nvars`, treats it as structural: it reads `c[nvars]` and overwrites the
artificial's basic cost `1` with that value, whatever it is. -/
theorem rsm_solve_resync_reads_padding (v su : ℚ) :
    ∃ J, rsm_body (padM v) su (restart padI) = Flow.next J ∧ J.phase = 2 ∧
      J.costs = (padM v).c ∧
      (restart padI).basics 0 = (padM v).nvars ∧ J.basics 0 = (padM v).nvars ∧
      (restart padI).basic_costs 0 = 1 ∧
      J.basic_costs 0 = (padM v).c (padM v).nvars ∧ (padM v).c (padM v).nvars = v := by
  obtain ⟨h1, h2, h3, h4⟩ := pad_first_pricing
  rcases rsm_body_cases (padM v) su (restart padI) with h | h | h | h | h | h
  · exact absurd h.1 (by decide)
  · obtain ⟨_, _, _, hinf, _⟩ := h
    rw [pad_price] at hinf
    have : phase1_infeasible (padM v) (price (padM 0) (tick (restart padI))) = false := by
      rw [Bool.eq_false_iff]
      intro hc
      rw [phase1_infeasible_iff] at hc
      obtain ⟨i, hi, hb, _⟩ := hc
      have hi0 : i = 0 := by
        have : i < 1 := hi
        omega
      subst hi0
      rw [h3] at hb
      exact absurd hb (Nat.lt_irrefl 1)
    rw [this] at hinf
    exact absurd hinf (by decide)
  · obtain ⟨_, _, _, _, hbody⟩ := h
    rw [pad_price] at hbody
    refine ⟨_, hbody, rfl, rfl, rfl, h3, rfl, ?_, rfl⟩
    rw [enter_phase2_basic_costs, if_pos ⟨Nat.zero_lt_one, by rw [h3]; exact Nat.le_refl 1⟩, h3]
    rfl
  · obtain ⟨_, _, hph, _⟩ := h
    rw [pad_price] at hph
    exact absurd h2 hph
  · obtain ⟨_, hpos, _⟩ := h
    rw [pad_price] at hpos
    omega
  · obtain ⟨_, hpos, _⟩ := h
    rw [pad_price] at hpos
    omega

/-! ## The bound flip -/

/-- For a free entering variable the direction is set from the sign of its reduced cost. -/
theorem entering_direction_free (I : Instance) (su : ℚ)
    (h : I.status I.entering_index.toNat = NONBASIC_FREE) :
    entering_direction I su = if I.reduced_costs I.entering_index.toNat > 0 then -1 else 1 := by
  unfold entering_direction
  simp [h, NONBASIC_UPPER, NONBASIC_LOWER, NONBASIC_FREE]

/-- The frame of a bound flip: without a leaving row the pivot leaves `basics`, `basic_costs`
and `Binverse` alone and negates the status of the entering variable, changing no other. -/
theorem apply_pivot_flip (M : Model) (I : Instance) (tl : Bool) (h : I.leaving_index < 0) :
    (apply_pivot M I tl).basics = I.basics ∧
    (apply_pivot M I tl).basic_costs = I.basic_costs ∧
    (apply_pivot M I tl).Binverse = I.Binverse ∧
    (apply_pivot M I tl).status =
      Function.update I.status I.entering_index.toNat (- I.status I.entering_index.toNat) := by
  have hn : ¬ I.leaving_index ≥ 0 := by omega
  refine ⟨?_, ?_, ?_, ?_⟩
  · rw [apply_pivot_basics, if_neg hn]
  · rw [apply_pivot_basic_costs, if_neg hn]
  · rw [apply_pivot_Binverse, if_neg hn]
  · rw [apply_pivot_status, if_neg hn]

/-- The first pass on `tinyM`, with the direction read from an initialised `s`. -/
theorem tiny_first_pass :
    (price tinyM (tick (restart tinyI))).entering_index = 0 ∧
    (price tinyM (tick (restart tinyI))).status 0 = NONBASIC_FREE ∧
    (start_pivot tinyM 0 (price tinyM (tick (restart tinyI)))).1.leaving_index = -2 ∧
    (rsm_body tinyM 0 (restart tinyI)).isNext = true ∧
    (rsm_body tinyM 0 (restart tinyI)).state.status 0 = -2 ∧
    (rsm_body tinyM 0 (restart tinyI)).state.phase = 1 := by
  decide!

/-- C17 (failing input). On `tinyM` the free variable `x` is priced in (the two tiny entries
add up to a reduced cost beyond the tolerance), no row passes the guard `|g| > TOLERANCE`, so
there is no leaving variable and the pass ends in the bound flip
`status[e] = -status[e]`: the status of `x` goes from `NONBASIC_FREE = 2` to `-2`, which is
none of the four tags. -/
theorem rsm_body_flip_free (su : ℚ) :
    (price tinyM (tick (restart tinyI))).entering_index = 0 ∧
    (restart tinyI).status 0 = NONBASIC_FREE ∧
    (start_pivot tinyM su (price tinyM (tick (restart tinyI)))).1.leaving_index < 0 ∧
    (rsm_body tinyM su (restart tinyI)).isNext = true ∧
    (rsm_body tinyM su (restart tinyI)).state.status 0 = -2 ∧
    (rsm_body tinyM su (restart tinyI)).state.status 0 ≠ BASIC ∧
    (rsm_body tinyM su (restart tinyI)).state.status 0 ≠ NONBASIC_LOWER ∧
    (rsm_body tinyM su (restart tinyI)).state.status 0 ≠ NONBASIC_UPPER ∧
    (rsm_body tinyM su (restart tinyI)).state.status 0 ≠ NONBASIC_FREE := by
  obtain ⟨h1, h2, h3, h4, h5, _⟩ := tiny_first_pass
  have hfree : (price tinyM (tick (restart tinyI))).status
      (price tinyM (tick (restart tinyI))).entering_index.toNat = NONBASIC_FREE := by
    rw [h1]; exact h2
  have hd : entering_direction (first_ratio_state tinyM tinyI) su =
      entering_direction (first_ratio_state tinyM tinyI) 0 := by
    have hfree' : (first_ratio_state tinyM tinyI).status
        (first_ratio_state tinyM tinyI).entering_index.toNat = NONBASIC_FREE := hfree
    rw [entering_direction_free _ su hfree', entering_direction_free _ 0 hfree']
  have hflv : find_leaving_variable tinyM (first_ratio_state tinyM tinyI) su =
      find_leaving_variable tinyM (first_ratio_state tinyM tinyI) 0 := by
    rw [find_leaving_variable_eq, find_leaving_variable_eq, hd]
  have hsp : start_pivot tinyM su (price tinyM (tick (restart tinyI))) =
      start_pivot tinyM 0 (price tinyM (tick (restart tinyI))) := by
    rw [start_pivot_first, start_pivot_first, hflv]
  have hbody : rsm_body tinyM su (restart tinyI) = rsm_body tinyM 0 (restart tinyI) := by
    unfold rsm_body pivot_branch
    simp only []
    rw [hsp]
  rw [hbody, hsp, h3, h5]
  refine ⟨h1, rfl, by decide, h4, rfl, ?_, ?_, ?_, ?_⟩ <;> decide

/-! ## The step and the linear constraints -/

/-- A left inverse of a square matrix is a right inverse: from `Binverse * B = I` on the
`n × n` block follows `B * Binverse = I`. -/
theorem right_inverse_of_left (n : Nat) (Bi : Nat → ℚ) (B : Nat → Nat → ℚ)
    (hinv : ∀ i, i < n → ∀ k, k < n →
      ∑ j in range n, Bi (i * n + j) * B j k = if i = k then 1 else 0) :
    ∀ r, r < n → ∀ c, c < n →
      ∑ k in range n, B r k * Bi (k * n + c) = if r = c then 1 else 0 := by
  have h1 : (Matrix.of fun i j : Fin n => Bi (i.val * n + j.val)) *
      (Matrix.of fun j k : Fin n => B j.val k.val) = 1 := by
    ext i k
    rw [Matrix.mul_apply, Matrix.one_apply]
    have := hinv i.val i.isLt k.val k.isLt
    rw [Finset.sum_range] at this
    simp only [Matrix.of_apply]
    rw [this]
    by_cases h : i = k
    · subst h; simp
    · have : i.val ≠ k.val := fun hv => h (Fin.ext hv)
      simp [h, this]
  have h2 := Matrix.mul_eq_one_comm.mp h1
  intro r hr c hc
  have h3 := congrFun (congrFun h2 ⟨r, hr⟩) ⟨c, hc⟩
  rw [Matrix.mul_apply, Matrix.one_apply] at h3
  simp only [Matrix.of_apply] at h3
  rw [Finset.sum_range, h3]
  by_cases h : r = c
  · subst h; simp
  · have : (⟨r, hr⟩ : Fin n) ≠ ⟨c, hc⟩ := fun hv => h (Fin.mk.inj hv)
    simp [h, this]

/-- C19. The step preserves the linear constraints: for a basis matrix `B` with
`Binverse * B = I`, an entering column `a` with `gradient = Binverse * a`, injective `basics`
and a nonbasic entering variable, every row of `B * x_B + a * x[entering]` is the same before
and after `update_variables` followed by `x[entering] += max_change`, for every value of
`max_change`; and the variables that are neither basic nor entering keep their values. -/
theorem update_variables_preserves_constraints (M : Model) (I : Instance)
    (B : Nat → Nat → ℚ) (a : Nat → ℚ)
    (hinv : ∀ i, i < M.nrows → ∀ k, k < M.nrows →
      ∑ j in range M.nrows, I.Binverse (i * M.nrows + j) * B j k = if i = k then 1 else 0)
    (hgrad : ∀ i, i < M.nrows →
      I.gradient i = ∑ j in range M.nrows, I.Binverse (i * M.nrows + j) * a j)
    (hinj : BasicsInjective M I)
    (hnb : ∀ r, r < M.nrows → I.basics r ≠ I.entering_index.toNat) :
    (∀ r, r < M.nrows →
      ∑ k in range M.nrows, B r k *
          Function.update (update_variables M I).x I.entering_index.toNat
            ((update_variables M I).x I.entering_index.toNat + I.max_change) (I.basics k) +
        a r * Function.update (update_variables M I).x I.entering_index.toNat
            ((update_variables M I).x I.entering_index.toNat + I.max_change)
            I.entering_index.toNat =
      ∑ k in range M.nrows, B r k * I.x (I.basics k) + a r * I.x I.entering_index.toNat) ∧
    (∀ j, (∀ r, r < M.nrows → I.basics r ≠ j) → j ≠ I.entering_index.toNat →
      Function.update (update_variables M I).x I.entering_index.toNat
        ((update_variables M I).x I.entering_index.toNat + I.max_change) j = I.x j) := by
  have hright := right_inverse_of_left M.nrows I.Binverse B hinv
  have hBg : ∀ r, r < M.nrows → ∑ k in range M.nrows, B r k * I.gradient k = a r := by
    intro r hr
    have e1 : ∑ k in range M.nrows, B r k * I.gradient k =
        ∑ k in range M.nrows, ∑ j in range M.nrows,
          B r k * I.Binverse (k * M.nrows + j) * a j := by
      apply sum_congr rfl
      intro k hk
      rw [hgrad k (mem_range.mp hk), mul_sum]
      apply sum_congr rfl
      intro j _
      ring
    rw [e1, sum_comm]
    have e2 : ∀ j ∈ range M.nrows,
        ∑ k in range M.nrows, B r k * I.Binverse (k * M.nrows + j) * a j =
          (if r = j then 1 else 0) * a j := by
      intro j hj
      rw [← sum_mul, hright r hr j (mem_range.mp hj)]
    rw [sum_congr rfl e2]
    simp [hr]
  constructor
  · intro r hr
    rw [Function.update_same, update_variables_frame M I _ hnb]
    have e3 : ∀ k ∈ range M.nrows,
        B r k * Function.update (update_variables M I).x I.entering_index.toNat
          (I.x I.entering_index.toNat + I.max_change) (I.basics k) =
        B r k * I.x (I.basics k) - I.max_change * (B r k * I.gradient k) := by
      intro k hk
      rw [Function.update_noteq (hnb k (mem_range.mp hk)),
        update_variables_basic M I hinj k (mem_range.mp hk)]
      ring
    rw [sum_congr rfl e3, sum_sub_distrib, ← mul_sum, hBg r hr]
    ring
  · intro j hj hje
    rw [Function.update_noteq hje, update_variables_frame M I j hj]

/-! ## Instances of the component contracts -/

/-- Witness for C11: the first pricing of the end-to-end problem. -/
theorem find_entering_variable_spec_witness :
    (∀ i, i < e2eM.nvars → pricedI.basic_cycles i < INT_MAX) ∧
    ((∀ i, entering_score pricedI i =
      if pricedI.status i = NONBASIC_FREE then - |pricedI.reduced_costs i|
      else (pricedI.status i : ℚ) * pricedI.reduced_costs i) ∧
    (find_entering_variable e2eM pricedI < 0 ↔ ∀ i, i < e2eM.nvars → ¬ IsCandidate pricedI i) ∧
    (0 ≤ find_entering_variable e2eM pricedI →
      ∃ i, i < e2eM.nvars ∧ find_entering_variable e2eM pricedI = (i : Int) ∧
        IsCandidate pricedI i ∧
        (∀ j, j < e2eM.nvars → IsCandidate pricedI j →
          pricedI.basic_cycles i ≤ pricedI.basic_cycles j) ∧
        (∀ j, j < e2eM.nvars → IsCandidate pricedI j →
          pricedI.basic_cycles j = pricedI.basic_cycles i →
          entering_score pricedI i ≤ entering_score pricedI j))) := by
  have h2 : ∀ i, i < e2eM.nvars → pricedI.basic_cycles i < INT_MAX := by decide!
  exact ⟨h2, find_entering_variable_spec e2eM pricedI h2⟩

/-- Witness for C12 (amended): the first ratio test of the end-to-end problem, a bound flip. -/
theorem find_leaving_variable_no_row_witness :
    (∀ i, i < e2eM.nrows → RowEligible flipS (entering_direction flipS 0) i →
      ¬ row_ratio flipS (entering_direction flipS 0) i < bound_span flipS) ∧
    ((find_leaving_variable e2eM flipS 0).2.1 = entering_direction flipS 0 * bound_span flipS ∧
    ((find_leaving_variable e2eM flipS 0).1 < 0 ↔
      ∀ i, i < e2eM.nrows → RowEligible flipS (entering_direction flipS 0) i →
        e2eM.nvars ≤ flipS.basics i →
        row_ratio flipS (entering_direction flipS 0) i ≠ bound_span flipS)) := by
  have h : ∀ i, i < e2eM.nrows → RowEligible flipS (entering_direction flipS 0) i →
      ¬ row_ratio flipS (entering_direction flipS 0) i < bound_span flipS := by decide!
  exact ⟨h, find_leaving_variable_no_row e2eM flipS 0 h⟩

/-- Witness for C20: the first ratio test of the tie problem, where the artificial leaves at
its lower bound. -/
theorem ratio_step_respects_bounds_witness :
    0 ≤ tieS.TOLERANCE ∧ BasicsInjective tieM tieS ∧
    ((∀ i, i < tieM.nrows → RowEligible tieS (entering_direction tieS 0) i →
      (row_g tieS (entering_direction tieS 0) i > 0 →
        (update_variables tieM (with_ratio_test tieS (find_leaving_variable tieM tieS 0))).x
            (tieS.basics i) ≤ tieS.xu (tieS.basics i)) ∧
      (row_g tieS (entering_direction tieS 0) i < 0 →
        tieS.xl (tieS.basics i) ≤
          (update_variables tieM (with_ratio_test tieS (find_leaving_variable tieM tieS 0))).x
            (tieS.basics i))) ∧
    (∀ li, li < tieM.nrows → (find_leaving_variable tieM tieS 0).1 = (li : Int) →
      (update_variables tieM (with_ratio_test tieS (find_leaving_variable tieM tieS 0))).x
          (tieS.basics li) =
        (if (find_leaving_variable tieM tieS 0).2.2 then tieS.xl (tieS.basics li)
          else tieS.xu (tieS.basics li)) ∧
      ((∀ r, r < tieM.nrows → tieS.basics r ≠ tieS.entering_index.toNat) →
        (apply_pivot tieM (with_ratio_test tieS (find_leaving_variable tieM tieS 0))
            (find_leaving_variable tieM tieS 0).2.2).x =
          Function.update
            (update_variables tieM (with_ratio_test tieS (find_leaving_variable tieM tieS 0))).x
            tieS.entering_index.toNat
            ((update_variables tieM
              (with_ratio_test tieS (find_leaving_variable tieM tieS 0))).x
              tieS.entering_index.toNat + (find_leaving_variable tieM tieS 0).2.1)))) := by
  have h1 : 0 ≤ tieS.TOLERANCE := by decide!
  have h2 : BasicsInjective tieM tieS := by unfold BasicsInjective; decide!
  exact ⟨h1, h2, ratio_step_respects_bounds tieM tieS 0 h1 h2⟩

/-- Witness for C14: the end-to-end model, whose single row stores columns `0, 1, 2`. -/
theorem compute_gradient_spec_witness :
    RowsAscending e2eM ∧ RowStartsMonotone e2eM ∧
    ((∀ j, j < e2eM.nrows →
      (compute_gradient e2eM (price e2eM (tick (restart e2eI)))).gradient j =
        ∑ i in range e2eM.nrows,
          (price e2eM (tick (restart e2eI))).Binverse (j * e2eM.nrows + i) *
            stored_entry e2eM i (price e2eM (tick (restart e2eI))).entering_index) ∧
    (∀ i, i < e2eM.nrows → ∀ t, t < e2eM.row_starts (i + 1) - e2eM.row_starts i →
      (e2eM.indexes (e2eM.row_starts i + t) : Int) =
        (price e2eM (tick (restart e2eI))).entering_index →
      scan_row e2eM (price e2eM (tick (restart e2eI))).entering_index (e2eM.row_starts i)
          (e2eM.row_starts (i + 1) - e2eM.row_starts i) =
        some (e2eM.elements (e2eM.row_starts i + t)))) := by
  have h1 : RowsAscending e2eM := by unfold RowsAscending; decide!
  have h2 : RowStartsMonotone e2eM := by unfold RowStartsMonotone; decide!
  exact ⟨h1, h2, compute_gradient_spec e2eM (price e2eM (tick (restart e2eI))) h1 h2⟩

/-- Witness for C19: the first pivot on the two-row problem `x = 1`, `x = 2`. -/
theorem update_variables_preserves_constraints_witness :
    (∀ i, i < (twoRowsM 1 2).nrows → ∀ k, k < (twoRowsM 1 2).nrows →
      ∑ j in range (twoRowsM 1 2).nrows,
        firstPivotI.Binverse (i * (twoRowsM 1 2).nrows + j) * unitB j k =
          if i = k then 1 else 0) ∧
    (∀ i, i < (twoRowsM 1 2).nrows →
      firstPivotI.gradient i =
        ∑ j in range (twoRowsM 1 2).nrows,
          firstPivotI.Binverse (i * (twoRowsM 1 2).nrows + j) * (arr [1, 1] : Nat → ℚ) j) ∧
    BasicsInjective (twoRowsM 1 2) firstPivotI ∧
    (∀ r, r < (twoRowsM 1 2).nrows → firstPivotI.basics r ≠ firstPivotI.entering_index.toNat) ∧
    ((∀ r, r < (twoRowsM 1 2).nrows →
      ∑ k in range (twoRowsM 1 2).nrows, unitB r k *
          Function.update (update_variables (twoRowsM 1 2) firstPivotI).x
            firstPivotI.entering_index.toNat
            ((update_variables (twoRowsM 1 2) firstPivotI).x firstPivotI.entering_index.toNat +
              firstPivotI.max_change) (firstPivotI.basics k) +
        (arr [1, 1] : Nat → ℚ) r *
          Function.update (update_variables (twoRowsM 1 2) firstPivotI).x
            firstPivotI.entering_index.toNat
            ((update_variables (twoRowsM 1 2) firstPivotI).x firstPivotI.entering_index.toNat +
              firstPivotI.max_change) firstPivotI.entering_index.toNat =
      ∑ k in range (twoRowsM 1 2).nrows, unitB r k * firstPivotI.x (firstPivotI.basics k) +
        (arr [1, 1] : Nat → ℚ) r * firstPivotI.x firstPivotI.entering_index.toNat) ∧
    (∀ j, (∀ r, r < (twoRowsM 1 2).nrows → firstPivotI.basics r ≠ j) →
      j ≠ firstPivotI.entering_index.toNat →
      Function.update (update_variables (twoRowsM 1 2) firstPivotI).x
        firstPivotI.entering_index.toNat
        ((update_variables (twoRowsM 1 2) firstPivotI).x firstPivotI.entering_index.toNat +
          firstPivotI.max_change) j = firstPivotI.x j)) := by
  have h1 : ∀ i, i < (twoRowsM 1 2).nrows → ∀ k, k < (twoRowsM 1 2).nrows →
      ∑ j in range (twoRowsM 1 2).nrows,
        firstPivotI.Binverse (i * (twoRowsM 1 2).nrows + j) * unitB j k =
          if i = k then 1 else 0 := by decide!
  have h2 : ∀ i, i < (twoRowsM 1 2).nrows →
      firstPivotI.gradient i =
        ∑ j in range (twoRowsM 1 2).nrows,
          firstPivotI.Binverse (i * (twoRowsM 1 2).nrows + j) * (arr [1, 1] : Nat → ℚ) j := by
    decide!
  have h3 : BasicsInjective (twoRowsM 1 2) firstPivotI := by unfold BasicsInjective; decide!
  have h4 : ∀ r, r < (twoRowsM 1 2).nrows →
      firstPivotI.basics r ≠ firstPivotI.entering_index.toNat := by decide!
  exact ⟨h1, h2, h3, h4,
    update_variables_preserves_constraints (twoRowsM 1 2) firstPivotI unitB (arr [1, 1])
      h1 h2 h3 h4⟩

end RSM
